import Mathlib

/-!
# simple-language: lexer, parser, evaluator and interpreter

A shallow embedding of `src/token.h`, `src/lexer.cpp`, `src/parser.cpp`,
`src/ast.cpp` and `src/interpreter.cpp`.

* C++ `char` strings are lists of characters; the lexer state
  `(input, position, current_char)` is represented by the not yet consumed
  suffix `input[position..]`, whose head is `current_char` (NUL when empty).
* `double` is a carrier type `V` with the operations the program uses,
  collected in `Arith`; theorems hold for every such arithmetic.
  `decimalArith` is the instance with exact decimal arithmetic over the
  rationals, with which IEEE doubles agree on exactly representable values.
* `std::map<std::string, double>` is a function `String → Option V`.
* C++ exceptions are results: a thrown `std::runtime_error` carries its
  message.  The `while` loops and the recursive descent run on a fuel
  counter; running out of fuel is an outcome of its own, shown not to occur.
-/

namespace SimpleLang

/-! ## token.h -/

inductive TokenType
  | NUMBER
  | PLUS
  | MINUS
  | MULTIPLY
  | DIVIDE
  | LPAREN
  | RPAREN
  | IDENTIFIER
  | EQUALS
  | EOF_TOKEN
  deriving DecidableEq

structure Token where
  type : TokenType
  value : String
  deriving DecidableEq

/-! ## The numeric type -/

/-- The operations on `double` used by the program: the four arithmetic
operators, the test `x == 0`, the constant `0` and `std::stod`
(`none` when it throws `std::invalid_argument` or `std::out_of_range`). -/
structure Arith (V : Type) where
  add : V → V → V
  sub : V → V → V
  mul : V → V → V
  div : V → V → V
  eqZero : V → Bool
  zero : V
  stod : String → Option V

/-- The variable map `std::map<std::string, double>`. -/
abbrev Env (V : Type) := String → Option V

/-- Outcome of a computation that may throw: a value, a thrown
`std::exception` with its `what()` message, or fuel exhaustion of the model. -/
inductive Run (α : Type)
  | ok (a : α)
  | throw (msg : String)
  | outOfFuel

/-! ## lexer.cpp -/

namespace Lexer

/-- The character `'\0'`. -/
def NUL : Char := Char.ofNat 0

/-- The classification `std::isspace` in the "C" locale: space, `\t`, `\n`, `\v`, `\f`, `\r`. -/
def isspace (c : Char) : Bool := c.toNat == 32 || (9 ≤ c.toNat && c.toNat ≤ 13)

/-- The classification `std::isdigit`: `'0'..'9'`. -/
def isdigit (c : Char) : Bool := 48 ≤ c.toNat && c.toNat ≤ 57

/-- The classification `std::isalpha` in the "C" locale: `'A'..'Z'` and `'a'..'z'`. -/
def isalpha (c : Char) : Bool :=
  (65 ≤ c.toNat && c.toNat ≤ 90) || (97 ≤ c.toNat && c.toNat ≤ 122)

/-- The classification `std::isalnum`. -/
def isalnum (c : Char) : Bool := isalpha c || isdigit c

/-- The member `current_char`: the character at `position`, or NUL past the end. -/
def current_char : List Char → Char
  | [] => NUL
  | c :: _ => c

/-- The method `Lexer::advance`: move one character forward. -/
def advance : List Char → List Char
  | [] => []
  | _ :: rest => rest

/-- The method `Lexer::skip_whitespace`. -/
def skip_whitespace : List Char → List Char
  | [] => []
  | c :: rest =>
    if c ≠ NUL ∧ isspace c = true then skip_whitespace rest else c :: rest

/-- The loop `while (current_char != '\0' && std::isdigit(current_char))
{ result += current_char; advance(); }`: the characters appended to `result`
and the state after the loop. -/
def digit_run : List Char → List Char × List Char
  | [] => ([], [])
  | c :: rest =>
    if c ≠ NUL ∧ isdigit c = true then ((digit_run rest).1.cons c, (digit_run rest).2)
    else ([], c :: rest)

/-- The method `Lexer::get_number`. -/
def get_number (s : List Char) : Token × List Char :=
  let r1 := digit_run s
  if current_char r1.2 = '.' then
    let r2 := digit_run (advance r1.2)
    (⟨.NUMBER, String.mk (r1.1 ++ '.' :: r2.1)⟩, r2.2)
  else
    (⟨.NUMBER, String.mk r1.1⟩, r1.2)

/-- The loop of `Lexer::get_identifier`. -/
def ident_run : List Char → List Char × List Char
  | [] => ([], [])
  | c :: rest =>
    if c ≠ NUL ∧ (isalnum c = true ∨ c = '_') then
      ((ident_run rest).1.cons c, (ident_run rest).2)
    else ([], c :: rest)

/-- The method `Lexer::get_identifier`. -/
def get_identifier (s : List Char) : Token × List Char :=
  (⟨.IDENTIFIER, String.mk (ident_run s).1⟩, (ident_run s).2)

/-- The `while (current_char != '\0')` loop of `Lexer::get_next_token`, one
unit of fuel per iteration. -/
def get_next_token_loop : Nat → List Char → Option (Token × List Char)
  | 0, _ => none
  | fuel + 1, s =>
    if current_char s = NUL then some (⟨.EOF_TOKEN, ""⟩, s)
    else if isspace (current_char s) = true then
      get_next_token_loop fuel (skip_whitespace s)
    else if isdigit (current_char s) = true then some (get_number s)
    else if isalpha (current_char s) = true ∨ current_char s = '_' then
      some (get_identifier s)
    else if current_char s = '+' then some (⟨.PLUS, "+"⟩, advance s)
    else if current_char s = '-' then some (⟨.MINUS, "-"⟩, advance s)
    else if current_char s = '*' then some (⟨.MULTIPLY, "*"⟩, advance s)
    else if current_char s = '/' then some (⟨.DIVIDE, "/"⟩, advance s)
    else if current_char s = '(' then some (⟨.LPAREN, "("⟩, advance s)
    else if current_char s = ')' then some (⟨.RPAREN, ")"⟩, advance s)
    else if current_char s = '=' then some (⟨.EQUALS, "="⟩, advance s)
    else get_next_token_loop fuel (advance s)

/-- The method `Lexer::get_next_token`: every iteration of the loop that does not return
consumes a character, so `length + 1` iterations are enough. -/
def get_next_token (s : List Char) : Option (Token × List Char) :=
  get_next_token_loop (s.length + 1) s

/-- The loop of `Lexer::tokenize`, one unit of fuel per call of
`get_next_token`. -/
def tokenize_loop : Nat → List Char → Option (List Token)
  | 0, _ => none
  | fuel + 1, s =>
    match get_next_token s with
    | none => none
    | some (token, s1) =>
      if token.type ≠ .EOF_TOKEN then
        (tokenize_loop fuel s1).map (List.cons token)
      else some [⟨.EOF_TOKEN, ""⟩]

/-- The call `Lexer(text).tokenize()` on the characters of `text`. -/
def tokenize_chars (s : List Char) : Option (List Token) :=
  tokenize_loop (s.length + 1) s

/-- The call `Lexer(text).tokenize()`. -/
def tokenize (text : String) : Option (List Token) :=
  tokenize_chars text.data

/-- A state at which a number token ends: the current character is neither a
digit nor `.`. -/
def Separated (r : List Char) : Prop :=
  isdigit (current_char r) = false ∧ current_char r ≠ '.'

end Lexer

/-! ## ast.h, ast.cpp -/

inductive ASTNode (V : Type)
  | NumberNode (value : V)
  | BinaryOpNode (left : ASTNode V) (op : TokenType) (right : ASTNode V)
  | VariableNode (name : String)
  | AssignmentNode (var : String) (value : ASTNode V)

namespace ASTNode

/-- The virtual method `ASTNode::evaluate(variables)`: the returned value or
the thrown error, together with the variable map as the call leaves it. -/
def evaluate {V : Type} (A : Arith V) :
    ASTNode V → Env V → Except String V × Env V
  | NumberNode value, vars => (.ok value, vars)
  | BinaryOpNode left op right, vars =>
    match evaluate A left vars with
    | (.error e, env1) => (.error e, env1)
    | (.ok left_val, env1) =>
      match evaluate A right env1 with
      | (.error e, env2) => (.error e, env2)
      | (.ok right_val, env2) =>
        match op with
        | .PLUS => (.ok (A.add left_val right_val), env2)
        | .MINUS => (.ok (A.sub left_val right_val), env2)
        | .MULTIPLY => (.ok (A.mul left_val right_val), env2)
        | .DIVIDE =>
          if A.eqZero right_val = true then (.error "Division by zero", env2)
          else (.ok (A.div left_val right_val), env2)
        | _ => (.error "Unknown operator", env2)
  | VariableNode name, vars =>
    match vars name with
    | none => (.error ("Undefined variable: " ++ name), vars)
    | some v => (.ok v, vars)
  | AssignmentNode var value, vars =>
    match evaluate A value vars with
    | (.error e, env1) => (.error e, env1)
    | (.ok result, env1) => (.ok result, Function.update env1 var (some result))

end ASTNode

/-! ## parser.cpp -/

namespace Parser

/-- The method `Parser::current_token`. -/
def current_token (tokens : List Token) (current_pos : Nat) : Token :=
  if h : current_pos < tokens.length then tokens[current_pos] else ⟨.EOF_TOKEN, ""⟩

variable {V : Type}

mutual

/-- The method `Parser::factor`, started at `current_pos`: the node and the position
after it. -/
def factor (A : Arith V) (tokens : List Token) :
    Nat → Nat → Run (ASTNode V × Nat)
  | 0, _ => .outOfFuel
  | fuel + 1, current_pos =>
    let token := current_token tokens current_pos
    if token.type = .NUMBER then
      match A.stod token.value with
      | none => .throw "stod"
      | some v => .ok (.NumberNode v, current_pos + 1)
    else if token.type = .IDENTIFIER then
      if (current_token tokens (current_pos + 1)).type = .EQUALS then
        match expr A tokens fuel (current_pos + 2) with
        | .ok (node, p) => .ok (.AssignmentNode token.value node, p)
        | .throw msg => .throw msg
        | .outOfFuel => .outOfFuel
      else .ok (.VariableNode token.value, current_pos + 1)
    else if token.type = .LPAREN then
      match expr A tokens fuel (current_pos + 1) with
      | .ok (node, p) =>
        if (current_token tokens p).type ≠ .RPAREN then .throw "Expected ')'"
        else .ok (node, p + 1)
      | .throw msg => .throw msg
      | .outOfFuel => .outOfFuel
    else .throw ("Unexpected token: " ++ token.value)

/-- The `while` loop of `Parser::term`, entered with `node` built so far. -/
def term_loop (A : Arith V) (tokens : List Token) :
    Nat → ASTNode V → Nat → Run (ASTNode V × Nat)
  | 0, _, _ => .outOfFuel
  | fuel + 1, node, current_pos =>
    if (current_token tokens current_pos).type = .MULTIPLY
        ∨ (current_token tokens current_pos).type = .DIVIDE then
      match factor A tokens fuel (current_pos + 1) with
      | .ok (right, p) =>
        term_loop A tokens fuel
          (.BinaryOpNode node (current_token tokens current_pos).type right) p
      | .throw msg => .throw msg
      | .outOfFuel => .outOfFuel
    else .ok (node, current_pos)

/-- The method `Parser::term`. -/
def term (A : Arith V) (tokens : List Token) :
    Nat → Nat → Run (ASTNode V × Nat)
  | 0, _ => .outOfFuel
  | fuel + 1, current_pos =>
    match factor A tokens fuel current_pos with
    | .ok (node, p) => term_loop A tokens fuel node p
    | .throw msg => .throw msg
    | .outOfFuel => .outOfFuel

/-- The `while` loop of `Parser::expr`, entered with `node` built so far. -/
def expr_loop (A : Arith V) (tokens : List Token) :
    Nat → ASTNode V → Nat → Run (ASTNode V × Nat)
  | 0, _, _ => .outOfFuel
  | fuel + 1, node, current_pos =>
    if (current_token tokens current_pos).type = .PLUS
        ∨ (current_token tokens current_pos).type = .MINUS then
      match term A tokens fuel (current_pos + 1) with
      | .ok (right, p) =>
        expr_loop A tokens fuel
          (.BinaryOpNode node (current_token tokens current_pos).type right) p
      | .throw msg => .throw msg
      | .outOfFuel => .outOfFuel
    else .ok (node, current_pos)

/-- The method `Parser::expr`. -/
def expr (A : Arith V) (tokens : List Token) :
    Nat → Nat → Run (ASTNode V × Nat)
  | 0, _ => .outOfFuel
  | fuel + 1, current_pos =>
    match term A tokens fuel current_pos with
    | .ok (node, p) => expr_loop A tokens fuel node p
    | .throw msg => .throw msg
    | .outOfFuel => .outOfFuel

end

/-- Fuel for one run of the parser: every call and every loop iteration
takes one unit, and at most three calls separate two consumed tokens. -/
def parse_fuel (tokens : List Token) : Nat := 3 * tokens.length + 3

/-- The call `Parser(tokens).parse()` with the final position: `expr()` from
position 0. -/
def parse_pos (A : Arith V) (tokens : List Token) : Run (ASTNode V × Nat) :=
  expr A tokens (parse_fuel tokens) 0

/-- The call `Parser(tokens).parse()`. -/
def parse (A : Arith V) (tokens : List Token) : Run (ASTNode V) :=
  match parse_pos A tokens with
  | .ok (node, _) => .ok node
  | .throw msg => .throw msg
  | .outOfFuel => .outOfFuel

end Parser

/-! ## interpreter.cpp -/

namespace Interpreter

/-- The method `Interpreter::evaluate(text)` (the spec's `evaluate_line`) on the
interpreter's map `variables`: the returned number and the map afterwards;
`none` only if the model runs out of fuel. -/
def evaluate {V : Type} (A : Arith V) (text : String) (vars : Env V) :
    Option (V × Env V) :=
  match Lexer.tokenize text with
  | none => none
  | some tokens =>
    match Parser.parse A tokens with
    | .outOfFuel => none
    | .throw _ => some (A.zero, vars)
    | .ok ast =>
      match ast.evaluate A vars with
      | (.error _, env1) => some (A.zero, env1)
      | (.ok result, env1) => some (result, env1)

end Interpreter


/-! ## Exact decimal arithmetic -/

/-- Value of a run of decimal digits. -/
def digitsValue (ds : List Char) : Nat :=
  ds.foldl (fun acc c => 10 * acc + (c.toNat - 48)) 0

/-- Numerator and decimal exponent of a text `digits` or `digits.digits`
(the integer part non-empty); `none` for any other text. -/
def decimalParts (s : List Char) : Option (Nat × Nat) :=
  match s.span Lexer.isdigit with
  | ([], _) => none
  | (d1, []) => some (digitsValue d1, 0)
  | (d1, c :: d2) =>
    if c = '.' ∧ d2.all Lexer.isdigit = true then
      some (digitsValue (d1 ++ d2), d2.length)
    else none

/-- The number a decimal literal denotes, as a rational. -/
def decimalStod (s : String) : Option ℚ :=
  (decimalParts s.data).map fun nd => (nd.1 : ℚ) / (10 : ℚ) ^ nd.2

/-- Exact arithmetic on the rationals with exact reading of decimal
literals: an arithmetic with which `double` agrees wherever operands and
result are exactly representable. -/
def decimalArith : Arith ℚ where
  add := fun x y => x + y
  sub := fun x y => x - y
  mul := fun x y => x * y
  div := fun x y => x / y
  eqZero := fun x => decide (x = 0)
  zero := 0
  stod := decimalStod

/-- The empty variable map of a fresh `Interpreter`. -/
def emptyEnv (V : Type) : Env V := fun _ => none

/-- A number literal: a non-empty run of decimal digits, optionally followed
by one `.` and a possibly empty run of digits. -/
def isNumberLiteral (s : List Char) : Bool :=
  match s.span Lexer.isdigit with
  | ([], _) => false
  | (_, []) => true
  | (_, c :: d2) => c == '.' && d2.all Lexer.isdigit

/-- The node of a factor that is a single token: a `NUMBER` token whose text
converts, or an `IDENTIFIER` token; `none` for every other token. -/
def atomNode {V : Type} (A : Arith V) (t : Token) : Option (ASTNode V) :=
  if t.type = .NUMBER then (A.stod t.value).map ASTNode.NumberNode
  else if t.type = .IDENTIFIER then some (ASTNode.VariableNode t.value)
  else none

/-- The token sequence `op1 f1 ... opn fn EOF`, given the list of the
`(opi, fi, node of fi)`. -/
def chainRest {V : Type} (rest : List (Token × Token × ASTNode V)) : List Token :=
  (rest.flatMap fun x => [x.1, x.2.1]) ++ [⟨.EOF_TOKEN, ""⟩]

/-- The token sequence `f0 op1 f1 ... opn fn EOF`. -/
def chainTokens {V : Type} (f0 : Token) (rest : List (Token × Token × ASTNode V)) :
    List Token :=
  f0 :: chainRest rest

/-- The left fold `BinaryOp(...BinaryOp(BinaryOp(n0, op1, n1), op2, n2)..., opn, nn)`. -/
def leftFold {V : Type} (n0 : ASTNode V) (rest : List (Token × Token × ASTNode V)) :
    ASTNode V :=
  rest.foldl (fun acc x => ASTNode.BinaryOpNode acc x.1.type x.2.2) n0

/-- The messages of the exceptions `Parser::parse` throws: the conversion
failure of `std::stod`, the missing `)`, the unexpected token. -/
def IsParseError (msg : String) : Prop :=
  msg = "stod" ∨ msg = "Expected ')'" ∨ ∃ text : String, msg = "Unexpected token: " ++ text

/-- The messages of the exceptions `ASTNode::evaluate` throws. -/
def IsEvalError (msg : String) : Prop :=
  msg = "Division by zero" ∨ msg = "Unknown operator"
    ∨ ∃ name : String, msg = "Undefined variable: " ++ name

/-- The characters with a token of their own: `+ - * / ( ) =`. -/
def isOperatorChar (c : Char) : Bool :=
  c == '+' || c == '-' || c == '*' || c == '/' || c == '(' || c == ')' || c == '='

/-- An unrecognised character that is not `.`: none of NUL, whitespace,
digit, letter, `_`, `.`, `+ - * / ( ) =`. -/
def isUnknownChar (c : Char) : Bool :=
  c != Lexer.NUL && !Lexer.isspace c && !Lexer.isdigit c && !Lexer.isalpha c
    && c != '_' && c != '.' && !isOperatorChar c

/-- A state at which every number and every identifier ends: the current
character is not a digit, a letter, `_` or `.`. -/
def Boundary (r : List Char) : Prop :=
  Lexer.isalnum (Lexer.current_char r) = false ∧ Lexer.current_char r ≠ '_'
    ∧ Lexer.current_char r ≠ '.'

/-- An identifier text: a letter or `_` followed by letters, digits and `_`. -/
def isIdentifierText (s : List Char) : Bool :=
  match s with
  | [] => false
  | c :: rest =>
    (Lexer.isalpha c || c == '_') && rest.all fun x => Lexer.isalnum x || x == '_'

/-! ## interpreter.cpp: `run_file` -/

namespace Interpreter

/-- The increment `line_number++` of an `int`: signed overflow is undefined in
C++; the model wraps around at 32 bits, and the theorems stay below the bound. -/
def int_incr (n : Int) : Int := (n + 1 + 2 ^ 31) % 2 ^ 32 - 2 ^ 31

/-- The test `line.empty() || line[0] == '#'` of `Interpreter::run_file`. -/
def isSkipped (line : String) : Bool :=
  match line.data with
  | [] => true
  | c :: _ => c == '#'

/-- The loop of `Interpreter::run_file` over the lines `std::getline` reads
from the file: for every statement
`std::cout << "Line " << line_number << ": " << result` the pair of
`line_number` and `result`, in the order of printing, and the variable map
afterwards.  `Interpreter::evaluate` throws nothing, so the `catch` of the
loop is never entered. -/
def run_file_loop {V : Type} (A : Arith V) :
    List String → Int → Env V → Option (List (Int × V) × Env V)
  | [], _, vars => some ([], vars)
  | line :: rest, line_number, vars =>
    if isSkipped line = true then run_file_loop A rest (int_incr line_number) vars
    else
      match evaluate A line vars with
      | none => none
      | some (result, env1) =>
        match run_file_loop A rest (int_incr line_number) env1 with
        | none => none
        | some (out, env2) => some ((line_number, result) :: out, env2)

/-- The method `Interpreter::run_file` on a file that opens, given by its
lines: `line_number` starts at 1. -/
def run_file {V : Type} (A : Arith V) (lines : List String) (vars : Env V) :
    Option (List (Int × V) × Env V) :=
  run_file_loop A lines 1 vars

/-- Evaluation of numbered lines one after the other on one variable map,
each result paired with the number of its line. -/
def evaluate_numbered {V : Type} (A : Arith V) :
    List (Nat × String) → Env V → Option (List (Int × V) × Env V)
  | [], vars => some ([], vars)
  | (n, line) :: rest, vars =>
    match evaluate A line vars with
    | none => none
    | some (result, env1) =>
      match evaluate_numbered A rest env1 with
      | none => none
      | some (out, env2) => some (((n : Int), result) :: out, env2)

/-- The lines of a file that are evaluated, with their 1-based positions in
the file: those that are non-empty and do not start with `#`. -/
def evaluatedLines (lines : List String) : List (Nat × String) :=
  (lines.enumFrom 1).filter fun p => !isSkipped p.2

/-- File mode as the specification words it: the lines that are non-empty and
do not start with `#` are evaluated in file order, and each result is
labelled with the 1-based position of its line in the file. -/
def run_file_spec {V : Type} (A : Arith V) (lines : List String) (vars : Env V) :
    Option (List (Int × V) × Env V) :=
  evaluate_numbered A (evaluatedLines lines) vars

end Interpreter

/-! ## Fully parenthesised rendering of a tree -/

/-- The token of an operator. -/
def opToken : TokenType → Token
  | .PLUS => ⟨.PLUS, "+"⟩
  | .MINUS => ⟨.MINUS, "-"⟩
  | .MULTIPLY => ⟨.MULTIPLY, "*"⟩
  | .DIVIDE => ⟨.DIVIDE, "/"⟩
  | op => ⟨op, ""⟩

/-- The fully parenthesised token sequence of a tree: a literal is one
`NUMBER` token with the text `txt` gives its value, a variable one
`IDENTIFIER` token, `BinaryOp{l, op, r}` is `( l op r )` and
`Assignment{n, e}` is `( n = e )`. -/
def render {V : Type} (txt : V → String) : ASTNode V → List Token
  | .NumberNode value => [⟨.NUMBER, txt value⟩]
  | .VariableNode name => [⟨.IDENTIFIER, name⟩]
  | .BinaryOpNode left op right =>
    ⟨.LPAREN, "("⟩ :: (render txt left ++ opToken op :: (render txt right ++ [⟨.RPAREN, ")"⟩]))
  | .AssignmentNode var value =>
    ⟨.LPAREN, "("⟩ :: ⟨.IDENTIFIER, var⟩ :: ⟨.EQUALS, "="⟩
      :: (render txt value ++ [⟨.RPAREN, ")"⟩])

/-- The trees the rendering is for: every operator is one of `+ - * /`, and
the text of every literal converts back to its value. -/
def Renderable {V : Type} (A : Arith V) (txt : V → String) : ASTNode V → Prop
  | .NumberNode value => A.stod (txt value) = some value
  | .VariableNode _ => True
  | .BinaryOpNode left op right =>
    (op = .PLUS ∨ op = .MINUS ∨ op = .MULTIPLY ∨ op = .DIVIDE)
      ∧ Renderable A txt left ∧ Renderable A txt right
  | .AssignmentNode _ value => Renderable A txt value

/-- Fuel with which `Parser::factor` parses the rendering of a tree: the
depth of the calls it makes. -/
def renderFuel {V : Type} : ASTNode V → Nat
  | .NumberNode _ => 1
  | .VariableNode _ => 1
  | .BinaryOpNode left _ right => max (renderFuel left) (renderFuel right) + 4
  | .AssignmentNode _ value => renderFuel value + 6

/-! ## Lexer: character classes and the inner loops -/

namespace Lexer

theorem isspace_NUL : isspace NUL = false := by decide

theorem isdigit_NUL : isdigit NUL = false := by decide

theorem ne_NUL_of_isdigit {c : Char} (h : isdigit c = true) : c ≠ NUL := by
  intro hc
  rw [hc, isdigit_NUL] at h
  cases h

theorem ne_NUL_of_isspace {c : Char} (h : isspace c = true) : c ≠ NUL := by
  intro hc
  rw [hc, isspace_NUL] at h
  cases h

theorem current_char_cons (c : Char) (rest : List Char) :
    current_char (c :: rest) = c := rfl

theorem exists_cons_of_current_char_ne_NUL {s : List Char}
    (h : current_char s ≠ NUL) : ∃ rest, s = current_char s :: rest := by
  cases s with
  | nil => exact absurd rfl h
  | cons c rest => exact ⟨rest, rfl⟩

theorem advance_length_lt {s : List Char} (h : current_char s ≠ NUL) :
    (advance s).length < s.length := by
  obtain ⟨rest, hs⟩ := exists_cons_of_current_char_ne_NUL h
  rw [hs]
  simp [advance]

theorem skip_whitespace_length_le (s : List Char) :
    (skip_whitespace s).length ≤ s.length := by
  induction s with
  | nil => simp [skip_whitespace]
  | cons c rest ih =>
    rw [skip_whitespace]
    split
    · exact Nat.le_succ_of_le ih
    · exact Nat.le_refl _

theorem skip_whitespace_cons_space {c : Char} (h : isspace c = true)
    (rest : List Char) : skip_whitespace (c :: rest) = skip_whitespace rest := by
  rw [skip_whitespace, if_pos ⟨ne_NUL_of_isspace h, h⟩]

theorem skip_whitespace_length_lt {s : List Char}
    (h : isspace (current_char s) = true) :
    (skip_whitespace s).length < s.length := by
  obtain ⟨rest, hs⟩ := exists_cons_of_current_char_ne_NUL (ne_NUL_of_isspace h)
  rw [hs, skip_whitespace_cons_space h]
  exact Nat.lt_succ_of_le (skip_whitespace_length_le rest)

theorem digit_run_length_le (s : List Char) :
    (digit_run s).2.length ≤ s.length := by
  induction s with
  | nil => simp [digit_run]
  | cons c rest ih =>
    rw [digit_run]
    split
    · exact Nat.le_succ_of_le ih
    · exact Nat.le_refl _

theorem digit_run_cons_digit {c : Char} (h : isdigit c = true) (rest : List Char) :
    digit_run (c :: rest) = (c :: (digit_run rest).1, (digit_run rest).2) := by
  rw [digit_run, if_pos ⟨ne_NUL_of_isdigit h, h⟩]

theorem digit_run_of_not_digit {s : List Char}
    (h : isdigit (current_char s) = false) : digit_run s = ([], s) := by
  cases s with
  | nil => rfl
  | cons c rest =>
    rw [current_char_cons] at h
    rw [digit_run, if_neg]
    simp [h]

theorem digit_run_append {d : List Char} (hd : ∀ c ∈ d, isdigit c = true)
    {r : List Char} (hr : isdigit (current_char r) = false) :
    digit_run (d ++ r) = (d, r) := by
  induction d with
  | nil => exact digit_run_of_not_digit hr
  | cons c d ih =>
    have hc : isdigit c = true := hd c (List.mem_cons_self c d)
    have ih1 := ih (fun x hx => hd x (List.mem_cons_of_mem c hx))
    rw [List.cons_append, digit_run_cons_digit hc, ih1]

theorem ident_run_length_le (s : List Char) :
    (ident_run s).2.length ≤ s.length := by
  induction s with
  | nil => simp [ident_run]
  | cons c rest ih =>
    rw [ident_run]
    split
    · exact Nat.le_succ_of_le ih
    · exact Nat.le_refl _

theorem get_number_eq (s : List Char) :
    get_number s =
      if current_char (digit_run s).2 = '.' then
        (⟨.NUMBER, String.mk ((digit_run s).1
            ++ '.' :: (digit_run (advance (digit_run s).2)).1)⟩,
          (digit_run (advance (digit_run s).2)).2)
      else (⟨.NUMBER, String.mk (digit_run s).1⟩, (digit_run s).2) := rfl

theorem get_number_length_lt {s : List Char} (h : isdigit (current_char s) = true) :
    (get_number s).2.length < s.length := by
  obtain ⟨rest, hs⟩ := exists_cons_of_current_char_ne_NUL (ne_NUL_of_isdigit h)
  have h1 : (digit_run s).2.length < s.length := by
    rw [hs, digit_run_cons_digit h]
    exact Nat.lt_succ_of_le (digit_run_length_le rest)
  rw [get_number_eq]
  split
  · have h2 := digit_run_length_le (advance (digit_run s).2)
    have h3 : (advance (digit_run s).2).length ≤ (digit_run s).2.length := by
      cases (digit_run s).2 <;> simp [advance]
    exact Nat.lt_of_le_of_lt (Nat.le_trans h2 h3) h1
  · exact h1

theorem get_identifier_length_lt {s : List Char}
    (h : isalpha (current_char s) = true ∨ current_char s = '_') :
    (get_identifier s).2.length < s.length := by
  have hne : current_char s ≠ NUL := by
    intro hc
    rw [hc] at h
    revert h
    decide
  obtain ⟨rest, hs⟩ := exists_cons_of_current_char_ne_NUL hne
  have hcond : current_char s ≠ NUL
      ∧ (isalnum (current_char s) = true ∨ current_char s = '_') := by
    refine ⟨hne, ?_⟩
    cases h with
    | inl h => left; simp [isalnum, h]
    | inr h => right; exact h
  unfold get_identifier
  rw [hs, ident_run, if_pos hcond]
  exact Nat.lt_succ_of_le (ident_run_length_le rest)

/-! ## Lexer: `get_next_token` does not depend on the fuel -/

theorem get_next_token_loop_succ (fuel : Nat) (s : List Char) :
    get_next_token_loop (fuel + 1) s =
      if current_char s = NUL then some (⟨.EOF_TOKEN, ""⟩, s)
      else if isspace (current_char s) = true then
        get_next_token_loop fuel (skip_whitespace s)
      else if isdigit (current_char s) = true then some (get_number s)
      else if isalpha (current_char s) = true ∨ current_char s = '_' then
        some (get_identifier s)
      else if current_char s = '+' then some (⟨.PLUS, "+"⟩, advance s)
      else if current_char s = '-' then some (⟨.MINUS, "-"⟩, advance s)
      else if current_char s = '*' then some (⟨.MULTIPLY, "*"⟩, advance s)
      else if current_char s = '/' then some (⟨.DIVIDE, "/"⟩, advance s)
      else if current_char s = '(' then some (⟨.LPAREN, "("⟩, advance s)
      else if current_char s = ')' then some (⟨.RPAREN, ")"⟩, advance s)
      else if current_char s = '=' then some (⟨.EQUALS, "="⟩, advance s)
      else get_next_token_loop fuel (advance s) := rfl

theorem get_next_token_loop_more (fuel : Nat) :
    ∀ s : List Char, s.length < fuel →
      get_next_token_loop (fuel + 1) s = get_next_token_loop fuel s := by
  induction fuel with
  | zero => intro s h; exact absurd h (Nat.not_lt_zero _)
  | succ n ih =>
    intro s h
    rw [get_next_token_loop_succ (n + 1) s, get_next_token_loop_succ n s]
    by_cases h0 : current_char s = NUL
    · simp only [if_pos h0]
    · by_cases h1 : isspace (current_char s) = true
      · simp only [if_neg h0, if_pos h1]
        exact ih _ (Nat.lt_of_lt_of_le (skip_whitespace_length_lt h1) (Nat.le_of_lt_succ h))
      · simp only [if_neg h0, if_neg h1]
        rw [ih _ (Nat.lt_of_lt_of_le (advance_length_lt h0) (Nat.le_of_lt_succ h))]

theorem get_next_token_loop_eq {fuel : Nat} {s : List Char} (h : s.length < fuel) :
    get_next_token_loop fuel s = get_next_token s := by
  unfold get_next_token
  induction fuel with
  | zero => exact absurd h (Nat.not_lt_zero _)
  | succ n ih =>
    rcases Nat.lt_or_ge s.length n with hlt | hge
    · rw [get_next_token_loop_more n s hlt]
      exact ih hlt
    · have : n = s.length := Nat.le_antisymm hge (Nat.le_of_lt_succ h)
      rw [this]

/-- One iteration of `Lexer::get_next_token`, free of fuel. -/
theorem get_next_token_eq (s : List Char) :
    get_next_token s =
      if current_char s = NUL then some (⟨.EOF_TOKEN, ""⟩, s)
      else if isspace (current_char s) = true then
        get_next_token (skip_whitespace s)
      else if isdigit (current_char s) = true then some (get_number s)
      else if isalpha (current_char s) = true ∨ current_char s = '_' then
        some (get_identifier s)
      else if current_char s = '+' then some (⟨.PLUS, "+"⟩, advance s)
      else if current_char s = '-' then some (⟨.MINUS, "-"⟩, advance s)
      else if current_char s = '*' then some (⟨.MULTIPLY, "*"⟩, advance s)
      else if current_char s = '/' then some (⟨.DIVIDE, "/"⟩, advance s)
      else if current_char s = '(' then some (⟨.LPAREN, "("⟩, advance s)
      else if current_char s = ')' then some (⟨.RPAREN, ")"⟩, advance s)
      else if current_char s = '=' then some (⟨.EQUALS, "="⟩, advance s)
      else get_next_token (advance s) := by
  conv_lhs => rw [get_next_token, get_next_token_loop_succ]
  by_cases h0 : current_char s = NUL
  · simp only [if_pos h0]
  · by_cases h1 : isspace (current_char s) = true
    · simp only [if_neg h0, if_pos h1]
      exact get_next_token_loop_eq (skip_whitespace_length_lt h1)
    · simp only [if_neg h0, if_neg h1]
      rw [get_next_token_loop_eq (advance_length_lt h0)]

/-- The token classes of `Lexer::get_next_token` other than end of input,
whitespace, numbers and identifiers: a one-character token, or an unknown
character that is skipped. -/
theorem get_next_token_punct {s : List Char} (h0 : current_char s ≠ NUL)
    (h1 : isspace (current_char s) = false) (h2 : isdigit (current_char s) = false)
    (h3 : ¬ (isalpha (current_char s) = true ∨ current_char s = '_')) :
    (∃ t : Token, t.type ≠ .EOF_TOKEN ∧ t.type ≠ .NUMBER ∧ t.type ≠ .IDENTIFIER
        ∧ get_next_token s = some (t, advance s))
      ∨ get_next_token s = get_next_token (advance s) := by
  have h1n : ¬ isspace (current_char s) = true := by simp [h1]
  have h2n : ¬ isdigit (current_char s) = true := by simp [h2]
  rw [get_next_token_eq]
  simp only [if_neg h0, if_neg h1n, if_neg h2n, if_neg h3]
  by_cases h4 : current_char s = '+'
  · simp only [if_pos h4]
    refine Or.inl ⟨_, ?_, ?_, ?_, rfl⟩ <;> decide
  by_cases h5 : current_char s = '-'
  · simp only [if_neg h4, if_pos h5]
    refine Or.inl ⟨_, ?_, ?_, ?_, rfl⟩ <;> decide
  by_cases h6 : current_char s = '*'
  · simp only [if_neg h4, if_neg h5, if_pos h6]
    refine Or.inl ⟨_, ?_, ?_, ?_, rfl⟩ <;> decide
  by_cases h7 : current_char s = '/'
  · simp only [if_neg h4, if_neg h5, if_neg h6, if_pos h7]
    refine Or.inl ⟨_, ?_, ?_, ?_, rfl⟩ <;> decide
  by_cases h8 : current_char s = '('
  · simp only [if_neg h4, if_neg h5, if_neg h6, if_neg h7, if_pos h8]
    refine Or.inl ⟨_, ?_, ?_, ?_, rfl⟩ <;> decide
  by_cases h9 : current_char s = ')'
  · simp only [if_neg h4, if_neg h5, if_neg h6, if_neg h7, if_neg h8, if_pos h9]
    refine Or.inl ⟨_, ?_, ?_, ?_, rfl⟩ <;> decide
  by_cases h10 : current_char s = '='
  · simp only [if_neg h4, if_neg h5, if_neg h6, if_neg h7, if_neg h8, if_neg h9, if_pos h10]
    refine Or.inl ⟨_, ?_, ?_, ?_, rfl⟩ <;> decide
  right
  simp only [if_neg h4, if_neg h5, if_neg h6, if_neg h7, if_neg h8, if_neg h9, if_neg h10]

/-- The method `Lexer::get_next_token` returns on every state; the state it leaves is
not longer, it is shorter when the token is not `EOF_TOKEN`, and an
`EOF_TOKEN` token has the empty text. -/
theorem get_next_token_total (s : List Char) :
    ∃ t s1, get_next_token s = some (t, s1) ∧ s1.length ≤ s.length
      ∧ (t.type ≠ .EOF_TOKEN → s1.length < s.length)
      ∧ (t.type = .EOF_TOKEN → t = ⟨.EOF_TOKEN, ""⟩) := by
  generalize hn : s.length = n
  induction n using Nat.strong_induction_on generalizing s with
  | _ n ih =>
    subst hn
    by_cases h0 : current_char s = NUL
    · refine ⟨⟨.EOF_TOKEN, ""⟩, s, ?_, Nat.le_refl _, fun hne => absurd rfl hne, fun _ => rfl⟩
      rw [get_next_token_eq, if_pos h0]
    by_cases h1 : isspace (current_char s) = true
    · obtain ⟨t, s1, e, hle, hlt, heof⟩ := ih _ (skip_whitespace_length_lt h1) _ rfl
      have hl := skip_whitespace_length_lt h1
      refine ⟨t, s1, ?_, by omega, fun hne => by have := hlt hne; omega, heof⟩
      rw [get_next_token_eq, if_neg h0, if_pos h1, e]
    by_cases h2 : isdigit (current_char s) = true
    · have hl := get_number_length_lt h2
      refine ⟨(get_number s).1, (get_number s).2, ?_, Nat.le_of_lt hl, fun _ => hl,
        fun he => ?_⟩
      · rw [get_next_token_eq, if_neg h0, if_neg h1, if_pos h2]
      · rw [get_number_eq] at he
        split at he <;> cases he
    by_cases h3 : isalpha (current_char s) = true ∨ current_char s = '_'
    · have hl := get_identifier_length_lt h3
      refine ⟨(get_identifier s).1, (get_identifier s).2, ?_, Nat.le_of_lt hl, fun _ => hl,
        fun he => by cases he⟩
      rw [get_next_token_eq, if_neg h0, if_neg h1, if_neg h2, if_pos h3]
    have hl := advance_length_lt h0
    rcases get_next_token_punct h0 (by simpa using h1) (by simpa using h2) h3 with
      ⟨t, ht, _, _, e⟩ | e
    · exact ⟨t, advance s, e, Nat.le_of_lt hl, fun _ => hl, fun he => absurd he ht⟩
    · obtain ⟨t, s1, e1, hle, hlt, heof⟩ := ih _ hl _ rfl
      exact ⟨t, s1, by rw [e, e1], by omega, fun hne => by have := hlt hne; omega, heof⟩

/-! ## Lexer: `tokenize` does not depend on the fuel and is total -/

theorem tokenize_loop_succ (fuel : Nat) (s : List Char) :
    tokenize_loop (fuel + 1) s =
      match get_next_token s with
      | none => none
      | some (token, s1) =>
        if token.type ≠ .EOF_TOKEN then
          (tokenize_loop fuel s1).map (List.cons token)
        else some [⟨.EOF_TOKEN, ""⟩] := rfl

theorem tokenize_loop_more (fuel : Nat) :
    ∀ s : List Char, s.length < fuel →
      tokenize_loop (fuel + 1) s = tokenize_loop fuel s := by
  induction fuel with
  | zero => intro s h; exact absurd h (Nat.not_lt_zero _)
  | succ n ih =>
    intro s h
    obtain ⟨t, s1, e, _, hlt, _⟩ := get_next_token_total s
    rw [tokenize_loop_succ (n + 1) s, tokenize_loop_succ n s, e]
    by_cases ht : t.type = .EOF_TOKEN
    · simp [ht]
    · have h1 : s1.length < n := by have := hlt ht; omega
      simp only [ne_eq, ht, not_false_eq_true, if_true]
      rw [ih s1 h1]

theorem tokenize_loop_eq {fuel : Nat} {s : List Char} (h : s.length < fuel) :
    tokenize_loop fuel s = tokenize_chars s := by
  unfold tokenize_chars
  induction fuel with
  | zero => exact absurd h (Nat.not_lt_zero _)
  | succ n ih =>
    rcases Nat.lt_or_ge s.length n with hlt | hge
    · rw [tokenize_loop_more n s hlt]
      exact ih hlt
    · have : n = s.length := Nat.le_antisymm hge (Nat.le_of_lt_succ h)
      rw [this]

/-- One iteration of `Lexer::tokenize`, free of fuel. -/
theorem tokenize_chars_of_token {s s1 : List Char} {t : Token}
    (e : get_next_token s = some (t, s1)) (ht : t.type ≠ .EOF_TOKEN) :
    tokenize_chars s = (tokenize_chars s1).map (List.cons t) := by
  obtain ⟨t2, s2, e2, _, hlt, _⟩ := get_next_token_total s
  rw [e] at e2
  cases e2
  conv_lhs => rw [tokenize_chars, tokenize_loop_succ, e]
  simp only [ne_eq, ht, not_false_eq_true, if_true]
  rw [tokenize_loop_eq (hlt ht)]

theorem tokenize_chars_of_eof {s s1 : List Char} {t : Token}
    (e : get_next_token s = some (t, s1)) (ht : t.type = .EOF_TOKEN) :
    tokenize_chars s = some [⟨.EOF_TOKEN, ""⟩] := by
  rw [tokenize_chars, tokenize_loop_succ, e]
  simp [ht]

/-- The method `Lexer::tokenize` returns a token sequence for every input. -/
theorem tokenize_chars_total (s : List Char) :
    ∃ tokens, tokenize_chars s = some tokens := by
  generalize hn : s.length = n
  induction n using Nat.strong_induction_on generalizing s with
  | _ n ih =>
    subst hn
    obtain ⟨t, s1, e, _, hlt, _⟩ := get_next_token_total s
    by_cases ht : t.type = .EOF_TOKEN
    · exact ⟨_, tokenize_chars_of_eof e ht⟩
    · obtain ⟨toks, e1⟩ := ih _ (hlt ht) s1 rfl
      exact ⟨t :: toks, by rw [tokenize_chars_of_token e ht, e1]; rfl⟩

theorem tokenize_total (text : String) :
    ∃ tokens, tokenize text = some tokens :=
  tokenize_chars_total text.data

/-! ## Lexer: whitespace, one-character tokens and number literals -/

theorem get_next_token_skip_whitespace (s : List Char) :
    get_next_token (skip_whitespace s) = get_next_token s := by
  cases s with
  | nil => rfl
  | cons c rest =>
    by_cases h : isspace c = true
    · conv_rhs => rw [get_next_token_eq, current_char_cons,
        if_neg (ne_NUL_of_isspace h), if_pos h]
    · rw [skip_whitespace, if_neg (fun hc => h hc.2)]

theorem get_next_token_space {c : Char} (h : isspace c = true) (rest : List Char) :
    get_next_token (c :: rest) = get_next_token rest := by
  rw [← get_next_token_skip_whitespace (c :: rest), skip_whitespace_cons_space h,
    get_next_token_skip_whitespace]

theorem tokenize_chars_congr {s s1 : List Char}
    (h : get_next_token s = get_next_token s1) :
    tokenize_chars s = tokenize_chars s1 := by
  obtain ⟨t, s2, e, _, _, _⟩ := get_next_token_total s1
  by_cases ht : t.type = .EOF_TOKEN
  · rw [tokenize_chars_of_eof (h.trans e) ht, tokenize_chars_of_eof e ht]
  · rw [tokenize_chars_of_token (h.trans e) ht, tokenize_chars_of_token e ht]

/-- Whitespace before a token is skipped. -/
theorem tokenize_chars_space {c : Char} (h : isspace c = true) (rest : List Char) :
    tokenize_chars (c :: rest) = tokenize_chars rest :=
  tokenize_chars_congr (get_next_token_space h rest)

theorem tokenize_chars_nil : tokenize_chars [] = some [⟨.EOF_TOKEN, ""⟩] := rfl

theorem tokenize_chars_plus (rest : List Char) :
    tokenize_chars ('+' :: rest) = (tokenize_chars rest).map (List.cons ⟨.PLUS, "+"⟩) :=
  tokenize_chars_of_token (t := ⟨.PLUS, "+"⟩) rfl (by decide)

theorem tokenize_chars_minus (rest : List Char) :
    tokenize_chars ('-' :: rest) = (tokenize_chars rest).map (List.cons ⟨.MINUS, "-"⟩) :=
  tokenize_chars_of_token (t := ⟨.MINUS, "-"⟩) rfl (by decide)

theorem tokenize_chars_multiply (rest : List Char) :
    tokenize_chars ('*' :: rest)
      = (tokenize_chars rest).map (List.cons ⟨.MULTIPLY, "*"⟩) :=
  tokenize_chars_of_token (t := ⟨.MULTIPLY, "*"⟩) rfl (by decide)

theorem tokenize_chars_divide (rest : List Char) :
    tokenize_chars ('/' :: rest) = (tokenize_chars rest).map (List.cons ⟨.DIVIDE, "/"⟩) :=
  tokenize_chars_of_token (t := ⟨.DIVIDE, "/"⟩) rfl (by decide)

theorem tokenize_chars_lparen (rest : List Char) :
    tokenize_chars ('(' :: rest) = (tokenize_chars rest).map (List.cons ⟨.LPAREN, "("⟩) :=
  tokenize_chars_of_token (t := ⟨.LPAREN, "("⟩) rfl (by decide)

theorem tokenize_chars_rparen (rest : List Char) :
    tokenize_chars (')' :: rest) = (tokenize_chars rest).map (List.cons ⟨.RPAREN, ")"⟩) :=
  tokenize_chars_of_token (t := ⟨.RPAREN, ")"⟩) rfl (by decide)

theorem tokenize_chars_equals (rest : List Char) :
    tokenize_chars ('=' :: rest) = (tokenize_chars rest).map (List.cons ⟨.EQUALS, "="⟩) :=
  tokenize_chars_of_token (t := ⟨.EQUALS, "="⟩) rfl (by decide)

theorem isspace_eq_false_of_isdigit {c : Char} (h : isdigit c = true) :
    isspace c = false := by
  simp only [isdigit, isspace, Bool.and_eq_true, Bool.or_eq_false_iff,
    Bool.and_eq_false_imp, decide_eq_true_eq, beq_eq_false_iff_ne, ne_eq,
    decide_eq_false_iff_not] at h ⊢
  omega

end Lexer

theorem isNumberLiteral_elim {s : List Char} (h : isNumberLiteral s = true) :
    ∃ d1 d2 : List Char, d1 ≠ [] ∧ (∀ c ∈ d1, Lexer.isdigit c = true)
      ∧ (∀ c ∈ d2, Lexer.isdigit c = true) ∧ (s = d1 ∨ s = d1 ++ '.' :: d2) := by
  have hs := List.takeWhile_append_dropWhile Lexer.isdigit s
  have hd : ∀ c ∈ s.takeWhile Lexer.isdigit, Lexer.isdigit c = true :=
    fun c hc => List.mem_takeWhile_imp hc
  unfold isNumberLiteral at h
  rw [List.span_eq_take_drop] at h
  generalize s.takeWhile Lexer.isdigit = d1 at *
  generalize s.dropWhile Lexer.isdigit = r at *
  cases d1 with
  | nil => simp at h
  | cons c d1 =>
    cases r with
    | nil =>
      refine ⟨c :: d1, [], by simp, hd, by simp, Or.inl ?_⟩
      simpa using hs.symm
    | cons x d2 =>
      simp only [Bool.and_eq_true, beq_iff_eq, List.all_eq_true] at h
      obtain ⟨hx, hall⟩ := h
      subst hx
      exact ⟨c :: d1, d2, by simp, hd, hall, Or.inr hs.symm⟩

namespace Lexer

/-- Maximal munch on a number literal followed by a separated rest. -/
theorem get_number_literal {a : List Char} (ha : isNumberLiteral a = true)
    {r : List Char} (hr : Separated r) :
    get_number (a ++ r) = (⟨.NUMBER, String.mk a⟩, r) := by
  obtain ⟨d1, d2, _, h1, h2, hs | hs⟩ := isNumberLiteral_elim ha
  · rw [hs, get_number_eq, digit_run_append h1 hr.1]
    simp only [if_neg hr.2]
  · rw [hs]
    have hdot : isdigit (current_char ('.' :: (d2 ++ r))) = false :=
      (by decide : isdigit '.' = false)
    have e1 : digit_run (d1 ++ '.' :: d2 ++ r) = (d1, '.' :: (d2 ++ r)) := by
      rw [List.append_assoc, List.cons_append]
      exact digit_run_append h1 hdot
    rw [get_number_eq, e1]
    have e2 : digit_run (advance ('.' :: (d2 ++ r))) = (d2, r) :=
      digit_run_append h2 hr.1
    simp only [current_char_cons, if_true, e2]

theorem current_char_literal_append {a : List Char} (ha : isNumberLiteral a = true)
    (r : List Char) : isdigit (current_char (a ++ r)) = true := by
  obtain ⟨d1, d2, hne, h1, _, hs | hs⟩ := isNumberLiteral_elim ha
  all_goals
    rw [hs]
    cases d1 with
    | nil => exact absurd rfl hne
    | cons c d1 => exact h1 c (List.mem_cons_self c d1)

theorem get_next_token_literal {a : List Char} (ha : isNumberLiteral a = true)
    {r : List Char} (hr : Separated r) :
    get_next_token (a ++ r) = some (⟨.NUMBER, String.mk a⟩, r) := by
  have hd := current_char_literal_append ha r
  have hsp : ¬ isspace (current_char (a ++ r)) = true := by
    rw [isspace_eq_false_of_isdigit hd]; simp
  rw [get_next_token_eq, if_neg (ne_NUL_of_isdigit hd), if_neg hsp, if_pos hd,
    get_number_literal ha hr]

/-- A number literal followed by a separated rest is one `NUMBER` token
carrying the literal's text. -/
theorem tokenize_chars_literal {a : List Char} (ha : isNumberLiteral a = true)
    {r : List Char} (hr : Separated r) :
    tokenize_chars (a ++ r)
      = (tokenize_chars r).map (List.cons ⟨.NUMBER, String.mk a⟩) :=
  tokenize_chars_of_token (get_next_token_literal ha hr) (by simp)

end Lexer

/-! ## Parser: one step of each function -/

namespace Parser

variable {V : Type} (A : Arith V) (tokens : List Token)

theorem current_token_eq (pos : Nat) :
    current_token tokens pos = (tokens[pos]?).getD ⟨.EOF_TOKEN, ""⟩ := by
  unfold current_token
  split
  · rename_i h
    rw [List.getElem?_eq_getElem h]
    rfl
  · rename_i h
    rw [List.getElem?_eq_none (Nat.le_of_not_lt h)]
    rfl

theorem lt_length_of_type_ne {i : Nat}
    (h : (current_token tokens i).type ≠ .EOF_TOKEN) : i < tokens.length := by
  by_contra hlt
  apply h
  unfold current_token
  rw [dif_neg hlt]

theorem factor_zero (pos : Nat) : factor A tokens 0 pos = .outOfFuel := by
  rw [factor]

theorem term_loop_zero (node : ASTNode V) (pos : Nat) :
    term_loop A tokens 0 node pos = .outOfFuel := by
  rw [term_loop]

theorem term_zero (pos : Nat) : term A tokens 0 pos = .outOfFuel := by
  rw [term]

theorem expr_loop_zero (node : ASTNode V) (pos : Nat) :
    expr_loop A tokens 0 node pos = .outOfFuel := by
  rw [expr_loop]

theorem expr_zero (pos : Nat) : expr A tokens 0 pos = .outOfFuel := by
  rw [expr]

theorem factor_succ (fuel pos : Nat) :
    factor A tokens (fuel + 1) pos =
      if (current_token tokens pos).type = .NUMBER then
        match A.stod (current_token tokens pos).value with
        | none => .throw "stod"
        | some v => .ok (.NumberNode v, pos + 1)
      else if (current_token tokens pos).type = .IDENTIFIER then
        if (current_token tokens (pos + 1)).type = .EQUALS then
          match expr A tokens fuel (pos + 2) with
          | .ok (node, p) => .ok (.AssignmentNode (current_token tokens pos).value node, p)
          | .throw msg => .throw msg
          | .outOfFuel => .outOfFuel
        else .ok (.VariableNode (current_token tokens pos).value, pos + 1)
      else if (current_token tokens pos).type = .LPAREN then
        match expr A tokens fuel (pos + 1) with
        | .ok (node, p) =>
          if (current_token tokens p).type ≠ .RPAREN then .throw "Expected ')'"
          else .ok (node, p + 1)
        | .throw msg => .throw msg
        | .outOfFuel => .outOfFuel
      else .throw ("Unexpected token: " ++ (current_token tokens pos).value) := by
  rw [factor]

theorem term_loop_succ (fuel : Nat) (node : ASTNode V) (pos : Nat) :
    term_loop A tokens (fuel + 1) node pos =
      if (current_token tokens pos).type = .MULTIPLY
          ∨ (current_token tokens pos).type = .DIVIDE then
        match factor A tokens fuel (pos + 1) with
        | .ok (right, p) =>
          term_loop A tokens fuel
            (.BinaryOpNode node (current_token tokens pos).type right) p
        | .throw msg => .throw msg
        | .outOfFuel => .outOfFuel
      else .ok (node, pos) := by
  rw [term_loop]

theorem term_succ (fuel pos : Nat) :
    term A tokens (fuel + 1) pos =
      match factor A tokens fuel pos with
      | .ok (node, p) => term_loop A tokens fuel node p
      | .throw msg => .throw msg
      | .outOfFuel => .outOfFuel := by
  rw [term]

theorem expr_loop_succ (fuel : Nat) (node : ASTNode V) (pos : Nat) :
    expr_loop A tokens (fuel + 1) node pos =
      if (current_token tokens pos).type = .PLUS
          ∨ (current_token tokens pos).type = .MINUS then
        match term A tokens fuel (pos + 1) with
        | .ok (right, p) =>
          expr_loop A tokens fuel
            (.BinaryOpNode node (current_token tokens pos).type right) p
        | .throw msg => .throw msg
        | .outOfFuel => .outOfFuel
      else .ok (node, pos) := by
  rw [expr_loop]

theorem expr_succ (fuel pos : Nat) :
    expr A tokens (fuel + 1) pos =
      match term A tokens fuel pos with
      | .ok (node, p) => expr_loop A tokens fuel node p
      | .throw msg => .throw msg
      | .outOfFuel => .outOfFuel := by
  rw [expr]

/-! ## Parser: every successful call consumes tokens -/

/-- A successful `factor`, `term` or `expr` ends strictly after its start and
within the token vector; the loops never move back. -/
theorem progress (fuel : Nat) :
    (∀ pos node p, factor A tokens fuel pos = .ok (node, p) →
        pos < p ∧ p ≤ tokens.length)
    ∧ (∀ n0 pos node p, term_loop A tokens fuel n0 pos = .ok (node, p) →
        pos ≤ p ∧ (pos ≤ tokens.length → p ≤ tokens.length))
    ∧ (∀ pos node p, term A tokens fuel pos = .ok (node, p) →
        pos < p ∧ p ≤ tokens.length)
    ∧ (∀ n0 pos node p, expr_loop A tokens fuel n0 pos = .ok (node, p) →
        pos ≤ p ∧ (pos ≤ tokens.length → p ≤ tokens.length))
    ∧ (∀ pos node p, expr A tokens fuel pos = .ok (node, p) →
        pos < p ∧ p ≤ tokens.length) := by
  induction fuel with
  | zero =>
    simp [factor_zero, term_loop_zero, term_zero, expr_loop_zero, expr_zero]
  | succ n ih =>
    obtain ⟨ihF, ihTL, ihT, ihEL, ihE⟩ := ih
    refine ⟨?_, ?_, ?_, ?_, ?_⟩
    · intro pos node p h
      rw [factor_succ] at h
      split_ifs at h with hN hI hE hL
      · have hlt := lt_length_of_type_ne tokens (i := pos) (by rw [hN]; decide)
        split at h <;> simp at h
        omega
      · have hlt := lt_length_of_type_ne tokens (i := pos + 1) (by rw [hE]; decide)
        split at h <;> simp at h
        rename_i node1 p1 he
        have := ihE _ _ _ he
        omega
      · have hlt := lt_length_of_type_ne tokens (i := pos) (by rw [hI]; decide)
        simp at h
        omega
      · split at h
        · rename_i node1 p1 he
          have := ihE _ _ _ he
          split_ifs at h with hR
          simp at h
          have hlt := lt_length_of_type_ne tokens (i := p1) (by
            simp only [ne_eq, not_not] at hR; rw [hR]; decide)
          omega
        · simp at h
        · simp at h
    · intro n0 pos node p h
      rw [term_loop_succ] at h
      split_ifs at h with hop
      · have hlt : pos < tokens.length := by
          rcases hop with hop | hop <;>
            exact lt_length_of_type_ne tokens (by rw [hop]; decide)
        split at h
        · rename_i right p1 hf
          have h1 := ihF _ _ _ hf
          have h2 := ihTL _ _ _ _ h
          omega
        · simp at h
        · simp at h
      · simp at h
        omega
    · intro pos node p h
      rw [term_succ] at h
      split at h
      · rename_i node1 p1 hf
        have h1 := ihF _ _ _ hf
        have h2 := ihTL _ _ _ _ h
        omega
      · simp at h
      · simp at h
    · intro n0 pos node p h
      rw [expr_loop_succ] at h
      split_ifs at h with hop
      · have hlt : pos < tokens.length := by
          rcases hop with hop | hop <;>
            exact lt_length_of_type_ne tokens (by rw [hop]; decide)
        split at h
        · rename_i right p1 hf
          have h1 := ihT _ _ _ hf
          have h2 := ihEL _ _ _ _ h
          omega
        · simp at h
        · simp at h
      · simp at h
        omega
    · intro pos node p h
      rw [expr_succ] at h
      split at h
      · rename_i node1 p1 hf
        have h1 := ihT _ _ _ hf
        have h2 := ihEL _ _ _ _ h
        omega
      · simp at h
      · simp at h

/-! ## Parser: more fuel does not change a result -/

/-- A call that does not run out of fuel gives the same result with one more
unit of fuel. -/
theorem fuel_succ (fuel : Nat) :
    (∀ pos, factor A tokens fuel pos ≠ .outOfFuel →
        factor A tokens (fuel + 1) pos = factor A tokens fuel pos)
    ∧ (∀ n0 pos, term_loop A tokens fuel n0 pos ≠ .outOfFuel →
        term_loop A tokens (fuel + 1) n0 pos = term_loop A tokens fuel n0 pos)
    ∧ (∀ pos, term A tokens fuel pos ≠ .outOfFuel →
        term A tokens (fuel + 1) pos = term A tokens fuel pos)
    ∧ (∀ n0 pos, expr_loop A tokens fuel n0 pos ≠ .outOfFuel →
        expr_loop A tokens (fuel + 1) n0 pos = expr_loop A tokens fuel n0 pos)
    ∧ (∀ pos, expr A tokens fuel pos ≠ .outOfFuel →
        expr A tokens (fuel + 1) pos = expr A tokens fuel pos) := by
  induction fuel with
  | zero =>
    simp [factor_zero, term_loop_zero, term_zero, expr_loop_zero, expr_zero]
  | succ n ih =>
    obtain ⟨ihF, ihTL, ihT, ihEL, ihE⟩ := ih
    refine ⟨?_, ?_, ?_, ?_, ?_⟩
    · intro pos h
      rw [factor_succ] at h
      rw [factor_succ A tokens (n + 1) pos, factor_succ A tokens n pos]
      split_ifs at h ⊢ with hN hI hE hL
      · rfl
      · have hne : expr A tokens n (pos + 2) ≠ .outOfFuel := fun e => h (by rw [e])
        rw [ihE _ hne]
      · rfl
      · have hne : expr A tokens n (pos + 1) ≠ .outOfFuel := fun e => h (by rw [e])
        rw [ihE _ hne]
      · rfl
    · intro n0 pos h
      rw [term_loop_succ] at h
      rw [term_loop_succ A tokens (n + 1), term_loop_succ A tokens n]
      split_ifs at h ⊢ with hop
      · have hne : factor A tokens n (pos + 1) ≠ .outOfFuel := fun e => h (by rw [e])
        rw [ihF _ hne]
        cases hf : factor A tokens n (pos + 1) with
        | ok a =>
          obtain ⟨right, p⟩ := a
          rw [hf] at h
          exact ihTL _ _ h
        | throw msg => rfl
        | outOfFuel => exact absurd hf hne
      · rfl
    · intro pos h
      rw [term_succ] at h
      rw [term_succ A tokens (n + 1), term_succ A tokens n]
      have hne : factor A tokens n pos ≠ .outOfFuel := fun e => h (by rw [e])
      rw [ihF _ hne]
      cases hf : factor A tokens n pos with
      | ok a =>
        obtain ⟨node, p⟩ := a
        rw [hf] at h
        exact ihTL _ _ h
      | throw msg => rfl
      | outOfFuel => exact absurd hf hne
    · intro n0 pos h
      rw [expr_loop_succ] at h
      rw [expr_loop_succ A tokens (n + 1), expr_loop_succ A tokens n]
      split_ifs at h ⊢ with hop
      · have hne : term A tokens n (pos + 1) ≠ .outOfFuel := fun e => h (by rw [e])
        rw [ihT _ hne]
        cases hf : term A tokens n (pos + 1) with
        | ok a =>
          obtain ⟨right, p⟩ := a
          rw [hf] at h
          exact ihEL _ _ h
        | throw msg => rfl
        | outOfFuel => exact absurd hf hne
      · rfl
    · intro pos h
      rw [expr_succ] at h
      rw [expr_succ A tokens (n + 1), expr_succ A tokens n]
      have hne : term A tokens n pos ≠ .outOfFuel := fun e => h (by rw [e])
      rw [ihT _ hne]
      cases hf : term A tokens n pos with
      | ok a =>
        obtain ⟨node, p⟩ := a
        rw [hf] at h
        exact ihEL _ _ h
      | throw msg => rfl
      | outOfFuel => exact absurd hf hne

theorem expr_fuel_le {fuel fuel2 : Nat} (hle : fuel ≤ fuel2) {pos : Nat}
    (h : expr A tokens fuel pos ≠ .outOfFuel) :
    expr A tokens fuel2 pos = expr A tokens fuel pos := by
  induction fuel2, hle using Nat.le_induction with
  | base => rfl
  | succ m _ ih =>
    rw [← ih]
    exact (fuel_succ A tokens m).2.2.2.2 pos (by rw [ih]; exact h)

/-! ## Parser: the fuel of `parse` is enough -/

/-- With three units of fuel for every token not yet consumed the parser
functions do not run out of fuel. -/
theorem enough_fuel (fuel : Nat) :
    (∀ pos, 3 * (tokens.length - pos) + 1 ≤ fuel →
        factor A tokens fuel pos ≠ .outOfFuel)
    ∧ (∀ n0 pos, 3 * (tokens.length - pos) + 1 ≤ fuel →
        term_loop A tokens fuel n0 pos ≠ .outOfFuel)
    ∧ (∀ pos, 3 * (tokens.length - pos) + 2 ≤ fuel →
        term A tokens fuel pos ≠ .outOfFuel)
    ∧ (∀ n0 pos, 3 * (tokens.length - pos) + 2 ≤ fuel →
        expr_loop A tokens fuel n0 pos ≠ .outOfFuel)
    ∧ (∀ pos, 3 * (tokens.length - pos) + 3 ≤ fuel →
        expr A tokens fuel pos ≠ .outOfFuel) := by
  induction fuel with
  | zero =>
    refine ⟨?_, ?_, ?_, ?_, ?_⟩ <;> intros <;> omega
  | succ n ih =>
    obtain ⟨ihF, ihTL, ihT, ihEL, ihE⟩ := ih
    obtain ⟨prF, _, prT, _, _⟩ := progress A tokens n
    refine ⟨?_, ?_, ?_, ?_, ?_⟩
    · intro pos h
      rw [factor_succ]
      split_ifs with hN hI hE hL
      · split <;> simp
      · have hlt := lt_length_of_type_ne tokens (i := pos + 1) (by rw [hE]; decide)
        have hne := ihE (pos + 2) (by omega)
        cases he : expr A tokens n (pos + 2) with
        | ok a => simp
        | throw msg => simp
        | outOfFuel => exact absurd he hne
      · simp
      · have hlt := lt_length_of_type_ne tokens (i := pos) (by rw [hL]; decide)
        have hne := ihE (pos + 1) (by omega)
        cases he : expr A tokens n (pos + 1) with
        | ok a =>
          simp only
          split_ifs <;> simp
        | throw msg => simp
        | outOfFuel => exact absurd he hne
      · simp
    · intro n0 pos h
      rw [term_loop_succ]
      split_ifs with hop
      · have hlt : pos < tokens.length := by
          rcases hop with hop | hop <;>
            exact lt_length_of_type_ne tokens (by rw [hop]; decide)
        have hne := ihF (pos + 1) (by omega)
        cases hf : factor A tokens n (pos + 1) with
        | ok a =>
          obtain ⟨right, p⟩ := a
          have := prF _ _ _ hf
          exact ihTL _ p (by omega)
        | throw msg => simp
        | outOfFuel => exact absurd hf hne
      · simp
    · intro pos h
      rw [term_succ]
      have hne := ihF pos (by omega)
      cases hf : factor A tokens n pos with
      | ok a =>
        obtain ⟨node, p⟩ := a
        have := prF _ _ _ hf
        exact ihTL _ p (by omega)
      | throw msg => simp
      | outOfFuel => exact absurd hf hne
    · intro n0 pos h
      rw [expr_loop_succ]
      split_ifs with hop
      · have hlt : pos < tokens.length := by
          rcases hop with hop | hop <;>
            exact lt_length_of_type_ne tokens (by rw [hop]; decide)
        have hne := ihT (pos + 1) (by omega)
        cases hf : term A tokens n (pos + 1) with
        | ok a =>
          obtain ⟨right, p⟩ := a
          have := prT _ _ _ hf
          exact ihEL _ p (by omega)
        | throw msg => simp
        | outOfFuel => exact absurd hf hne
      · simp
    · intro pos h
      rw [expr_succ]
      have hne := ihT pos (by omega)
      cases hf : term A tokens n pos with
      | ok a =>
        obtain ⟨node, p⟩ := a
        have := prT _ _ _ hf
        exact ihEL _ p (by omega)
      | throw msg => simp
      | outOfFuel => exact absurd hf hne

/-- The method `Parser::parse` does not run out of fuel. -/
theorem parse_pos_ne_outOfFuel : parse_pos A tokens ≠ .outOfFuel :=
  (enough_fuel A tokens (parse_fuel tokens)).2.2.2.2 0 (by
    unfold parse_fuel
    omega)

/-- A run of `expr` from position 0 that ends, with whatever fuel, is the run
of `Parser::parse`. -/
theorem parse_pos_eq_of_expr {k : Nat} {r : Run (ASTNode V × Nat)}
    (h : expr A tokens k 0 = r) (hr : r ≠ .outOfFuel) : parse_pos A tokens = r := by
  unfold parse_pos
  rcases Nat.le_total k (parse_fuel tokens) with hle | hle
  · rw [expr_fuel_le A tokens hle (by rw [h]; exact hr), h]
  · have := expr_fuel_le A tokens hle (parse_pos_ne_outOfFuel A tokens)
    rw [← this, h]

/-! ## Parser: a successful run reads only the tokens up to its final position -/

/-- A successful call succeeds with the same result on every token vector
that has the same tokens up to and including the final position. -/
theorem run_local (tokens2 : List Token) (fuel : Nat) :
    (∀ pos node p, factor A tokens fuel pos = .ok (node, p) →
        (∀ i, i ≤ p → current_token tokens2 i = current_token tokens i) →
        factor A tokens2 fuel pos = .ok (node, p))
    ∧ (∀ n0 pos node p, term_loop A tokens fuel n0 pos = .ok (node, p) →
        (∀ i, i ≤ p → current_token tokens2 i = current_token tokens i) →
        term_loop A tokens2 fuel n0 pos = .ok (node, p))
    ∧ (∀ pos node p, term A tokens fuel pos = .ok (node, p) →
        (∀ i, i ≤ p → current_token tokens2 i = current_token tokens i) →
        term A tokens2 fuel pos = .ok (node, p))
    ∧ (∀ n0 pos node p, expr_loop A tokens fuel n0 pos = .ok (node, p) →
        (∀ i, i ≤ p → current_token tokens2 i = current_token tokens i) →
        expr_loop A tokens2 fuel n0 pos = .ok (node, p))
    ∧ (∀ pos node p, expr A tokens fuel pos = .ok (node, p) →
        (∀ i, i ≤ p → current_token tokens2 i = current_token tokens i) →
        expr A tokens2 fuel pos = .ok (node, p)) := by
  induction fuel with
  | zero =>
    simp [factor_zero, term_loop_zero, term_zero, expr_loop_zero, expr_zero]
  | succ n ih =>
    obtain ⟨ihF, ihTL, ihT, ihEL, ihE⟩ := ih
    obtain ⟨prF, prTL, prT, prEL, prE⟩ := progress A tokens n
    refine ⟨?_, ?_, ?_, ?_, ?_⟩
    · intro pos node p h hag
      have hpr := (progress A tokens (n + 1)).1 _ _ _ h
      rw [factor_succ] at h ⊢
      rw [hag pos (by omega), hag (pos + 1) (by omega)]
      split_ifs at h ⊢ with hN hI hE hL
      · exact h
      · cases he : expr A tokens n (pos + 2) with
        | ok a =>
          obtain ⟨node1, p1⟩ := a
          rw [he] at h
          simp only [Run.ok.injEq, Prod.mk.injEq] at h
          obtain ⟨rfl, rfl⟩ := h
          rw [ihE _ _ _ he hag]
        | throw msg => rw [he] at h; simp at h
        | outOfFuel => rw [he] at h; simp at h
      · exact h
      · cases he : expr A tokens n (pos + 1) with
        | ok a =>
          obtain ⟨node1, p1⟩ := a
          rw [he] at h
          simp only at h
          split_ifs at h with hR
          simp only [Run.ok.injEq, Prod.mk.injEq] at h
          obtain ⟨rfl, rfl⟩ := h
          rw [ihE _ _ _ he (fun i hi => hag i (by omega))]
          simp only
          rw [hag p1 (by omega), if_neg hR]
        | throw msg => rw [he] at h; simp at h
        | outOfFuel => rw [he] at h; simp at h
    · intro n0 pos node p h hag
      have hpr := (progress A tokens (n + 1)).2.1 _ _ _ _ h
      rw [term_loop_succ] at h ⊢
      rw [hag pos (by omega)]
      split_ifs at h ⊢ with hop
      · cases hf : factor A tokens n (pos + 1) with
        | ok a =>
          obtain ⟨right, p1⟩ := a
          rw [hf] at h
          simp only at h
          have h1 := prTL _ _ _ _ h
          rw [ihF _ _ _ hf (fun i hi => hag i (by omega))]
          exact ihTL _ _ _ _ h hag
        | throw msg => rw [hf] at h; simp at h
        | outOfFuel => rw [hf] at h; simp at h
      · exact h
    · intro pos node p h hag
      rw [term_succ] at h ⊢
      cases hf : factor A tokens n pos with
      | ok a =>
        obtain ⟨node1, p1⟩ := a
        rw [hf] at h
        simp only at h
        have h1 := prTL _ _ _ _ h
        rw [ihF _ _ _ hf (fun i hi => hag i (by omega))]
        exact ihTL _ _ _ _ h hag
      | throw msg => rw [hf] at h; simp at h
      | outOfFuel => rw [hf] at h; simp at h
    · intro n0 pos node p h hag
      have hpr := (progress A tokens (n + 1)).2.2.2.1 _ _ _ _ h
      rw [expr_loop_succ] at h ⊢
      rw [hag pos (by omega)]
      split_ifs at h ⊢ with hop
      · cases hf : term A tokens n (pos + 1) with
        | ok a =>
          obtain ⟨right, p1⟩ := a
          rw [hf] at h
          simp only at h
          have h1 := prEL _ _ _ _ h
          rw [ihT _ _ _ hf (fun i hi => hag i (by omega))]
          exact ihEL _ _ _ _ h hag
        | throw msg => rw [hf] at h; simp at h
        | outOfFuel => rw [hf] at h; simp at h
      · exact h
    · intro pos node p h hag
      rw [expr_succ] at h ⊢
      cases hf : term A tokens n pos with
      | ok a =>
        obtain ⟨node1, p1⟩ := a
        rw [hf] at h
        simp only at h
        have h1 := prEL _ _ _ _ h
        rw [ihT _ _ _ hf (fun i hi => hag i (by omega))]
        exact ihEL _ _ _ _ h hag
      | throw msg => rw [hf] at h; simp at h
      | outOfFuel => rw [hf] at h; simp at h

theorem current_token_of_take_eq {tokens2 : List Token} {k : Nat}
    (h : tokens2.take (k + 1) = tokens.take (k + 1)) {i : Nat} (hi : i ≤ k) :
    current_token tokens2 i = current_token tokens i := by
  have e : ∀ l : List Token, l[i]? = (l.take (k + 1))[i]? := by
    intro l
    rw [List.getElem?_take, if_pos (Nat.lt_succ_of_le hi)]
  rw [current_token_eq, current_token_eq, e tokens2, e tokens, h]

/-! ## Parser: runs on given tokens -/

variable {A} {tokens}

theorem atomNode_cases {t : Token} {n : ASTNode V} (h : atomNode A t = some n) :
    (t.type = .NUMBER ∧ ∃ v, A.stod t.value = some v ∧ n = .NumberNode v)
      ∨ (t.type = .IDENTIFIER ∧ n = .VariableNode t.value) := by
  unfold atomNode at h
  split_ifs at h with h1 h2
  · left
    cases hs : A.stod t.value with
    | none => rw [hs] at h; simp at h
    | some v =>
      rw [hs] at h
      simp only [Option.map_some', Option.some.injEq] at h
      exact ⟨h1, v, rfl, h.symm⟩
  · right
    simp only [Option.some.injEq] at h
    exact ⟨h2, h.symm⟩

/-- A one-token factor not followed by `=`. -/
theorem factor_atom {i : Nat} {n : ASTNode V}
    (h : atomNode A (current_token tokens i) = some n)
    (hnext : (current_token tokens (i + 1)).type ≠ .EQUALS) (fuel : Nat) :
    factor A tokens (fuel + 1) i = .ok (n, i + 1) := by
  rw [factor_succ]
  rcases atomNode_cases h with ⟨ht, v, hv, rfl⟩ | ⟨ht, rfl⟩
  · rw [if_pos ht, hv]
  · rw [if_neg (by rw [ht]; decide), if_pos ht, if_neg hnext]

theorem term_loop_stop {pos : Nat}
    (h : ¬ ((current_token tokens pos).type = .MULTIPLY
      ∨ (current_token tokens pos).type = .DIVIDE))
    (fuel : Nat) (node : ASTNode V) :
    term_loop A tokens (fuel + 1) node pos = .ok (node, pos) := by
  rw [term_loop_succ, if_neg h]

theorem expr_loop_stop {pos : Nat}
    (h : ¬ ((current_token tokens pos).type = .PLUS
      ∨ (current_token tokens pos).type = .MINUS))
    (fuel : Nat) (node : ASTNode V) :
    expr_loop A tokens (fuel + 1) node pos = .ok (node, pos) := by
  rw [expr_loop_succ, if_neg h]

theorem term_loop_step {i p fuel : Nat} {right : ASTNode V}
    (h : (current_token tokens i).type = .MULTIPLY
      ∨ (current_token tokens i).type = .DIVIDE)
    (hf : factor A tokens fuel (i + 1) = .ok (right, p)) (node : ASTNode V) :
    term_loop A tokens (fuel + 1) node i =
      term_loop A tokens fuel
        (.BinaryOpNode node (current_token tokens i).type right) p := by
  rw [term_loop_succ, if_pos h, hf]

theorem expr_loop_step {i p fuel : Nat} {right : ASTNode V}
    (h : (current_token tokens i).type = .PLUS
      ∨ (current_token tokens i).type = .MINUS)
    (hf : term A tokens fuel (i + 1) = .ok (right, p)) (node : ASTNode V) :
    expr_loop A tokens (fuel + 1) node i =
      expr_loop A tokens fuel
        (.BinaryOpNode node (current_token tokens i).type right) p := by
  rw [expr_loop_succ, if_pos h, hf]

theorem term_of_factor {pos p fuel : Nat} {node : ASTNode V}
    (hf : factor A tokens fuel pos = .ok (node, p)) :
    term A tokens (fuel + 1) pos = term_loop A tokens fuel node p := by
  rw [term_succ, hf]

theorem expr_of_term {pos p fuel : Nat} {node : ASTNode V}
    (hf : term A tokens fuel pos = .ok (node, p)) :
    expr A tokens (fuel + 1) pos = expr_loop A tokens fuel node p := by
  rw [expr_succ, hf]

/-- A one-token term: a one-token factor followed by a token that is none of
`=`, `*`, `/`. -/
theorem term_atom {i : Nat} {n : ASTNode V}
    (h : atomNode A (current_token tokens i) = some n)
    (h1 : (current_token tokens (i + 1)).type ≠ .EQUALS)
    (h2 : ¬ ((current_token tokens (i + 1)).type = .MULTIPLY
      ∨ (current_token tokens (i + 1)).type = .DIVIDE)) (fuel : Nat) :
    term A tokens (fuel + 2) i = .ok (n, i + 1) := by
  rw [term_of_factor (factor_atom h h1 fuel), term_loop_stop h2]

theorem parse_of_parse_pos {node : ASTNode V} {p : Nat}
    (h : parse_pos A tokens = .ok (node, p)) : parse A tokens = .ok node := by
  unfold parse
  rw [h]

theorem parse_of_parse_pos_throw {msg : String}
    (h : parse_pos A tokens = .throw msg) : parse A tokens = .throw msg := by
  unfold parse
  rw [h]

/-- The tokens `f0 (+|-) f1 (*|/) f2 EOF` of one-token factors parse to
`BinaryOp(f0, op1, BinaryOp(f1, op2, f2))`. -/
theorem parse_sum_of_product {f0 f1 f2 op1 op2 : Token} {n0 n1 n2 : ASTNode V}
    (h0 : atomNode A f0 = some n0) (h1 : atomNode A f1 = some n1)
    (h2 : atomNode A f2 = some n2)
    (hop1 : op1.type = .PLUS ∨ op1.type = .MINUS)
    (hop2 : op2.type = .MULTIPLY ∨ op2.type = .DIVIDE) :
    parse_pos A [f0, op1, f1, op2, f2, ⟨.EOF_TOKEN, ""⟩]
      = .ok (.BinaryOpNode n0 op1.type (.BinaryOpNode n1 op2.type n2), 5) := by
  have c0 : current_token [f0, op1, f1, op2, f2, ⟨.EOF_TOKEN, ""⟩] 0 = f0 := rfl
  have c1 : current_token [f0, op1, f1, op2, f2, ⟨.EOF_TOKEN, ""⟩] 1 = op1 := rfl
  have c2 : current_token [f0, op1, f1, op2, f2, ⟨.EOF_TOKEN, ""⟩] 2 = f1 := rfl
  have c3 : current_token [f0, op1, f1, op2, f2, ⟨.EOF_TOKEN, ""⟩] 3 = op2 := rfl
  have c4 : current_token [f0, op1, f1, op2, f2, ⟨.EOF_TOKEN, ""⟩] 4 = f2 := rfl
  have c5 : current_token [f0, op1, f1, op2, f2, ⟨.EOF_TOKEN, ""⟩] 5
      = ⟨.EOF_TOKEN, ""⟩ := rfl
  have e1 : op1.type ≠ .EQUALS ∧ ¬ (op1.type = .MULTIPLY ∨ op1.type = .DIVIDE) := by
    rcases hop1 with h | h <;> rw [h] <;> decide
  have e2 : op2.type ≠ .EQUALS := by
    rcases hop2 with h | h <;> rw [h] <;> decide
  refine parse_pos_eq_of_expr A _ (k := 8) ?_ (by simp)
  rw [expr_of_term (term_atom (i := 0) (by rw [c0]; exact h0) (by rw [c1]; exact e1.1)
    (by rw [c1]; exact e1.2) 5)]
  have hf4 : factor A [f0, op1, f1, op2, f2, ⟨.EOF_TOKEN, ""⟩] 4 4 = .ok (n2, 5) :=
    factor_atom (i := 4) (by rw [c4]; exact h2) (by rw [c5]; decide) 3
  have ht2 : term A [f0, op1, f1, op2, f2, ⟨.EOF_TOKEN, ""⟩] 6 2
      = .ok (.BinaryOpNode n1 op2.type n2, 5) := by
    rw [term_of_factor (factor_atom (i := 2) (by rw [c2]; exact h1)
      (by rw [c3]; exact e2) 4)]
    rw [term_loop_step (i := 3) (by rw [c3]; exact hop2) hf4, c3]
    exact term_loop_stop (by rw [c5]; decide) 3 _
  rw [expr_loop_step (i := 1) (by rw [c1]; exact hop1) ht2, c1]
  exact expr_loop_stop (by rw [c5]; decide) 5 _

end Parser

/-! ## Interpreter: composing the three stages -/

namespace Lexer

theorem separated_cons {c : Char} (h1 : isdigit c = false) (h2 : c ≠ '.')
    (r : List Char) : Separated (c :: r) := ⟨h1, h2⟩

theorem separated_nil : Separated [] := ⟨by decide, by decide⟩

/-- The tokens of `a + b * c` for number literals `a`, `b`, `c`. -/
theorem tokenize_sum_of_product {a b c : String}
    (ha : isNumberLiteral a.data = true) (hb : isNumberLiteral b.data = true)
    (hc : isNumberLiteral c.data = true) :
    tokenize (a ++ " + " ++ b ++ " * " ++ c)
      = some [⟨.NUMBER, a⟩, ⟨.PLUS, "+"⟩, ⟨.NUMBER, b⟩, ⟨.MULTIPLY, "*"⟩, ⟨.NUMBER, c⟩,
          ⟨.EOF_TOKEN, ""⟩] := by
  have e1 : (" + " : String).data = [' ', '+', ' '] := rfl
  have e2 : (" * " : String).data = [' ', '*', ' '] := rfl
  have hc1 := tokenize_chars_literal hc separated_nil
  rw [List.append_nil, tokenize_chars_nil] at hc1
  unfold tokenize
  simp only [String.data_append, e1, e2, List.append_assoc, List.cons_append,
    List.nil_append]
  rw [tokenize_chars_literal ha (separated_cons (by decide) (by decide) _),
    tokenize_chars_space (by decide), tokenize_chars_plus,
    tokenize_chars_space (by decide),
    tokenize_chars_literal hb (separated_cons (by decide) (by decide) _),
    tokenize_chars_space (by decide), tokenize_chars_multiply,
    tokenize_chars_space (by decide), hc1]
  rfl

/-- The tokens of `(a + b) * c` for number literals `a`, `b`, `c`. -/
theorem tokenize_product_of_sum {a b c : String}
    (ha : isNumberLiteral a.data = true) (hb : isNumberLiteral b.data = true)
    (hc : isNumberLiteral c.data = true) :
    tokenize ("(" ++ a ++ " + " ++ b ++ ") * " ++ c)
      = some [⟨.LPAREN, "("⟩, ⟨.NUMBER, a⟩, ⟨.PLUS, "+"⟩, ⟨.NUMBER, b⟩, ⟨.RPAREN, ")"⟩,
          ⟨.MULTIPLY, "*"⟩, ⟨.NUMBER, c⟩, ⟨.EOF_TOKEN, ""⟩] := by
  have e0 : ("(" : String).data = ['('] := rfl
  have e1 : (" + " : String).data = [' ', '+', ' '] := rfl
  have e2 : (") * " : String).data = [')', ' ', '*', ' '] := rfl
  have hc1 := tokenize_chars_literal hc separated_nil
  rw [List.append_nil, tokenize_chars_nil] at hc1
  unfold tokenize
  simp only [String.data_append, e0, e1, e2, List.append_assoc, List.cons_append,
    List.nil_append]
  rw [tokenize_chars_lparen,
    tokenize_chars_literal ha (separated_cons (by decide) (by decide) _),
    tokenize_chars_space (by decide), tokenize_chars_plus,
    tokenize_chars_space (by decide),
    tokenize_chars_literal hb (separated_cons (by decide) (by decide) _),
    tokenize_chars_rparen,
    tokenize_chars_space (by decide), tokenize_chars_multiply,
    tokenize_chars_space (by decide), hc1]
  rfl

end Lexer

namespace Interpreter

variable {V : Type} {A : Arith V}

theorem evaluate_of_ok {text : String} {tokens : List Token} {ast : ASTNode V}
    {env env1 : Env V} {v : V} (ht : Lexer.tokenize text = some tokens)
    (hp : Parser.parse A tokens = .ok ast) (he : ast.evaluate A env = (.ok v, env1)) :
    evaluate A text env = some (v, env1) := by
  unfold evaluate
  rw [ht]
  simp only [hp, he]

theorem evaluate_of_parse_throw {text : String} {tokens : List Token} {m : String}
    (env : Env V) (ht : Lexer.tokenize text = some tokens)
    (hp : Parser.parse A tokens = .throw m) :
    evaluate A text env = some (A.zero, env) := by
  unfold evaluate
  rw [ht]
  simp only [hp]

theorem evaluate_of_error {text : String} {tokens : List Token} {ast : ASTNode V}
    {env env1 : Env V} {m : String} (ht : Lexer.tokenize text = some tokens)
    (hp : Parser.parse A tokens = .ok ast) (he : ast.evaluate A env = (.error m, env1)) :
    evaluate A text env = some (A.zero, env1) := by
  unfold evaluate
  rw [ht]
  simp only [hp, he]

end Interpreter

theorem atomNode_number {V : Type} {A : Arith V} {a : String} {v : V}
    (h : A.stod a = some v) : atomNode A ⟨.NUMBER, a⟩ = some (.NumberNode v) := by
  simp [atomNode, h]

/-! ## The exceptions of the parser and of the evaluator -/

namespace Parser

/-- Every exception of the parser is a conversion failure, a missing `)` or
an unexpected token. -/
theorem throw_kinds {V : Type} (A : Arith V) (tokens : List Token) (fuel : Nat) :
    (∀ pos msg, factor A tokens fuel pos = .throw msg → IsParseError msg)
    ∧ (∀ n0 pos msg, term_loop A tokens fuel n0 pos = .throw msg → IsParseError msg)
    ∧ (∀ pos msg, term A tokens fuel pos = .throw msg → IsParseError msg)
    ∧ (∀ n0 pos msg, expr_loop A tokens fuel n0 pos = .throw msg → IsParseError msg)
    ∧ (∀ pos msg, expr A tokens fuel pos = .throw msg → IsParseError msg) := by
  induction fuel with
  | zero =>
    simp [factor_zero, term_loop_zero, term_zero, expr_loop_zero, expr_zero]
  | succ n ih =>
    obtain ⟨ihF, ihTL, ihT, ihEL, ihE⟩ := ih
    refine ⟨?_, ?_, ?_, ?_, ?_⟩
    · intro pos msg h
      rw [factor_succ] at h
      split_ifs at h with hN hI hE hL
      · split at h <;> simp at h
        exact Or.inl h.symm
      · cases he : expr A tokens n (pos + 2) with
        | ok a => rw [he] at h; simp at h
        | throw m =>
          rw [he] at h
          simp only [Run.throw.injEq] at h
          exact h ▸ ihE _ _ he
        | outOfFuel => rw [he] at h; simp at h
      · cases he : expr A tokens n (pos + 1) with
        | ok a =>
          rw [he] at h
          simp only at h
          split_ifs at h
          simp only [Run.throw.injEq] at h
          exact Or.inr (Or.inl h.symm)
        | throw m =>
          rw [he] at h
          simp only [Run.throw.injEq] at h
          exact h ▸ ihE _ _ he
        | outOfFuel => rw [he] at h; simp at h
      · simp only [Run.throw.injEq] at h
        exact Or.inr (Or.inr ⟨_, h.symm⟩)
    · intro n0 pos msg h
      rw [term_loop_succ] at h
      split_ifs at h with hop
      cases hf : factor A tokens n (pos + 1) with
      | ok a => rw [hf] at h; exact ihTL _ _ _ h
      | throw m =>
        rw [hf] at h
        simp only [Run.throw.injEq] at h
        exact h ▸ ihF _ _ hf
      | outOfFuel => rw [hf] at h; simp at h
    · intro pos msg h
      rw [term_succ] at h
      cases hf : factor A tokens n pos with
      | ok a => rw [hf] at h; exact ihTL _ _ _ h
      | throw m =>
        rw [hf] at h
        simp only [Run.throw.injEq] at h
        exact h ▸ ihF _ _ hf
      | outOfFuel => rw [hf] at h; simp at h
    · intro n0 pos msg h
      rw [expr_loop_succ] at h
      split_ifs at h with hop
      cases hf : term A tokens n (pos + 1) with
      | ok a => rw [hf] at h; exact ihEL _ _ _ h
      | throw m =>
        rw [hf] at h
        simp only [Run.throw.injEq] at h
        exact h ▸ ihT _ _ hf
      | outOfFuel => rw [hf] at h; simp at h
    · intro pos msg h
      rw [expr_succ] at h
      cases hf : term A tokens n pos with
      | ok a => rw [hf] at h; exact ihEL _ _ _ h
      | throw m =>
        rw [hf] at h
        simp only [Run.throw.injEq] at h
        exact h ▸ ihT _ _ hf
      | outOfFuel => rw [hf] at h; simp at h

/-- The method `Parser::parse` returns a tree or throws one of its three exceptions. -/
theorem parse_cases {V : Type} (A : Arith V) (tokens : List Token) :
    (∃ ast, parse A tokens = .ok ast)
      ∨ ∃ msg, parse A tokens = .throw msg ∧ IsParseError msg := by
  have hne := parse_pos_ne_outOfFuel A tokens
  unfold parse
  cases h : parse_pos A tokens with
  | ok a => exact Or.inl ⟨a.1, rfl⟩
  | throw msg => exact Or.inr ⟨msg, rfl, (throw_kinds A tokens _).2.2.2.2 _ _ h⟩
  | outOfFuel => exact absurd h hne

end Parser

namespace ASTNode

/-- Every exception of `ASTNode::evaluate` is an undefined variable, a
division by zero or an unknown operator. -/
theorem evaluate_error_kinds {V : Type} (A : Arith V) (node : ASTNode V) :
    ∀ (env env1 : Env V) (msg : String),
      node.evaluate A env = (.error msg, env1) → IsEvalError msg := by
  induction node with
  | NumberNode value =>
    intro env env1 msg h
    simp [evaluate] at h
  | BinaryOpNode left op right ihl ihr =>
    intro env env1 msg h
    rw [evaluate] at h
    cases hl : evaluate A left env with
    | mk r1 e1 =>
      cases r1 with
      | error m =>
        rw [hl] at h
        simp only [Prod.mk.injEq, Except.error.injEq] at h
        exact h.1 ▸ ihl _ _ _ hl
      | ok a =>
        rw [hl] at h
        simp only at h
        cases hr : evaluate A right e1 with
        | mk r2 e2 =>
          cases r2 with
          | error m =>
            rw [hr] at h
            simp only [Prod.mk.injEq, Except.error.injEq] at h
            exact h.1 ▸ ihr _ _ _ hr
          | ok b =>
            rw [hr] at h
            simp only at h
            cases op with
            | PLUS => simp at h
            | MINUS => simp at h
            | MULTIPLY => simp at h
            | DIVIDE =>
              simp only at h
              split_ifs at h with hz
              · simp only [Prod.mk.injEq, Except.error.injEq] at h
                exact Or.inl h.1.symm
              · simp at h
            | NUMBER => simp at h; exact Or.inr (Or.inl h.1.symm)
            | LPAREN => simp at h; exact Or.inr (Or.inl h.1.symm)
            | RPAREN => simp at h; exact Or.inr (Or.inl h.1.symm)
            | IDENTIFIER => simp at h; exact Or.inr (Or.inl h.1.symm)
            | EQUALS => simp at h; exact Or.inr (Or.inl h.1.symm)
            | EOF_TOKEN => simp at h; exact Or.inr (Or.inl h.1.symm)
  | VariableNode name =>
    intro env env1 msg h
    rw [evaluate] at h
    cases hv : env name with
    | none =>
      rw [hv] at h
      simp only [Prod.mk.injEq, Except.error.injEq] at h
      exact Or.inr (Or.inr ⟨name, h.1.symm⟩)
    | some v => rw [hv] at h; simp at h
  | AssignmentNode var value ih =>
    intro env env1 msg h
    rw [evaluate] at h
    cases hv : evaluate A value env with
    | mk r1 e1 =>
      cases r1 with
      | error m =>
        rw [hv] at h
        simp only [Prod.mk.injEq, Except.error.injEq] at h
        exact h.1 ▸ ih _ _ _ hv
      | ok a => rw [hv] at h; simp at h

end ASTNode

/-! ## Parser: chains of operators of one precedence level -/

namespace Parser

variable {V : Type} {A : Arith V}

theorem current_token_append (pre post : List Token) (i : Nat) :
    current_token (pre ++ post) (pre.length + i) = current_token post i := by
  rw [current_token_eq, current_token_eq,
    List.getElem?_append_right (Nat.le_add_right _ _), Nat.add_sub_cancel_left]

theorem current_token_cons_succ (t : Token) (l : List Token) (i : Nat) :
    current_token (t :: l) (i + 1) = current_token l i := by
  rw [current_token_eq, current_token_eq, List.getElem?_cons_succ]

theorem current_token_cons_zero (t : Token) (l : List Token) :
    current_token (t :: l) 0 = t := by
  simp [current_token_eq]

theorem chainRest_cons (x : Token × Token × ASTNode V)
    (tl : List (Token × Token × ASTNode V)) :
    chainRest (x :: tl) = x.1 :: x.2.1 :: chainRest tl := by
  simp [chainRest, List.flatMap_cons]

theorem current_token_chainRest_nil :
    current_token (chainRest ([] : List (Token × Token × ASTNode V))) 0
      = ⟨.EOF_TOKEN, ""⟩ := rfl

theorem chainRest_append_cons (pre : List Token) (x : Token × Token × ASTNode V)
    (tl : List (Token × Token × ASTNode V)) :
    (pre ++ [x.1, x.2.1]) ++ chainRest tl = pre ++ chainRest (x :: tl) := by
  rw [chainRest_cons]
  simp

theorem chainRest_positions (pre : List Token) (x : Token × Token × ASTNode V)
    (tl : List (Token × Token × ASTNode V)) :
    current_token (pre ++ chainRest (x :: tl)) pre.length = x.1
      ∧ current_token (pre ++ chainRest (x :: tl)) (pre.length + 1) = x.2.1
      ∧ current_token (pre ++ chainRest (x :: tl)) (pre.length + 1 + 1)
          = current_token (chainRest tl) 0 := by
  have h0 := current_token_append pre (chainRest (x :: tl)) 0
  have h1 := current_token_append pre (chainRest (x :: tl)) 1
  have h2 := current_token_append pre (chainRest (x :: tl)) 2
  rw [Nat.add_zero] at h0
  rw [chainRest_cons] at h0 h1 h2 ⊢
  refine ⟨h0.trans (current_token_cons_zero _ _), h1.trans ?_, h2.trans ?_⟩
  · rw [current_token_cons_succ, current_token_cons_zero]
  · rw [current_token_cons_succ, current_token_cons_succ]

theorem chainRest_length (rest : List (Token × Token × ASTNode V)) :
    (chainRest rest).length = 2 * rest.length + 1 := by
  induction rest with
  | nil => rfl
  | cons x tl ih =>
    rw [chainRest_cons, List.length_cons, List.length_cons, ih, List.length_cons]
    omega

/-- The first token of `op1 f1 ... opn fn EOF` is `EOF` or an operator of
the chain. -/
theorem chainRest_head (rest : List (Token × Token × ASTNode V)) :
    (current_token (chainRest rest) 0).type = .EOF_TOKEN
      ∨ ∃ x ∈ rest, current_token (chainRest rest) 0 = x.1 := by
  cases rest with
  | nil => left; rfl
  | cons x tl =>
    right
    exact ⟨x, List.mem_cons_self x tl, by rw [chainRest_cons, current_token_cons_zero]⟩

theorem chainRest_last (pre : List Token) (rest : List (Token × Token × ASTNode V)) :
    current_token (pre ++ chainRest rest) (pre.length + 2 * rest.length)
      = ⟨.EOF_TOKEN, ""⟩ := by
  induction rest generalizing pre with
  | nil =>
    have h := current_token_append pre (chainRest ([] : List (Token × Token × ASTNode V))) 0
    rw [current_token_chainRest_nil] at h
    exact h
  | cons x tl ih =>
    have h := ih (pre ++ [x.1, x.2.1])
    have hl : (pre ++ [x.1, x.2.1]).length = pre.length + 2 := by simp
    rw [hl, chainRest_append_cons] at h
    have e : pre.length + 2 * (x :: tl).length = pre.length + 2 + 2 * tl.length := by
      rw [List.length_cons]
      omega
    rw [e]
    exact h

/-- The loop of `Parser::expr` on `op1 f1 ... opn fn EOF` with operators `+`
and `-` folds to the left. -/
theorem expr_loop_chain (rest : List (Token × Token × ASTNode V)) :
    ∀ (pre : List Token) (node : ASTNode V) (fuel : Nat),
      (∀ x ∈ rest, atomNode A x.2.1 = some x.2.2) →
      (∀ x ∈ rest, x.1.type = .PLUS ∨ x.1.type = .MINUS) →
      rest.length + 3 ≤ fuel →
      expr_loop A (pre ++ chainRest rest) fuel node pre.length
        = .ok (leftFold node rest, pre.length + 2 * rest.length) := by
  induction rest with
  | nil =>
    intro pre node fuel _ _ hfuel
    obtain ⟨k, rfl⟩ : ∃ k, fuel = k + 1 := ⟨fuel - 1, by omega⟩
    have hc := current_token_append pre (chainRest ([] : List (Token × Token × ASTNode V))) 0
    rw [Nat.add_zero, current_token_chainRest_nil] at hc
    have e : pre.length + 2 * ([] : List (Token × Token × ASTNode V)).length = pre.length :=
      rfl
    rw [e]
    refine expr_loop_stop ?_ k node
    rw [hc]
    decide
  | cons x tl ih =>
    intro pre node fuel hat hops hfuel
    obtain ⟨k, rfl⟩ : ∃ k, fuel = k + 3 := ⟨fuel - 3, by
      simp only [List.length_cons] at hfuel; omega⟩
    have hx := hops x (List.mem_cons_self x tl)
    obtain ⟨c0, c1, c2⟩ := chainRest_positions pre x tl
    have hnext : (current_token (chainRest tl) 0).type ≠ .EQUALS
        ∧ ¬ ((current_token (chainRest tl) 0).type = .MULTIPLY
          ∨ (current_token (chainRest tl) 0).type = .DIVIDE) := by
      rcases chainRest_head tl with h | ⟨y, hy, h⟩
      · rw [h]; decide
      · rw [h]
        rcases hops y (List.mem_cons_of_mem x hy) with h1 | h1 <;> rw [h1] <;> decide
    have ht : term A (pre ++ chainRest (x :: tl)) (k + 2) (pre.length + 1)
        = .ok (x.2.2, pre.length + 1 + 1) :=
      term_atom (by rw [c1]; exact hat x (List.mem_cons_self x tl))
        (by rw [c2]; exact hnext.1) (by rw [c2]; exact hnext.2) k
    rw [expr_loop_step (by rw [c0]; exact hx) ht, c0]
    have h := ih (pre ++ [x.1, x.2.1]) (.BinaryOpNode node x.1.type x.2.2) (k + 2)
      (fun y hy => hat y (List.mem_cons_of_mem x hy))
      (fun y hy => hops y (List.mem_cons_of_mem x hy))
      (by simp only [List.length_cons] at hfuel; omega)
    have hl : (pre ++ [x.1, x.2.1]).length = pre.length + 2 := by simp
    rw [hl, chainRest_append_cons] at h
    have e : pre.length + 2 * (x :: tl).length = pre.length + 2 + 2 * tl.length := by
      rw [List.length_cons]
      omega
    rw [e]
    exact h

/-- The loop of `Parser::term` on `op1 f1 ... opn fn EOF` with operators `*`
and `/` folds to the left. -/
theorem term_loop_chain (rest : List (Token × Token × ASTNode V)) :
    ∀ (pre : List Token) (node : ASTNode V) (fuel : Nat),
      (∀ x ∈ rest, atomNode A x.2.1 = some x.2.2) →
      (∀ x ∈ rest, x.1.type = .MULTIPLY ∨ x.1.type = .DIVIDE) →
      rest.length + 2 ≤ fuel →
      term_loop A (pre ++ chainRest rest) fuel node pre.length
        = .ok (leftFold node rest, pre.length + 2 * rest.length) := by
  induction rest with
  | nil =>
    intro pre node fuel _ _ hfuel
    obtain ⟨k, rfl⟩ : ∃ k, fuel = k + 1 := ⟨fuel - 1, by omega⟩
    have hc := current_token_append pre (chainRest ([] : List (Token × Token × ASTNode V))) 0
    rw [Nat.add_zero, current_token_chainRest_nil] at hc
    have e : pre.length + 2 * ([] : List (Token × Token × ASTNode V)).length = pre.length :=
      rfl
    rw [e]
    refine term_loop_stop ?_ k node
    rw [hc]
    decide
  | cons x tl ih =>
    intro pre node fuel hat hops hfuel
    obtain ⟨k, rfl⟩ : ∃ k, fuel = k + 2 := ⟨fuel - 2, by
      simp only [List.length_cons] at hfuel; omega⟩
    have hx := hops x (List.mem_cons_self x tl)
    obtain ⟨c0, c1, c2⟩ := chainRest_positions pre x tl
    have hnext : (current_token (chainRest tl) 0).type ≠ .EQUALS := by
      rcases chainRest_head tl with h | ⟨y, hy, h⟩
      · rw [h]; decide
      · rw [h]
        rcases hops y (List.mem_cons_of_mem x hy) with h1 | h1 <;> rw [h1] <;> decide
    have hf : factor A (pre ++ chainRest (x :: tl)) (k + 1) (pre.length + 1)
        = .ok (x.2.2, pre.length + 1 + 1) :=
      factor_atom (by rw [c1]; exact hat x (List.mem_cons_self x tl))
        (by rw [c2]; exact hnext) k
    rw [term_loop_step (by rw [c0]; exact hx) hf, c0]
    have h := ih (pre ++ [x.1, x.2.1]) (.BinaryOpNode node x.1.type x.2.2) (k + 1)
      (fun y hy => hat y (List.mem_cons_of_mem x hy))
      (fun y hy => hops y (List.mem_cons_of_mem x hy))
      (by simp only [List.length_cons] at hfuel; omega)
    have hl : (pre ++ [x.1, x.2.1]).length = pre.length + 2 := by simp
    rw [hl, chainRest_append_cons] at h
    have e : pre.length + 2 * (x :: tl).length = pre.length + 2 + 2 * tl.length := by
      rw [List.length_cons]
      omega
    rw [e]
    exact h

/-- The result of `Parser::parse` on `f0 op1 f1 ... opn fn EOF` with all operators from
`+`, `-`. -/
theorem parse_pos_chain_additive {f0 : Token} {n0 : ASTNode V}
    {rest : List (Token × Token × ASTNode V)} (h0 : atomNode A f0 = some n0)
    (hat : ∀ x ∈ rest, atomNode A x.2.1 = some x.2.2)
    (hops : ∀ x ∈ rest, x.1.type = .PLUS ∨ x.1.type = .MINUS) :
    parse_pos A (chainTokens f0 rest) = .ok (leftFold n0 rest, 1 + 2 * rest.length) := by
  have hnext : (current_token (chainTokens f0 rest) (0 + 1)).type ≠ .EQUALS
      ∧ ¬ ((current_token (chainTokens f0 rest) (0 + 1)).type = .MULTIPLY
        ∨ (current_token (chainTokens f0 rest) (0 + 1)).type = .DIVIDE) := by
    unfold chainTokens
    rw [current_token_cons_succ]
    rcases chainRest_head rest with h | ⟨y, hy, h⟩
    · rw [h]; decide
    · rw [h]
      rcases hops y hy with h1 | h1 <;> rw [h1] <;> decide
  have ht : term A (chainTokens f0 rest) (rest.length + 1 + 2) 0 = .ok (n0, 0 + 1) :=
    term_atom (by rw [chainTokens, current_token_cons_zero]; exact h0) hnext.1 hnext.2
      (rest.length + 1)
  refine parse_pos_eq_of_expr A _ (k := rest.length + 3 + 1) ?_ (by simp)
  rw [expr_of_term ht]
  exact expr_loop_chain rest [f0] n0 (rest.length + 3) hat hops (Nat.le_refl _)

/-- The result of `Parser::parse` on `f0 op1 f1 ... opn fn EOF` with all operators from
`*`, `/`. -/
theorem parse_pos_chain_multiplicative {f0 : Token} {n0 : ASTNode V}
    {rest : List (Token × Token × ASTNode V)} (h0 : atomNode A f0 = some n0)
    (hat : ∀ x ∈ rest, atomNode A x.2.1 = some x.2.2)
    (hops : ∀ x ∈ rest, x.1.type = .MULTIPLY ∨ x.1.type = .DIVIDE) :
    parse_pos A (chainTokens f0 rest) = .ok (leftFold n0 rest, 1 + 2 * rest.length) := by
  have hnext : (current_token (chainTokens f0 rest) (0 + 1)).type ≠ .EQUALS := by
    unfold chainTokens
    rw [current_token_cons_succ]
    rcases chainRest_head rest with h | ⟨y, hy, h⟩
    · rw [h]; decide
    · rw [h]
      rcases hops y hy with h1 | h1 <;> rw [h1] <;> decide
  have hf : factor A (chainTokens f0 rest) (rest.length + 1 + 1) 0 = .ok (n0, 0 + 1) :=
    factor_atom (by rw [chainTokens, current_token_cons_zero]; exact h0) hnext
      (rest.length + 1)
  have htl := term_loop_chain rest [f0] n0 (rest.length + 2) hat hops (Nat.le_refl _)
  have hlast : current_token ([f0] ++ chainRest rest) (1 + 2 * rest.length)
      = ⟨.EOF_TOKEN, ""⟩ := chainRest_last [f0] rest
  refine parse_pos_eq_of_expr A _ (k := rest.length + 2 + 1 + 1) ?_ (by simp)
  have ht : term A (chainTokens f0 rest) (rest.length + 2 + 1) 0
      = .ok (leftFold n0 rest, 1 + 2 * rest.length) := by
    rw [term_of_factor hf]
    exact htl
  rw [expr_of_term ht]
  refine expr_loop_stop ?_ _ _
  have e : chainTokens f0 rest = [f0] ++ chainRest rest := rfl
  rw [e, hlast]
  decide

end Parser

/-- Reading a literal in exact decimal arithmetic. -/
theorem decimalArith_stod {s : String} {n d : Nat} {q : ℚ}
    (h : decimalParts s.data = some (n, d)) (hq : (n : ℚ) / 10 ^ d = q) :
    decimalArith.stod s = some q := by
  show decimalStod s = some q
  unfold decimalStod
  rw [h, Option.map_some', hq]

/-! ## Claims -/

/-- C1: multiplication and division bind tighter than addition and
subtraction, and parentheses override this.  For number literals `a`, `b`, `c`
whose texts `std::stod` converts to `va`, `vb`, `vc`, and every variable map,
`Interpreter::evaluate` returns `va + (vb * vc)` on `a + b * c` and
`(va + vb) * vc` on `(a + b) * c` and leaves the map unchanged; and the tokens
`f0 (+|-) f1 (*|/) f2 EOF` of one-token factors parse to
`BinaryOp(f0, op1, BinaryOp(f1, op2, f2))`. -/
theorem C1_precedence {V : Type} (A : Arith V) (a b c : String) (va vb vc : V)
    (ha : isNumberLiteral a.data = true) (hb : isNumberLiteral b.data = true)
    (hc : isNumberLiteral c.data = true)
    (hva : A.stod a = some va) (hvb : A.stod b = some vb) (hvc : A.stod c = some vc)
    (env : Env V) :
    Interpreter.evaluate A (a ++ " + " ++ b ++ " * " ++ c) env
        = some (A.add va (A.mul vb vc), env)
    ∧ Interpreter.evaluate A ("(" ++ a ++ " + " ++ b ++ ") * " ++ c) env
        = some (A.mul (A.add va vb) vc, env)
    ∧ ∀ (f0 f1 f2 op1 op2 : Token) (n0 n1 n2 : ASTNode V),
        atomNode A f0 = some n0 → atomNode A f1 = some n1 → atomNode A f2 = some n2 →
        (op1.type = .PLUS ∨ op1.type = .MINUS) →
        (op2.type = .MULTIPLY ∨ op2.type = .DIVIDE) →
        Parser.parse A [f0, op1, f1, op2, f2, ⟨.EOF_TOKEN, ""⟩]
          = .ok (.BinaryOpNode n0 op1.type (.BinaryOpNode n1 op2.type n2)) := by
  refine ⟨?_, ?_, ?_⟩
  · refine Interpreter.evaluate_of_ok (Lexer.tokenize_sum_of_product ha hb hc)
      (Parser.parse_of_parse_pos (Parser.parse_sum_of_product (atomNode_number hva)
        (atomNode_number hvb) (atomNode_number hvc) (Or.inl rfl) (Or.inl rfl))) ?_
    simp [ASTNode.evaluate]
  · have hp : Parser.parse A [⟨.LPAREN, "("⟩, ⟨.NUMBER, a⟩, ⟨.PLUS, "+"⟩, ⟨.NUMBER, b⟩,
        ⟨.RPAREN, ")"⟩, ⟨.MULTIPLY, "*"⟩, ⟨.NUMBER, c⟩, ⟨.EOF_TOKEN, ""⟩]
        = .ok (.BinaryOpNode (.BinaryOpNode (.NumberNode va) .PLUS (.NumberNode vb))
            .MULTIPLY (.NumberNode vc)) := by
      simp [Parser.parse, Parser.parse_pos, Parser.parse_fuel, Parser.expr, Parser.term,
        Parser.factor, Parser.term_loop, Parser.expr_loop, Parser.current_token,
        hva, hvb, hvc]
    refine Interpreter.evaluate_of_ok (Lexer.tokenize_product_of_sum ha hb hc) hp ?_
    simp [ASTNode.evaluate]
  · intro f0 f1 f2 op1 op2 n0 n1 n2 h0 h1 h2 hop1 hop2
    exact Parser.parse_of_parse_pos (Parser.parse_sum_of_product h0 h1 h2 hop1 hop2)

/-- Witness of C1 in exact decimal arithmetic: `2 + 3 * 4` gives 14 and
`(2 + 3) * 4` gives 20, the variable map unchanged. -/
theorem C1_precedence_witness :
    Interpreter.evaluate decimalArith "2 + 3 * 4" (emptyEnv ℚ) = some (14, emptyEnv ℚ)
    ∧ Interpreter.evaluate decimalArith "(2 + 3) * 4" (emptyEnv ℚ)
        = some (20, emptyEnv ℚ) := by
  have h2 : decimalArith.stod "2" = some 2 :=
    decimalArith_stod (n := 2) (d := 0) (by decide) (by norm_num)
  have h3 : decimalArith.stod "3" = some 3 :=
    decimalArith_stod (n := 3) (d := 0) (by decide) (by norm_num)
  have h4 : decimalArith.stod "4" = some 4 :=
    decimalArith_stod (n := 4) (d := 0) (by decide) (by norm_num)
  have h := C1_precedence decimalArith "2" "3" "4" 2 3 4 (by decide) (by decide)
    (by decide) h2 h3 h4 (emptyEnv ℚ)
  have e1 : ("2" ++ " + " ++ "3" ++ " * " ++ "4" : String) = "2 + 3 * 4" := by decide
  have e2 : ("(" ++ "2" ++ " + " ++ "3" ++ ") * " ++ "4" : String) = "(2 + 3) * 4" := by
    decide
  rw [e1, e2] at h
  refine ⟨h.1.trans ?_, h.2.1.trans ?_⟩
  · norm_num [decimalArith]
  · norm_num [decimalArith]

/-- C2: operators of one precedence level are left-associative.  For the token
sequence `f0 op1 f1 ... opn fn EOF`, each `fi` a single `NUMBER` token whose
text converts or a single `IDENTIFIER` token (`atomNode` gives its node), and
all `opi` from `+`, `-` or all from `*`, `/`, `Parser::parse` returns the left
fold `BinaryOp(...BinaryOp(BinaryOp(f0, op1, f1), op2, f2)..., opn, fn)`. -/
theorem C2_left_associative {V : Type} (A : Arith V) (f0 : Token) (n0 : ASTNode V)
    (rest : List (Token × Token × ASTNode V))
    (h0 : atomNode A f0 = some n0)
    (hat : ∀ x ∈ rest, atomNode A x.2.1 = some x.2.2)
    (hops : (∀ x ∈ rest, x.1.type = .PLUS ∨ x.1.type = .MINUS)
      ∨ (∀ x ∈ rest, x.1.type = .MULTIPLY ∨ x.1.type = .DIVIDE)) :
    Parser.parse A (chainTokens f0 rest) = .ok (leftFold n0 rest) := by
  rcases hops with hops | hops
  · exact Parser.parse_of_parse_pos (Parser.parse_pos_chain_additive h0 hat hops)
  · exact Parser.parse_of_parse_pos (Parser.parse_pos_chain_multiplicative h0 hat hops)

/-- Witness of C2: `a - b - c` parses as `(a - b) - c`. -/
theorem C2_left_associative_witness :
    Parser.parse decimalArith
        [⟨.IDENTIFIER, "a"⟩, ⟨.MINUS, "-"⟩, ⟨.IDENTIFIER, "b"⟩, ⟨.MINUS, "-"⟩,
          ⟨.IDENTIFIER, "c"⟩, ⟨.EOF_TOKEN, ""⟩]
      = .ok (.BinaryOpNode (.BinaryOpNode (.VariableNode "a") .MINUS (.VariableNode "b"))
          .MINUS (.VariableNode "c")) :=
  C2_left_associative decimalArith ⟨.IDENTIFIER, "a"⟩ (.VariableNode "a")
    [(⟨.MINUS, "-"⟩, ⟨.IDENTIFIER, "b"⟩, .VariableNode "b"),
      (⟨.MINUS, "-"⟩, ⟨.IDENTIFIER, "c"⟩, .VariableNode "c")]
    rfl (by simp [atomNode]) (Or.inl (by simp))

/-- C3: evaluating `Assignment{name, e}`, when `e` evaluates to `v` leaving the
map `env1`, returns `v` and leaves `env1` with `name` bound to `v` and every
other name unchanged; the right-hand side is evaluated before the store and so
reads the old value of `name`.  Hence `x = 5` returns 5 and a following `x`
returns 5, and `x = 1`, `x = x + 1`, `x` ends with `1 + 1`. -/
theorem C3_assignment {V : Type} (A : Arith V) :
    (∀ (name : String) (e : ASTNode V) (env env1 : Env V) (v : V),
        e.evaluate A env = (.ok v, env1) →
        (ASTNode.AssignmentNode name e).evaluate A env
            = (.ok v, Function.update env1 name (some v))
          ∧ Function.update env1 name (some v) name = some v
          ∧ ∀ other : String, other ≠ name →
              Function.update env1 name (some v) other = env1 other)
    ∧ (∀ (name : String) (env : Env V) (w k : V), env name = some w →
        (ASTNode.AssignmentNode name
            (.BinaryOpNode (.VariableNode name) .PLUS (.NumberNode k))).evaluate A env
          = (.ok (A.add w k), Function.update env name (some (A.add w k))))
    ∧ (∀ (env : Env V) (v5 : V), A.stod "5" = some v5 →
        Interpreter.evaluate A "x = 5" env
            = some (v5, Function.update env "x" (some v5))
          ∧ Interpreter.evaluate A "x" (Function.update env "x" (some v5))
            = some (v5, Function.update env "x" (some v5)))
    ∧ (∀ (env : Env V) (v1 : V), A.stod "1" = some v1 →
        ∃ env1 env2 : Env V,
          Interpreter.evaluate A "x = 1" env = some (v1, env1)
            ∧ Interpreter.evaluate A "x = x + 1" env1 = some (A.add v1 v1, env2)
            ∧ Interpreter.evaluate A "x" env2 = some (A.add v1 v1, env2)) := by
  have tx : Lexer.tokenize "x" = some [⟨.IDENTIFIER, "x"⟩, ⟨.EOF_TOKEN, ""⟩] := by decide
  have px : Parser.parse A [⟨.IDENTIFIER, "x"⟩, ⟨.EOF_TOKEN, ""⟩]
      = .ok (.VariableNode "x") := by
    simp [Parser.parse, Parser.parse_pos, Parser.parse_fuel, Parser.expr, Parser.term,
      Parser.factor, Parser.term_loop, Parser.expr_loop, Parser.current_token]
  have hx : ∀ (env : Env V) (v : V), env "x" = some v →
      Interpreter.evaluate A "x" env = some (v, env) := by
    intro env v hv
    exact Interpreter.evaluate_of_ok tx px (by simp [ASTNode.evaluate, hv])
  have hassign : ∀ (env : Env V) (s : String) (v : V), A.stod s = some v →
      Parser.parse A [⟨.IDENTIFIER, "x"⟩, ⟨.EQUALS, "="⟩, ⟨.NUMBER, s⟩, ⟨.EOF_TOKEN, ""⟩]
        = .ok (.AssignmentNode "x" (.NumberNode v)) := by
    intro env s v hv
    simp [Parser.parse, Parser.parse_pos, Parser.parse_fuel, Parser.expr, Parser.term,
      Parser.factor, Parser.term_loop, Parser.expr_loop, Parser.current_token, hv]
  refine ⟨?_, ?_, ?_, ?_⟩
  · intro name e env env1 v he
    refine ⟨?_, Function.update_same _ _ _, fun other ho => Function.update_noteq ho _ _⟩
    simp [ASTNode.evaluate, he]
  · intro name env w k hw
    simp [ASTNode.evaluate, hw]
  · intro env v5 h5
    have t5 : Lexer.tokenize "x = 5" = some [⟨.IDENTIFIER, "x"⟩, ⟨.EQUALS, "="⟩,
        ⟨.NUMBER, "5"⟩, ⟨.EOF_TOKEN, ""⟩] := by decide
    exact ⟨Interpreter.evaluate_of_ok t5 (hassign env "5" v5 h5)
        (by simp [ASTNode.evaluate]),
      hx _ v5 (Function.update_same _ _ _)⟩
  · intro env v1 h1
    have t1 : Lexer.tokenize "x = 1" = some [⟨.IDENTIFIER, "x"⟩, ⟨.EQUALS, "="⟩,
        ⟨.NUMBER, "1"⟩, ⟨.EOF_TOKEN, ""⟩] := by decide
    have t2 : Lexer.tokenize "x = x + 1" = some [⟨.IDENTIFIER, "x"⟩, ⟨.EQUALS, "="⟩,
        ⟨.IDENTIFIER, "x"⟩, ⟨.PLUS, "+"⟩, ⟨.NUMBER, "1"⟩, ⟨.EOF_TOKEN, ""⟩] := by decide
    have p2 : Parser.parse A [⟨.IDENTIFIER, "x"⟩, ⟨.EQUALS, "="⟩,
        ⟨.IDENTIFIER, "x"⟩, ⟨.PLUS, "+"⟩, ⟨.NUMBER, "1"⟩, ⟨.EOF_TOKEN, ""⟩]
        = .ok (.AssignmentNode "x"
            (.BinaryOpNode (.VariableNode "x") .PLUS (.NumberNode v1))) := by
      simp [Parser.parse, Parser.parse_pos, Parser.parse_fuel, Parser.expr, Parser.term,
        Parser.factor, Parser.term_loop, Parser.expr_loop, Parser.current_token, h1]
    refine ⟨Function.update env "x" (some v1),
      Function.update (Function.update env "x" (some v1)) "x" (some (A.add v1 v1)),
      Interpreter.evaluate_of_ok t1 (hassign env "1" v1 h1) (by simp [ASTNode.evaluate]),
      Interpreter.evaluate_of_ok t2 p2 (by simp [ASTNode.evaluate]),
      hx _ _ (Function.update_same _ _ _)⟩

/-- Witness of C3 in exact decimal arithmetic, from the empty map: `x = 5`
then `x` give 5 and 5; `x = 1`, `x = x + 1`, `x` end with 2. -/
theorem C3_assignment_witness :
    (∃ env1 : Env ℚ,
        Interpreter.evaluate decimalArith "x = 5" (emptyEnv ℚ) = some (5, env1)
          ∧ Interpreter.evaluate decimalArith "x" env1 = some (5, env1))
    ∧ (∃ env1 env2 : Env ℚ,
        Interpreter.evaluate decimalArith "x = 1" (emptyEnv ℚ) = some (1, env1)
          ∧ Interpreter.evaluate decimalArith "x = x + 1" env1 = some (2, env2)
          ∧ Interpreter.evaluate decimalArith "x" env2 = some (2, env2)) := by
  have h5 : decimalArith.stod "5" = some 5 :=
    decimalArith_stod (n := 5) (d := 0) (by decide) (by norm_num)
  have h1 : decimalArith.stod "1" = some 1 :=
    decimalArith_stod (n := 1) (d := 0) (by decide) (by norm_num)
  have h := C3_assignment decimalArith
  refine ⟨⟨_, h.2.2.1 (emptyEnv ℚ) 5 h5⟩, ?_⟩
  obtain ⟨env1, env2, e1, e2, e3⟩ := h.2.2.2 (emptyEnv ℚ) 1 h1
  have e : decimalArith.add 1 1 = 2 := by norm_num [decimalArith]
  rw [e] at e2 e3
  exact ⟨env1, env2, e1, e2, e3⟩

/-- C4: evaluating `VariableRef{name}` fails with the undefined-variable
error exactly when `name` has no binding, returns the bound value when it has
one, and leaves the map unchanged in both cases; `y` on the empty map returns
0 and the map stays empty. -/
theorem C4_variable_lookup {V : Type} (A : Arith V) (name : String) (env : Env V) :
    ((ASTNode.VariableNode name : ASTNode V).evaluate A env
        = (.error ("Undefined variable: " ++ name), env) ↔ env name = none)
    ∧ ((∃ msg env1, (ASTNode.VariableNode name : ASTNode V).evaluate A env
        = (.error msg, env1)) ↔ env name = none)
    ∧ (∀ v : V, env name = some v →
        (ASTNode.VariableNode name : ASTNode V).evaluate A env = (.ok v, env))
    ∧ ((ASTNode.VariableNode name : ASTNode V).evaluate A env).2 = env
    ∧ Interpreter.evaluate A "y" (emptyEnv V) = some (A.zero, emptyEnv V) := by
  refine ⟨?_, ?_, ?_, ?_, ?_⟩
  · cases h : env name <;> simp [ASTNode.evaluate, h]
  · cases h : env name <;> simp [ASTNode.evaluate, h]
  · intro v h
    simp [ASTNode.evaluate, h]
  · cases h : env name <;> simp [ASTNode.evaluate, h]
  · have ty : Lexer.tokenize "y" = some [⟨.IDENTIFIER, "y"⟩, ⟨.EOF_TOKEN, ""⟩] := by
      decide
    have py : Parser.parse A [⟨.IDENTIFIER, "y"⟩, ⟨.EOF_TOKEN, ""⟩]
        = .ok (.VariableNode "y") := by
      simp [Parser.parse, Parser.parse_pos, Parser.parse_fuel, Parser.expr, Parser.term,
        Parser.factor, Parser.term_loop, Parser.expr_loop, Parser.current_token]
    exact Interpreter.evaluate_of_error ty py
      (show (ASTNode.VariableNode "y" : ASTNode V).evaluate A (emptyEnv V)
        = (.error ("Undefined variable: " ++ "y"), emptyEnv V) from rfl)

/-- Witness of C4: after binding `y` to 7 the lookup returns 7 and leaves the
map as it is. -/
theorem C4_variable_lookup_witness :
    (ASTNode.VariableNode "y" : ASTNode ℚ).evaluate decimalArith
        (Function.update (emptyEnv ℚ) "y" (some 7))
      = (.ok 7, Function.update (emptyEnv ℚ) "y" (some 7)) :=
  (C4_variable_lookup decimalArith "y" (Function.update (emptyEnv ℚ) "y" (some 7))).2.2.1 7
    (Function.update_same _ _ _)

/-- C5: for `BinaryOp{left, '/', right}` whose operands evaluate to `a` and
then to `b`, evaluation fails with the division-by-zero error exactly when
`b == 0`, and otherwise returns `a / b`; `1 / 0` makes `Interpreter::evaluate`
return 0 in every map (the text `0` converting to a value with `== 0`). -/
theorem C5_division_by_zero {V : Type} (A : Arith V) :
    (∀ (left right : ASTNode V) (env env1 env2 : Env V) (a b : V),
        left.evaluate A env = (.ok a, env1) → right.evaluate A env1 = (.ok b, env2) →
        ((ASTNode.BinaryOpNode left .DIVIDE right).evaluate A env
            = (.error "Division by zero", env2) ↔ A.eqZero b = true)
          ∧ ((∃ msg env3, (ASTNode.BinaryOpNode left .DIVIDE right).evaluate A env
            = (.error msg, env3)) ↔ A.eqZero b = true)
          ∧ (A.eqZero b = false →
              (ASTNode.BinaryOpNode left .DIVIDE right).evaluate A env
                = (.ok (A.div a b), env2)))
    ∧ (∀ env : Env V, (∀ z : V, A.stod "0" = some z → A.eqZero z = true) →
        Interpreter.evaluate A "1 / 0" env = some (A.zero, env)) := by
  refine ⟨?_, ?_⟩
  · intro left right env env1 env2 a b hl hr
    cases hz : A.eqZero b <;> simp [ASTNode.evaluate, hl, hr, hz]
  · intro env hzero
    have t : Lexer.tokenize "1 / 0" = some [⟨.NUMBER, "1"⟩, ⟨.DIVIDE, "/"⟩,
        ⟨.NUMBER, "0"⟩, ⟨.EOF_TOKEN, ""⟩] := by decide
    cases h1 : A.stod "1" with
    | none =>
      refine Interpreter.evaluate_of_parse_throw env t (m := "stod") ?_
      simp [Parser.parse, Parser.parse_pos, Parser.parse_fuel, Parser.expr, Parser.term,
        Parser.factor, Parser.term_loop, Parser.expr_loop, Parser.current_token, h1]
    | some v1 =>
      cases h0 : A.stod "0" with
      | none =>
        refine Interpreter.evaluate_of_parse_throw env t (m := "stod") ?_
        simp [Parser.parse, Parser.parse_pos, Parser.parse_fuel, Parser.expr, Parser.term,
          Parser.factor, Parser.term_loop, Parser.expr_loop, Parser.current_token, h1, h0]
      | some v0 =>
        have p : Parser.parse A [⟨.NUMBER, "1"⟩, ⟨.DIVIDE, "/"⟩, ⟨.NUMBER, "0"⟩,
            ⟨.EOF_TOKEN, ""⟩]
            = .ok (.BinaryOpNode (.NumberNode v1) .DIVIDE (.NumberNode v0)) := by
          simp [Parser.parse, Parser.parse_pos, Parser.parse_fuel, Parser.expr,
            Parser.term, Parser.factor, Parser.term_loop, Parser.expr_loop,
            Parser.current_token, h1, h0]
        have he : (ASTNode.BinaryOpNode (.NumberNode v1) .DIVIDE (.NumberNode v0)).evaluate
            A env = (.error "Division by zero", env) := by
          simp [ASTNode.evaluate, hzero v0 h0]
        exact Interpreter.evaluate_of_error t p he

/-- Witness of C5 in exact decimal arithmetic: `1 / 0` returns 0, and
`BinaryOp{1, '/', 4}` returns `1 / 4`. -/
theorem C5_division_by_zero_witness :
    Interpreter.evaluate decimalArith "1 / 0" (emptyEnv ℚ) = some (0, emptyEnv ℚ)
    ∧ (ASTNode.BinaryOpNode (.NumberNode 1) .DIVIDE (.NumberNode 4)).evaluate decimalArith
        (emptyEnv ℚ) = (.ok (1 / 4), emptyEnv ℚ) := by
  have h := C5_division_by_zero decimalArith
  refine ⟨h.2 (emptyEnv ℚ) ?_, ?_⟩
  · intro z hz
    have h0 : decimalArith.stod "0" = some 0 :=
      decimalArith_stod (n := 0) (d := 0) (by decide) (by norm_num)
    rw [h0] at hz
    cases hz
    simp [decimalArith]
  · exact (h.1 (.NumberNode 1) (.NumberNode 4) (emptyEnv ℚ) (emptyEnv ℚ) (emptyEnv ℚ) 1 4
      rfl rfl).2.2 (by simp [decimalArith])

/-- C6: `Interpreter::evaluate` never propagates an error.  For every input
and every variable map it returns a number: 0 when the parser throws (the map
unchanged), 0 when the evaluation of the parsed tree throws, and the value of
the parsed tree otherwise. -/
theorem C6_errors_become_zero {V : Type} (A : Arith V) (text : String) (env : Env V) :
    ∃ tokens, Lexer.tokenize text = some tokens ∧
      ((∃ msg, Parser.parse A tokens = .throw msg ∧ IsParseError msg
          ∧ Interpreter.evaluate A text env = some (A.zero, env))
      ∨ (∃ ast msg env1, Parser.parse A tokens = .ok ast
          ∧ ast.evaluate A env = (.error msg, env1) ∧ IsEvalError msg
          ∧ Interpreter.evaluate A text env = some (A.zero, env1))
      ∨ (∃ ast v env1, Parser.parse A tokens = .ok ast
          ∧ ast.evaluate A env = (.ok v, env1)
          ∧ Interpreter.evaluate A text env = some (v, env1))) := by
  obtain ⟨tokens, ht⟩ := Lexer.tokenize_total text
  refine ⟨tokens, ht, ?_⟩
  rcases Parser.parse_cases A tokens with ⟨ast, hp⟩ | ⟨msg, hp, hk⟩
  · right
    cases he : ast.evaluate A env with
    | mk r env1 =>
      cases r with
      | error msg =>
        exact Or.inl ⟨ast, msg, env1, hp, he,
          ASTNode.evaluate_error_kinds A ast _ _ _ he, Interpreter.evaluate_of_error ht hp he⟩
      | ok v =>
        exact Or.inr ⟨ast, v, env1, hp, he, Interpreter.evaluate_of_ok ht hp he⟩
  · exact Or.inl ⟨msg, hp, hk, Interpreter.evaluate_of_parse_throw env ht hp⟩

/-- C7, as the code behaves: on `1 + @ + 2` the tokenizer skips `@` and
returns the tokens `1 + + 2 EOF`; the parser throws on them (at the second
`+`, with "Unexpected token: +", when the text `1` converts); and
`Interpreter::evaluate` returns 0 and leaves the variable map unchanged. -/
theorem C7_unknown_character_amended {V : Type} (A : Arith V) (env : Env V) :
    Lexer.tokenize "1 + @ + 2"
        = some [⟨.NUMBER, "1"⟩, ⟨.PLUS, "+"⟩, ⟨.PLUS, "+"⟩, ⟨.NUMBER, "2"⟩,
            ⟨.EOF_TOKEN, ""⟩]
    ∧ (∃ msg, Parser.parse A [⟨.NUMBER, "1"⟩, ⟨.PLUS, "+"⟩, ⟨.PLUS, "+"⟩,
          ⟨.NUMBER, "2"⟩, ⟨.EOF_TOKEN, ""⟩] = .throw msg)
    ∧ (∀ v1 : V, A.stod "1" = some v1 →
        Parser.parse A [⟨.NUMBER, "1"⟩, ⟨.PLUS, "+"⟩, ⟨.PLUS, "+"⟩, ⟨.NUMBER, "2"⟩,
          ⟨.EOF_TOKEN, ""⟩] = .throw "Unexpected token: +")
    ∧ Interpreter.evaluate A "1 + @ + 2" env = some (A.zero, env) := by
  have t : Lexer.tokenize "1 + @ + 2"
      = some [⟨.NUMBER, "1"⟩, ⟨.PLUS, "+"⟩, ⟨.PLUS, "+"⟩, ⟨.NUMBER, "2"⟩,
          ⟨.EOF_TOKEN, ""⟩] := by decide
  have p1 : ∀ v1 : V, A.stod "1" = some v1 →
      Parser.parse A [⟨.NUMBER, "1"⟩, ⟨.PLUS, "+"⟩, ⟨.PLUS, "+"⟩, ⟨.NUMBER, "2"⟩,
        ⟨.EOF_TOKEN, ""⟩] = .throw "Unexpected token: +" := by
    intro v1 h1
    simp [Parser.parse, Parser.parse_pos, Parser.parse_fuel, Parser.expr, Parser.term,
      Parser.factor, Parser.term_loop, Parser.expr_loop, Parser.current_token, h1]
  have p : ∃ msg, Parser.parse A [⟨.NUMBER, "1"⟩, ⟨.PLUS, "+"⟩, ⟨.PLUS, "+"⟩,
      ⟨.NUMBER, "2"⟩, ⟨.EOF_TOKEN, ""⟩] = .throw msg := by
    cases h1 : A.stod "1" with
    | none =>
      refine ⟨"stod", ?_⟩
      simp [Parser.parse, Parser.parse_pos, Parser.parse_fuel, Parser.expr, Parser.term,
        Parser.factor, Parser.term_loop, Parser.expr_loop, Parser.current_token, h1]
    | some v1 => exact ⟨_, p1 v1 h1⟩
  obtain ⟨msg, hp⟩ := p
  exact ⟨t, ⟨msg, hp⟩, p1, Interpreter.evaluate_of_parse_throw env t hp⟩

/-- Witness of the amended C7 in exact decimal arithmetic. -/
theorem C7_unknown_character_amended_witness :
    Parser.parse decimalArith [⟨.NUMBER, "1"⟩, ⟨.PLUS, "+"⟩, ⟨.PLUS, "+"⟩,
        ⟨.NUMBER, "2"⟩, ⟨.EOF_TOKEN, ""⟩] = .throw "Unexpected token: +" :=
  (C7_unknown_character_amended decimalArith (emptyEnv ℚ)).2.2.1 1
    (decimalArith_stod (n := 1) (d := 0) (by decide) (by norm_num))

/-- C7 as stated fails: on `1 + @ + 2` the parser does not succeed and
`Interpreter::evaluate` returns 0, not 3 (exact decimal arithmetic, empty
variable map). -/
theorem C7_unknown_character_counterexample :
    (¬ ∃ ast, Parser.parse decimalArith [⟨.NUMBER, "1"⟩, ⟨.PLUS, "+"⟩, ⟨.PLUS, "+"⟩,
        ⟨.NUMBER, "2"⟩, ⟨.EOF_TOKEN, ""⟩] = .ok ast)
    ∧ Lexer.tokenize "1 + @ + 2"
        = some [⟨.NUMBER, "1"⟩, ⟨.PLUS, "+"⟩, ⟨.PLUS, "+"⟩, ⟨.NUMBER, "2"⟩,
            ⟨.EOF_TOKEN, ""⟩]
    ∧ Interpreter.evaluate decimalArith "1 + @ + 2" (emptyEnv ℚ)
        = some (0, emptyEnv ℚ)
    ∧ Interpreter.evaluate decimalArith "1 + @ + 2" (emptyEnv ℚ)
        ≠ some (3, emptyEnv ℚ) := by
  have h1 : decimalArith.stod "1" = some 1 :=
    decimalArith_stod (n := 1) (d := 0) (by decide) (by norm_num)
  have t : Lexer.tokenize "1 + @ + 2"
      = some [⟨.NUMBER, "1"⟩, ⟨.PLUS, "+"⟩, ⟨.PLUS, "+"⟩, ⟨.NUMBER, "2"⟩,
          ⟨.EOF_TOKEN, ""⟩] := by decide
  have p : Parser.parse decimalArith [⟨.NUMBER, "1"⟩, ⟨.PLUS, "+"⟩, ⟨.PLUS, "+"⟩,
      ⟨.NUMBER, "2"⟩, ⟨.EOF_TOKEN, ""⟩] = .throw "Unexpected token: +" := by
    simp [Parser.parse, Parser.parse_pos, Parser.parse_fuel, Parser.expr, Parser.term,
      Parser.factor, Parser.term_loop, Parser.expr_loop, Parser.current_token, h1]
  have e : Interpreter.evaluate decimalArith "1 + @ + 2" (emptyEnv ℚ)
      = some (decimalArith.zero, emptyEnv ℚ) :=
    Interpreter.evaluate_of_parse_throw _ t p
  refine ⟨?_, t, e, ?_⟩
  · rintro ⟨ast, h⟩
    rw [p] at h
    cases h
  · rw [e]
    intro h
    have h3 : decimalArith.zero = (3 : ℚ) := congrArg Prod.fst (Option.some.inj h)
    norm_num [decimalArith] at h3

/-- C8, as the code behaves: on the tokens of `a = b = 1` the parser, after
`a =`, parses `b = 1` as a nested assignment: it returns
`Assignment{a, Assignment{b, 1}}` having consumed all five tokens before
`EOF`; evaluating the line returns the value of `1` and binds both `b` and
`a` to it. -/
theorem C8_chained_assignment_amended {V : Type} (A : Arith V) (v1 : V)
    (h1 : A.stod "1" = some v1) (env : Env V) :
    Lexer.tokenize "a = b = 1"
        = some [⟨.IDENTIFIER, "a"⟩, ⟨.EQUALS, "="⟩, ⟨.IDENTIFIER, "b"⟩, ⟨.EQUALS, "="⟩,
            ⟨.NUMBER, "1"⟩, ⟨.EOF_TOKEN, ""⟩]
    ∧ Parser.parse_pos A [⟨.IDENTIFIER, "a"⟩, ⟨.EQUALS, "="⟩, ⟨.IDENTIFIER, "b"⟩,
          ⟨.EQUALS, "="⟩, ⟨.NUMBER, "1"⟩, ⟨.EOF_TOKEN, ""⟩]
        = .ok (.AssignmentNode "a" (.AssignmentNode "b" (.NumberNode v1)), 5)
    ∧ Interpreter.evaluate A "a = b = 1" env
        = some (v1, Function.update (Function.update env "b" (some v1)) "a" (some v1))
    ∧ Function.update (Function.update env "b" (some v1)) "a" (some v1) "b" = some v1
    ∧ Function.update (Function.update env "b" (some v1)) "a" (some v1) "a" = some v1 := by
  have t : Lexer.tokenize "a = b = 1"
      = some [⟨.IDENTIFIER, "a"⟩, ⟨.EQUALS, "="⟩, ⟨.IDENTIFIER, "b"⟩, ⟨.EQUALS, "="⟩,
          ⟨.NUMBER, "1"⟩, ⟨.EOF_TOKEN, ""⟩] := by decide
  have p : Parser.parse_pos A [⟨.IDENTIFIER, "a"⟩, ⟨.EQUALS, "="⟩, ⟨.IDENTIFIER, "b"⟩,
      ⟨.EQUALS, "="⟩, ⟨.NUMBER, "1"⟩, ⟨.EOF_TOKEN, ""⟩]
      = .ok (.AssignmentNode "a" (.AssignmentNode "b" (.NumberNode v1)), 5) := by
    simp [Parser.parse_pos, Parser.parse_fuel, Parser.expr, Parser.term,
      Parser.factor, Parser.term_loop, Parser.expr_loop, Parser.current_token, h1]
  refine ⟨t, p, Interpreter.evaluate_of_ok t (Parser.parse_of_parse_pos p) ?_, ?_,
    Function.update_same _ _ _⟩
  · simp [ASTNode.evaluate]
  · rw [Function.update_noteq (by decide), Function.update_same]

/-- Witness of the amended C8 in exact decimal arithmetic, from the empty
variable map: the line returns 1. -/
theorem C8_chained_assignment_amended_witness :
    Interpreter.evaluate decimalArith "a = b = 1" (emptyEnv ℚ)
      = some (1, Function.update (Function.update (emptyEnv ℚ) "b" (some 1)) "a" (some 1)) :=
  (C8_chained_assignment_amended decimalArith 1
    (decimalArith_stod (n := 1) (d := 0) (by decide) (by norm_num)) (emptyEnv ℚ)).2.2.1

/-- C8 as stated fails: on the tokens of `a = b = 1` the parser does not
return `Assignment{a, VariableRef{b}}`, it leaves no `=` or `1` unconsumed
(its final position is 5, the `EOF` token), and evaluating the line binds
`b` (exact decimal arithmetic, empty variable map). -/
theorem C8_chained_assignment_counterexample :
    Parser.parse decimalArith [⟨.IDENTIFIER, "a"⟩, ⟨.EQUALS, "="⟩, ⟨.IDENTIFIER, "b"⟩,
        ⟨.EQUALS, "="⟩, ⟨.NUMBER, "1"⟩, ⟨.EOF_TOKEN, ""⟩]
      ≠ .ok (.AssignmentNode "a" (.VariableNode "b"))
    ∧ Parser.parse_pos decimalArith [⟨.IDENTIFIER, "a"⟩, ⟨.EQUALS, "="⟩,
        ⟨.IDENTIFIER, "b"⟩, ⟨.EQUALS, "="⟩, ⟨.NUMBER, "1"⟩, ⟨.EOF_TOKEN, ""⟩]
      = .ok (.AssignmentNode "a" (.AssignmentNode "b" (.NumberNode 1)), 5)
    ∧ ∃ env1 : Env ℚ, Interpreter.evaluate decimalArith "a = b = 1" (emptyEnv ℚ)
        = some (1, env1) ∧ env1 "b" = some 1 := by
  have h1 : decimalArith.stod "1" = some 1 :=
    decimalArith_stod (n := 1) (d := 0) (by decide) (by norm_num)
  have t : Lexer.tokenize "a = b = 1"
      = some [⟨.IDENTIFIER, "a"⟩, ⟨.EQUALS, "="⟩, ⟨.IDENTIFIER, "b"⟩, ⟨.EQUALS, "="⟩,
          ⟨.NUMBER, "1"⟩, ⟨.EOF_TOKEN, ""⟩] := by decide
  have p : Parser.parse_pos decimalArith [⟨.IDENTIFIER, "a"⟩, ⟨.EQUALS, "="⟩,
      ⟨.IDENTIFIER, "b"⟩, ⟨.EQUALS, "="⟩, ⟨.NUMBER, "1"⟩, ⟨.EOF_TOKEN, ""⟩]
      = .ok (.AssignmentNode "a" (.AssignmentNode "b" (.NumberNode 1)), 5) := by
    simp [Parser.parse_pos, Parser.parse_fuel, Parser.expr, Parser.term,
      Parser.factor, Parser.term_loop, Parser.expr_loop, Parser.current_token, h1]
  refine ⟨?_, p, _, Interpreter.evaluate_of_ok t (Parser.parse_of_parse_pos p)
    (show (ASTNode.AssignmentNode "a" (.AssignmentNode "b" (.NumberNode (1 : ℚ)))).evaluate
        decimalArith (emptyEnv ℚ)
      = (.ok 1, Function.update (Function.update (emptyEnv ℚ) "b" (some 1)) "a" (some 1))
      from rfl), ?_⟩
  · rw [Parser.parse_of_parse_pos p]
    intro h
    simp at h
  · rw [Function.update_noteq (by decide), Function.update_same]

/-- C9: trailing tokens after one complete top-level expression are ignored.
When `Parser::parse` succeeds on a token sequence having consumed its first
`k` tokens, it succeeds with the same tree on every sequence with the same
first `k + 1` tokens; `1 + 2 3` parses to the tree of `1 + 2`, and
`Interpreter::evaluate` returns the sum, not an error. -/
theorem C9_trailing_tokens_ignored {V : Type} (A : Arith V) :
    (∀ (tokens tokens2 : List Token) (node : ASTNode V) (k : Nat),
        Parser.parse_pos A tokens = .ok (node, k) →
        tokens2.take (k + 1) = tokens.take (k + 1) →
        Parser.parse_pos A tokens2 = .ok (node, k) ∧ Parser.parse A tokens2 = .ok node)
    ∧ (∀ (env : Env V) (v1 v2 : V), A.stod "1" = some v1 → A.stod "2" = some v2 →
        Lexer.tokenize "1 + 2 3"
            = some [⟨.NUMBER, "1"⟩, ⟨.PLUS, "+"⟩, ⟨.NUMBER, "2"⟩, ⟨.NUMBER, "3"⟩,
                ⟨.EOF_TOKEN, ""⟩]
          ∧ Lexer.tokenize "1 + 2"
            = some [⟨.NUMBER, "1"⟩, ⟨.PLUS, "+"⟩, ⟨.NUMBER, "2"⟩, ⟨.EOF_TOKEN, ""⟩]
          ∧ Parser.parse_pos A [⟨.NUMBER, "1"⟩, ⟨.PLUS, "+"⟩, ⟨.NUMBER, "2"⟩,
                ⟨.NUMBER, "3"⟩, ⟨.EOF_TOKEN, ""⟩]
            = .ok (.BinaryOpNode (.NumberNode v1) .PLUS (.NumberNode v2), 3)
          ∧ Parser.parse_pos A [⟨.NUMBER, "1"⟩, ⟨.PLUS, "+"⟩, ⟨.NUMBER, "2"⟩,
                ⟨.EOF_TOKEN, ""⟩]
            = .ok (.BinaryOpNode (.NumberNode v1) .PLUS (.NumberNode v2), 3)
          ∧ Interpreter.evaluate A "1 + 2 3" env = some (A.add v1 v2, env)) := by
  refine ⟨?_, ?_⟩
  · intro tokens tokens2 node k h htake
    have h2 : Parser.expr A tokens2 (Parser.parse_fuel tokens) 0 = .ok (node, k) :=
      (Parser.run_local A tokens tokens2 _).2.2.2.2 0 node k h
        (fun i hi => Parser.current_token_of_take_eq tokens htake hi)
    have h3 := Parser.parse_pos_eq_of_expr A tokens2 h2 (by simp)
    exact ⟨h3, Parser.parse_of_parse_pos h3⟩
  · intro env v1 v2 h1 h2
    have t : Lexer.tokenize "1 + 2 3"
        = some [⟨.NUMBER, "1"⟩, ⟨.PLUS, "+"⟩, ⟨.NUMBER, "2"⟩, ⟨.NUMBER, "3"⟩,
            ⟨.EOF_TOKEN, ""⟩] := by decide
    have p : Parser.parse_pos A [⟨.NUMBER, "1"⟩, ⟨.PLUS, "+"⟩, ⟨.NUMBER, "2"⟩,
        ⟨.NUMBER, "3"⟩, ⟨.EOF_TOKEN, ""⟩]
        = .ok (.BinaryOpNode (.NumberNode v1) .PLUS (.NumberNode v2), 3) := by
      simp [Parser.parse_pos, Parser.parse_fuel, Parser.expr, Parser.term,
        Parser.factor, Parser.term_loop, Parser.expr_loop, Parser.current_token, h1, h2]
    refine ⟨t, by decide, p, ?_, Interpreter.evaluate_of_ok t
      (Parser.parse_of_parse_pos p) (by simp [ASTNode.evaluate])⟩
    simp [Parser.parse_pos, Parser.parse_fuel, Parser.expr, Parser.term,
      Parser.factor, Parser.term_loop, Parser.expr_loop, Parser.current_token, h1, h2]

/-- Witness of C9 in exact decimal arithmetic: the parse of `1 + 2 3` is also
the parse of `1 + 2 3 ) x`, and `1 + 2 3` evaluates to 3. -/
theorem C9_trailing_tokens_ignored_witness :
    Parser.parse decimalArith [⟨.NUMBER, "1"⟩, ⟨.PLUS, "+"⟩, ⟨.NUMBER, "2"⟩,
        ⟨.NUMBER, "3"⟩, ⟨.RPAREN, ")"⟩, ⟨.IDENTIFIER, "x"⟩, ⟨.EOF_TOKEN, ""⟩]
      = .ok (.BinaryOpNode (.NumberNode 1) .PLUS (.NumberNode 2))
    ∧ Interpreter.evaluate decimalArith "1 + 2 3" (emptyEnv ℚ) = some (3, emptyEnv ℚ) := by
  have h1 : decimalArith.stod "1" = some 1 :=
    decimalArith_stod (n := 1) (d := 0) (by decide) (by norm_num)
  have h2 : decimalArith.stod "2" = some 2 :=
    decimalArith_stod (n := 2) (d := 0) (by decide) (by norm_num)
  have h := C9_trailing_tokens_ignored decimalArith
  obtain ⟨_, _, p, _, e⟩ := h.2 (emptyEnv ℚ) 1 2 h1 h2
  refine ⟨(h.1 _ [⟨.NUMBER, "1"⟩, ⟨.PLUS, "+"⟩, ⟨.NUMBER, "2"⟩,
        ⟨.NUMBER, "3"⟩, ⟨.RPAREN, ")"⟩, ⟨.IDENTIFIER, "x"⟩, ⟨.EOF_TOKEN, ""⟩] _ 3 p rfl).2,
    e.trans ?_⟩
  norm_num [decimalArith]

/-- C10: a missing closing parenthesis is a parse error.  For every token
sequence that starts with `LPAREN`, on which `expr` from the next token
succeeds, and whose token after that expression is not `RPAREN`,
`Parser::parse` throws "Expected ')'"; `Interpreter::evaluate` returns 0 on
`(1 + 2` and leaves the variable map unchanged. -/
theorem C10_missing_closing_paren {V : Type} (A : Arith V) :
    (∀ (tokens : List Token) (fuel : Nat) (node : ASTNode V) (p : Nat),
        (Parser.current_token tokens 0).type = .LPAREN →
        Parser.expr A tokens fuel 1 = .ok (node, p) →
        (Parser.current_token tokens p).type ≠ .RPAREN →
        Parser.parse A tokens = .throw "Expected ')'")
    ∧ (∀ env : Env V, Interpreter.evaluate A "(1 + 2" env = some (A.zero, env)) := by
  have hgen : ∀ (tokens : List Token) (fuel : Nat) (node : ASTNode V) (p : Nat),
      (Parser.current_token tokens 0).type = .LPAREN →
      Parser.expr A tokens fuel 1 = .ok (node, p) →
      (Parser.current_token tokens p).type ≠ .RPAREN →
      Parser.parse A tokens = .throw "Expected ')'" := by
    intro tokens fuel node p h0 he hp
    refine Parser.parse_of_parse_pos_throw
      (Parser.parse_pos_eq_of_expr A tokens (k := fuel + 3) ?_ (by simp))
    rw [Parser.expr_succ, Parser.term_succ, Parser.factor_succ]
    simp [h0, he, hp]
  refine ⟨hgen, ?_⟩
  intro env
  have t : Lexer.tokenize "(1 + 2"
      = some [⟨.LPAREN, "("⟩, ⟨.NUMBER, "1"⟩, ⟨.PLUS, "+"⟩, ⟨.NUMBER, "2"⟩,
          ⟨.EOF_TOKEN, ""⟩] := by decide
  have p : ∃ msg, Parser.parse A [⟨.LPAREN, "("⟩, ⟨.NUMBER, "1"⟩, ⟨.PLUS, "+"⟩,
      ⟨.NUMBER, "2"⟩, ⟨.EOF_TOKEN, ""⟩] = .throw msg := by
    cases h1 : A.stod "1" with
    | none =>
      refine ⟨"stod", ?_⟩
      simp [Parser.parse, Parser.parse_pos, Parser.parse_fuel, Parser.expr, Parser.term,
        Parser.factor, Parser.term_loop, Parser.expr_loop, Parser.current_token, h1]
    | some v1 =>
      cases h2 : A.stod "2" with
      | none =>
        refine ⟨"stod", ?_⟩
        simp [Parser.parse, Parser.parse_pos, Parser.parse_fuel, Parser.expr, Parser.term,
          Parser.factor, Parser.term_loop, Parser.expr_loop, Parser.current_token, h1, h2]
      | some v2 =>
        refine ⟨"Expected ')'", hgen _ 5 (.BinaryOpNode (.NumberNode v1) .PLUS
          (.NumberNode v2)) 4 rfl ?_ (by decide)⟩
        simp [Parser.expr, Parser.term, Parser.factor, Parser.term_loop,
          Parser.expr_loop, Parser.current_token, h1, h2]
  obtain ⟨msg, hp⟩ := p
  exact Interpreter.evaluate_of_parse_throw env t hp

/-- Witness of C10 in exact decimal arithmetic: the tokens of `(1 + 2` make
`Parser::parse` throw "Expected ')'". -/
theorem C10_missing_closing_paren_witness :
    Parser.parse decimalArith [⟨.LPAREN, "("⟩, ⟨.NUMBER, "1"⟩, ⟨.PLUS, "+"⟩,
        ⟨.NUMBER, "2"⟩, ⟨.EOF_TOKEN, ""⟩] = .throw "Expected ')'" := by
  have h1 : decimalArith.stod "1" = some 1 :=
    decimalArith_stod (n := 1) (d := 0) (by decide) (by norm_num)
  have h2 : decimalArith.stod "2" = some 2 :=
    decimalArith_stod (n := 2) (d := 0) (by decide) (by norm_num)
  refine (C10_missing_closing_paren decimalArith).1 _ 5
    (.BinaryOpNode (.NumberNode 1) .PLUS (.NumberNode 2)) 4 rfl ?_ (by decide)
  simp [Parser.expr, Parser.term, Parser.factor, Parser.term_loop,
    Parser.expr_loop, Parser.current_token, h1, h2]

/-! ## Lexer: the token at the head of a state -/

namespace Lexer

theorem ident_run_cons_start {c : Char} (h : isalpha c = true ∨ c = '_')
    (rest : List Char) :
    ident_run (c :: rest) = (c :: (ident_run rest).1, (ident_run rest).2) := by
  have hne : c ≠ NUL := by
    intro hc
    rw [hc] at h
    revert h
    decide
  have hcond : c ≠ NUL ∧ (isalnum c = true ∨ c = '_') := by
    refine ⟨hne, ?_⟩
    cases h with
    | inl h => left; simp [isalnum, h]
    | inr h => right; exact h
  rw [ident_run, if_pos hcond]

/-- A character that is none of NUL, whitespace, digit, letter and `_`
either is a token by itself, the same whatever follows, or is skipped. -/
theorem get_next_token_other {c : Char} (h0 : c ≠ NUL) (h1 : isspace c = false)
    (h2 : isdigit c = false) (h3 : ¬ (isalpha c = true ∨ c = '_')) :
    (∃ t : Token, t.type ≠ .EOF_TOKEN ∧ t.type ≠ .NUMBER ∧ t.type ≠ .IDENTIFIER
        ∧ isOperatorChar c = true
        ∧ ∀ rest, get_next_token (c :: rest) = some (t, rest))
      ∨ (isOperatorChar c = false ∧ ∀ rest, get_next_token (c :: rest) = get_next_token rest) := by
  by_cases h4 : c = '+'
  · subst h4
    exact Or.inl ⟨⟨.PLUS, "+"⟩, by decide, by decide, by decide, by decide, fun _ => rfl⟩
  by_cases h5 : c = '-'
  · subst h5
    exact Or.inl ⟨⟨.MINUS, "-"⟩, by decide, by decide, by decide, by decide, fun _ => rfl⟩
  by_cases h6 : c = '*'
  · subst h6
    exact Or.inl ⟨⟨.MULTIPLY, "*"⟩, by decide, by decide, by decide, by decide,
      fun _ => rfl⟩
  by_cases h7 : c = '/'
  · subst h7
    exact Or.inl ⟨⟨.DIVIDE, "/"⟩, by decide, by decide, by decide, by decide, fun _ => rfl⟩
  by_cases h8 : c = '('
  · subst h8
    exact Or.inl ⟨⟨.LPAREN, "("⟩, by decide, by decide, by decide, by decide, fun _ => rfl⟩
  by_cases h9 : c = ')'
  · subst h9
    exact Or.inl ⟨⟨.RPAREN, ")"⟩, by decide, by decide, by decide, by decide, fun _ => rfl⟩
  by_cases h10 : c = '='
  · subst h10
    exact Or.inl ⟨⟨.EQUALS, "="⟩, by decide, by decide, by decide, by decide, fun _ => rfl⟩
  right
  refine ⟨by simp [isOperatorChar, h4, h5, h6, h7, h8, h9, h10], fun rest => ?_⟩
  have h1n : ¬ isspace c = true := by simp [h1]
  have h2n : ¬ isdigit c = true := by simp [h2]
  rw [get_next_token_eq]
  simp only [current_char_cons, if_neg h0, if_neg h1n, if_neg h2n, if_neg h3, if_neg h4,
    if_neg h5, if_neg h6, if_neg h7, if_neg h8, if_neg h9, if_neg h10]
  rfl

/-- The cases of `Lexer::get_next_token` on a non-empty state. -/
theorem get_next_token_cons (c : Char) (rest : List Char) :
    (c = NUL ∧ get_next_token (c :: rest) = some (⟨.EOF_TOKEN, ""⟩, c :: rest))
    ∨ (isspace c = true ∧ get_next_token (c :: rest) = get_next_token rest)
    ∨ (isdigit c = true ∧ get_next_token (c :: rest) = some (get_number (c :: rest)))
    ∨ ((isalpha c = true ∨ c = '_')
        ∧ get_next_token (c :: rest) = some (get_identifier (c :: rest)))
    ∨ (∃ t : Token, t.type ≠ .EOF_TOKEN ∧ t.type ≠ .NUMBER ∧ t.type ≠ .IDENTIFIER
        ∧ isOperatorChar c = true ∧ ∀ r, get_next_token (c :: r) = some (t, r))
    ∨ (c ≠ NUL ∧ isspace c = false ∧ isdigit c = false ∧ isalpha c = false ∧ c ≠ '_'
        ∧ isOperatorChar c = false ∧ ∀ r, get_next_token (c :: r) = get_next_token r) := by
  by_cases h0 : c = NUL
  · left
    refine ⟨h0, ?_⟩
    rw [get_next_token_eq, current_char_cons, if_pos h0]
  by_cases h1 : isspace c = true
  · exact Or.inr (Or.inl ⟨h1, get_next_token_space h1 rest⟩)
  by_cases h2 : isdigit c = true
  · refine Or.inr (Or.inr (Or.inl ⟨h2, ?_⟩))
    rw [get_next_token_eq, current_char_cons, if_neg h0, if_neg h1, if_pos h2]
  by_cases h3 : isalpha c = true ∨ c = '_'
  · refine Or.inr (Or.inr (Or.inr (Or.inl ⟨h3, ?_⟩)))
    rw [get_next_token_eq, current_char_cons, if_neg h0, if_neg h1, if_neg h2, if_pos h3]
  have h1f : isspace c = false := by simpa using h1
  have h2f : isdigit c = false := by simpa using h2
  rcases get_next_token_other h0 h1f h2f h3 with h | ⟨hop, h⟩
  · exact Or.inr (Or.inr (Or.inr (Or.inr (Or.inl h))))
  · refine Or.inr (Or.inr (Or.inr (Or.inr (Or.inr ⟨h0, h1f, h2f, ?_, ?_, hop, h⟩))))
    · cases ha : isalpha c
      · rfl
      · exact absurd (Or.inl ha) h3
    · exact fun hu => h3 (Or.inr hu)

end Lexer

/-! ## Lexer: a token does not depend on what follows a boundary -/

namespace Lexer

theorem boundary_nil : Boundary [] := ⟨by decide, by decide, by decide⟩

theorem boundary_cons {c : Char} (h1 : isalnum c = false) (h2 : c ≠ '_') (h3 : c ≠ '.')
    (r : List Char) : Boundary (c :: r) := ⟨h1, h2, h3⟩

theorem isdigit_eq_false_of_isalnum {c : Char} (h : isalnum c = false) :
    isdigit c = false := by
  simp only [isalnum, Bool.or_eq_false_iff] at h
  exact h.2

theorem boundary_of_isspace {c : Char} (h : isspace c = true) (r : List Char) :
    Boundary (c :: r) := by
  refine ⟨?_, ?_, ?_⟩
  · simp only [current_char_cons, isalnum, isalpha, isdigit, isspace, Bool.or_eq_true,
      Bool.and_eq_true, decide_eq_true_eq, beq_iff_eq, Bool.or_eq_false_iff,
      Bool.and_eq_false_imp] at h ⊢
    omega
  · intro hc
    rw [current_char_cons] at hc
    subst hc
    revert h
    decide
  · intro hc
    rw [current_char_cons] at hc
    subst hc
    revert h
    decide

theorem boundary_of_isOperatorChar {c : Char} (h : isOperatorChar c = true)
    (r : List Char) : Boundary (c :: r) := by
  simp only [isOperatorChar, Bool.or_eq_true, beq_iff_eq] at h
  rcases h with (((((h | h) | h) | h) | h) | h) | h <;> subst h <;>
    exact boundary_cons (by decide) (by decide) (by decide) r

theorem boundary_of_isUnknownChar {c : Char} (h : isUnknownChar c = true)
    (r : List Char) : Boundary (c :: r) := by
  simp only [isUnknownChar, Bool.and_eq_true, bne_iff_ne, ne_eq, Bool.not_eq_true'] at h
  obtain ⟨⟨⟨⟨⟨⟨_, _⟩, hd⟩, ha⟩, hu⟩, hdot⟩, _⟩ := h
  exact ⟨by simp [current_char_cons, isalnum, ha, hd], hu, hdot⟩

theorem current_char_append_of_ne_nil {s : List Char} (h : s ≠ []) (r : List Char) :
    current_char (s ++ r) = current_char s := by
  cases s with
  | nil => exact absurd rfl h
  | cons c s => rfl

theorem digit_run_append_rest {r : List Char} (hr : isdigit (current_char r) = false)
    (s : List Char) :
    digit_run (s ++ r) = ((digit_run s).1, (digit_run s).2 ++ r) := by
  induction s with
  | nil => exact digit_run_of_not_digit hr
  | cons c s ih =>
    by_cases hc : c ≠ NUL ∧ isdigit c = true
    · rw [List.cons_append, digit_run, if_pos hc, digit_run, if_pos hc, ih]
    · rw [List.cons_append, digit_run, if_neg hc, digit_run, if_neg hc]
      rfl

theorem ident_run_append_rest {r : List Char} (hr : Boundary r) (s : List Char) :
    ident_run (s ++ r) = ((ident_run s).1, (ident_run s).2 ++ r) := by
  induction s with
  | nil =>
    cases r with
    | nil => rfl
    | cons x r =>
      have hx : ¬ (x ≠ NUL ∧ (isalnum x = true ∨ x = '_')) := by
        rintro ⟨_, h | h⟩
        · rw [show isalnum x = false from hr.1] at h
          cases h
        · exact hr.2.1 h
      show ident_run (x :: r) = ([], x :: r)
      rw [ident_run, if_neg hx]
  | cons c s ih =>
    by_cases hc : c ≠ NUL ∧ (isalnum c = true ∨ c = '_')
    · rw [List.cons_append, ident_run, if_pos hc, ident_run, if_pos hc, ih]
    · rw [List.cons_append, ident_run, if_neg hc, ident_run, if_neg hc]
      rfl

/-- The method `Lexer::get_number` reads the same number before every
boundary. -/
theorem get_number_append {r : List Char} (hr : Boundary r) (s : List Char) :
    get_number (s ++ r) = ((get_number s).1, (get_number s).2 ++ r) := by
  have hd := isdigit_eq_false_of_isalnum hr.1
  rw [get_number_eq, get_number_eq, digit_run_append_rest hd]
  cases hm : (digit_run s).2 with
  | nil =>
    have h1 : ¬ current_char ([] ++ r) = '.' := hr.2.2
    have h2 : ¬ current_char ([] : List Char) = '.' := by decide
    simp only [if_neg h1, if_neg h2]
  | cons x m =>
    by_cases hx : x = '.'
    · have h1 : current_char (x :: m ++ r) = '.' := hx
      have h2 : current_char (x :: m) = '.' := hx
      have h3 : advance (x :: m ++ r) = m ++ r := rfl
      have h4 : advance (x :: m) = m := rfl
      simp only [if_pos h1, if_pos h2, h3, h4, digit_run_append_rest hd]
    · have h1 : ¬ current_char (x :: m ++ r) = '.' := hx
      have h2 : ¬ current_char (x :: m) = '.' := hx
      simp only [if_neg h1, if_neg h2]

/-- The method `Lexer::get_identifier` reads the same identifier before every
boundary. -/
theorem get_identifier_append {r : List Char} (hr : Boundary r) (s : List Char) :
    get_identifier (s ++ r) = ((get_identifier s).1, (get_identifier s).2 ++ r) := by
  unfold get_identifier
  rw [ident_run_append_rest hr]

/-- One call of `Lexer::get_next_token` on a non-empty text `s` followed by
a boundary `r`: it stops at a NUL, or skips a part of `s`, or returns a token
and leaves a shorter part of `s`; token and part do not depend on `r`. -/
theorem get_next_token_append (s : List Char) (hs : s ≠ []) :
    (current_char s = NUL)
    ∨ (∃ s1 : List Char, s1.length < s.length
        ∧ ∀ r, Boundary r → get_next_token (s ++ r) = get_next_token (s1 ++ r))
    ∨ (∃ (t : Token) (s1 : List Char), t.type ≠ .EOF_TOKEN ∧ s1.length < s.length
        ∧ ∀ r, Boundary r → get_next_token (s ++ r) = some (t, s1 ++ r)) := by
  cases s with
  | nil => exact absurd rfl hs
  | cons c s =>
    by_cases h0 : c = NUL
    · exact Or.inl h0
    by_cases h1 : isspace c = true
    · exact Or.inr (Or.inl ⟨s, Nat.lt_succ_self _,
        fun r _ => get_next_token_space h1 (s ++ r)⟩)
    by_cases h2 : isdigit c = true
    · refine Or.inr (Or.inr ⟨(get_number (c :: s)).1, (get_number (c :: s)).2, ?_,
        get_number_length_lt h2, fun r hr => ?_⟩)
      · rw [get_number_eq]
        split <;> simp
      · rw [get_next_token_eq, current_char_append_of_ne_nil hs, current_char_cons,
          if_neg h0, if_neg h1, if_pos h2, get_number_append hr]
    by_cases h3 : isalpha c = true ∨ c = '_'
    · refine Or.inr (Or.inr ⟨(get_identifier (c :: s)).1, (get_identifier (c :: s)).2,
        by simp [get_identifier], get_identifier_length_lt h3, fun r hr => ?_⟩)
      rw [get_next_token_eq, current_char_append_of_ne_nil hs, current_char_cons,
        if_neg h0, if_neg h1, if_neg h2, if_pos h3, get_identifier_append hr]
    rcases get_next_token_other h0 (by simpa using h1) (by simpa using h2) h3 with
      ⟨t, ht, _, _, _, h⟩ | ⟨_, h⟩
    · exact Or.inr (Or.inr ⟨t, s, ht, Nat.lt_succ_self _, fun r _ => h (s ++ r)⟩)
    · exact Or.inr (Or.inl ⟨s, Nat.lt_succ_self _, fun r _ => h (s ++ r)⟩)

theorem tokenize_chars_of_NUL {s : List Char} (h : current_char s = NUL) :
    tokenize_chars s = some [⟨.EOF_TOKEN, ""⟩] := by
  have e : get_next_token s = some (⟨.EOF_TOKEN, ""⟩, s) := by
    rw [get_next_token_eq, if_pos h]
  exact tokenize_chars_of_eof e rfl

/-- What follows a text matters to the tokens only through its own tokens,
when it begins at a boundary. -/
theorem tokenize_chars_append_congr {r1 r2 : List Char} (h1 : Boundary r1)
    (h2 : Boundary r2) (h : tokenize_chars r1 = tokenize_chars r2) (s : List Char) :
    tokenize_chars (s ++ r1) = tokenize_chars (s ++ r2) := by
  generalize hn : s.length = n
  induction n using Nat.strong_induction_on generalizing s with
  | _ n ih =>
    subst hn
    by_cases hs : s = []
    · subst hs
      exact h
    rcases get_next_token_append s hs with h0 | ⟨s1, hlt, hg⟩ | ⟨t, s1, ht, hlt, hg⟩
    · rw [tokenize_chars_of_NUL (by rw [current_char_append_of_ne_nil hs]; exact h0),
        tokenize_chars_of_NUL (by rw [current_char_append_of_ne_nil hs]; exact h0)]
    · rw [tokenize_chars_congr (hg r1 h1), tokenize_chars_congr (hg r2 h2)]
      exact ih _ hlt s1 rfl
    · rw [tokenize_chars_of_token (hg r1 h1) ht, tokenize_chars_of_token (hg r2 h2) ht,
        ih _ hlt s1 rfl]

end Lexer

/-! ## Lexer: the shape of the token sequence and of the token texts -/

namespace Lexer

/-- The tokens of a text: tokens other than `EOF_TOKEN`, at most one for each
character, followed by one `EOF_TOKEN` token. -/
theorem tokenize_chars_structure (s : List Char) :
    ∃ body : List Token, tokenize_chars s = some (body ++ [⟨.EOF_TOKEN, ""⟩])
      ∧ (∀ t ∈ body, t.type ≠ .EOF_TOKEN) ∧ body.length ≤ s.length := by
  generalize hn : s.length = n
  induction n using Nat.strong_induction_on generalizing s with
  | _ n ih =>
    subst hn
    obtain ⟨t, s1, e, _, hlt, _⟩ := get_next_token_total s
    by_cases ht : t.type = .EOF_TOKEN
    · exact ⟨[], tokenize_chars_of_eof e ht, by simp, Nat.zero_le _⟩
    · obtain ⟨body, e1, hb, hl⟩ := ih _ (hlt ht) s1 rfl
      refine ⟨t :: body, ?_, ?_, ?_⟩
      · rw [tokenize_chars_of_token e ht, e1]
        rfl
      · intro x hx
        rcases List.mem_cons.1 hx with rfl | hx
        · exact ht
        · exact hb x hx
      · have := hlt ht
        simp only [List.length_cons]
        omega

theorem span_isdigit_append {d : List Char} (hd : ∀ c ∈ d, isdigit c = true)
    {r : List Char} (hr : isdigit (current_char r) = false) :
    (d ++ r).span isdigit = (d, r) := by
  rw [List.span_eq_take_drop]
  induction d with
  | nil =>
    cases r with
    | nil => rfl
    | cons x r =>
      have hx : isdigit x = false := hr
      simp [List.takeWhile, List.dropWhile, hx]
  | cons c d ih =>
    have hc : isdigit c = true := hd c (List.mem_cons_self c d)
    have ih1 := ih (fun x hx => hd x (List.mem_cons_of_mem c hx))
    simp only [Prod.mk.injEq] at ih1
    simp [List.takeWhile, List.dropWhile, hc, ih1.1, ih1.2]

theorem digit_run_digits (s : List Char) : ∀ c ∈ (digit_run s).1, isdigit c = true := by
  induction s with
  | nil => intro c hc; simp [digit_run] at hc
  | cons x s ih =>
    intro c hc
    rw [digit_run] at hc
    split_ifs at hc with hx
    · rcases List.mem_cons.1 hc with rfl | hc
      · exact hx.2
      · exact ih c hc
    · simp at hc

theorem ident_run_chars (s : List Char) :
    ∀ c ∈ (ident_run s).1, isalnum c = true ∨ c = '_' := by
  induction s with
  | nil => intro c hc; simp [ident_run] at hc
  | cons x s ih =>
    intro c hc
    rw [ident_run] at hc
    split_ifs at hc with hx
    · rcases List.mem_cons.1 hc with rfl | hc
      · exact hx.2
      · exact ih c hc
    · simp at hc

end Lexer

/-- A non-empty run of digits, alone or followed by `.` and a run of digits,
is a number literal. -/
theorem isNumberLiteral_intro {d1 d2 : List Char} (hne : d1 ≠ [])
    (h1 : ∀ c ∈ d1, Lexer.isdigit c = true) (h2 : ∀ c ∈ d2, Lexer.isdigit c = true) :
    isNumberLiteral d1 = true ∧ isNumberLiteral (d1 ++ '.' :: d2) = true := by
  cases d1 with
  | nil => exact absurd rfl hne
  | cons c d =>
    have e1 := Lexer.span_isdigit_append h1 (r := []) (by decide)
    have e2 := Lexer.span_isdigit_append h1 (r := '.' :: d2)
        (by decide : Lexer.isdigit '.' = false)
    rw [List.append_nil] at e1
    refine ⟨?_, ?_⟩
    · unfold isNumberLiteral
      rw [e1]
    · unfold isNumberLiteral
      rw [e2]
      simpa using h2

/-- Exact decimal reading succeeds on every number literal. -/
theorem decimalParts_isSome {s : List Char} (h : isNumberLiteral s = true) :
    (decimalParts s).isSome = true := by
  obtain ⟨d1, d2, hne, h1, h2, hs | hs⟩ := isNumberLiteral_elim h
  · cases d1 with
    | nil => exact absurd rfl hne
    | cons c d =>
      have e1 := Lexer.span_isdigit_append h1 (r := []) (by decide)
      rw [List.append_nil] at e1
      rw [hs]
      unfold decimalParts
      rw [e1]
      rfl
  · cases d1 with
    | nil => exact absurd rfl hne
    | cons c d =>
      have e2 := Lexer.span_isdigit_append h1 (r := '.' :: d2)
        (by decide : Lexer.isdigit '.' = false)
      have hall : d2.all Lexer.isdigit = true := List.all_eq_true.2 h2
      rw [hs]
      unfold decimalParts
      rw [e2]
      simp [hall]

namespace Lexer

/-- The text `Lexer::get_number` returns, called on a digit, is a number
literal. -/
theorem get_number_shape {s : List Char} (h : isdigit (current_char s) = true) :
    (get_number s).1.type = .NUMBER
      ∧ isNumberLiteral (get_number s).1.value.data = true := by
  obtain ⟨rest, hs⟩ := exists_cons_of_current_char_ne_NUL (ne_NUL_of_isdigit h)
  have hne : (digit_run s).1 ≠ [] := by
    rw [hs, digit_run_cons_digit h]
    simp
  have hlit := isNumberLiteral_intro hne (digit_run_digits s)
    (digit_run_digits (advance (digit_run s).2))
  rw [get_number_eq]
  split
  · exact ⟨rfl, hlit.2⟩
  · exact ⟨rfl, hlit.1⟩

/-- The text `Lexer::get_identifier` returns, called on a letter or `_`, is
an identifier text. -/
theorem get_identifier_shape {s : List Char}
    (h : isalpha (current_char s) = true ∨ current_char s = '_') :
    (get_identifier s).1.type = .IDENTIFIER
      ∧ isIdentifierText (get_identifier s).1.value.data = true := by
  have hne : current_char s ≠ NUL := by
    intro hc
    rw [hc] at h
    revert h
    decide
  obtain ⟨rest, hs⟩ := exists_cons_of_current_char_ne_NUL hne
  refine ⟨rfl, ?_⟩
  have hrest := ident_run_chars rest
  unfold get_identifier
  rw [hs, ident_run_cons_start h]
  simp only [isIdentifierText, Bool.and_eq_true, Bool.or_eq_true, beq_iff_eq,
    List.all_eq_true]
  exact ⟨h, hrest⟩

/-- Every token `Lexer::get_next_token` returns has a well-formed text: a
`NUMBER` token a number literal, an `IDENTIFIER` token an identifier text. -/
theorem get_next_token_shape (s : List Char) :
    ∀ t s1, get_next_token s = some (t, s1) →
      (t.type = .NUMBER → isNumberLiteral t.value.data = true)
        ∧ (t.type = .IDENTIFIER → isIdentifierText t.value.data = true) := by
  induction s with
  | nil =>
    intro t s1 h
    have e : get_next_token [] = some (⟨.EOF_TOKEN, ""⟩, []) := rfl
    rw [e] at h
    simp only [Option.some.injEq, Prod.mk.injEq] at h
    rw [← h.1]
    exact ⟨by simp, by simp⟩
  | cons c rest ih =>
    intro t s1 h
    rcases get_next_token_cons c rest with
      ⟨_, e⟩ | ⟨_, e⟩ | ⟨hd, e⟩ | ⟨ha, e⟩ | ⟨t2, _, hn, hi, _, e⟩ | ⟨_, _, _, _, _, _, e⟩
    · rw [e] at h
      simp only [Option.some.injEq, Prod.mk.injEq] at h
      rw [← h.1]
      exact ⟨by simp, by simp⟩
    · rw [e] at h
      exact ih t s1 h
    · rw [e] at h
      simp only [Option.some.injEq] at h
      have hsh := get_number_shape (s := c :: rest) hd
      rw [h] at hsh
      exact ⟨fun _ => hsh.2, fun hh => (by rw [hsh.1] at hh; cases hh)⟩
    · rw [e] at h
      simp only [Option.some.injEq] at h
      have hsh := get_identifier_shape (s := c :: rest) ha
      rw [h] at hsh
      exact ⟨fun hh => (by rw [hsh.1] at hh; cases hh), fun _ => hsh.2⟩
    · rw [e rest] at h
      simp only [Option.some.injEq, Prod.mk.injEq] at h
      rw [← h.1]
      exact ⟨fun hh => absurd hh hn, fun hh => absurd hh hi⟩
    · rw [e rest] at h
      exact ih t s1 h

theorem tokenize_chars_shape (s : List Char) :
    ∀ tokens, tokenize_chars s = some tokens → ∀ t ∈ tokens,
      (t.type = .NUMBER → isNumberLiteral t.value.data = true)
        ∧ (t.type = .IDENTIFIER → isIdentifierText t.value.data = true) := by
  generalize hn : s.length = n
  induction n using Nat.strong_induction_on generalizing s with
  | _ n ih =>
    subst hn
    intro tokens htok t ht
    obtain ⟨t1, s1, e, _, hlt, _⟩ := get_next_token_total s
    by_cases h1 : t1.type = .EOF_TOKEN
    · rw [tokenize_chars_of_eof e h1] at htok
      simp only [Option.some.injEq] at htok
      rw [← htok] at ht
      simp only [List.mem_singleton] at ht
      rw [ht]
      exact ⟨by simp, by simp⟩
    · rw [tokenize_chars_of_token e h1] at htok
      cases h2 : tokenize_chars s1 with
      | none => rw [h2] at htok; simp at htok
      | some toks1 =>
        rw [h2] at htok
        simp only [Option.map_some', Option.some.injEq] at htok
        rw [← htok] at ht
        rcases List.mem_cons.1 ht with rfl | ht
        · exact get_next_token_shape s _ _ e
        · exact ih _ (hlt h1) s1 rfl toks1 h2 t ht

end Lexer

/-! ## Lexer: whitespace, operators and unknown characters between tokens -/

namespace Lexer

theorem tokenize_chars_whitespace {w : List Char} (hw : ∀ c ∈ w, isspace c = true)
    (s : List Char) : tokenize_chars (w ++ s) = tokenize_chars s := by
  induction w with
  | nil => rfl
  | cons c w ih =>
    rw [List.cons_append, tokenize_chars_space (hw c (List.mem_cons_self c w))]
    exact ih (fun x hx => hw x (List.mem_cons_of_mem c hx))

theorem boundary_whitespace_append {w : List Char} (hw : ∀ c ∈ w, isspace c = true)
    {r : List Char} (hr : Boundary r) : Boundary (w ++ r) := by
  cases w with
  | nil => exact hr
  | cons c w => exact boundary_of_isspace (hw c (List.mem_cons_self c w)) (w ++ r)

/-- An operator character is one token, the same whatever follows. -/
theorem tokenize_chars_operator {c : Char} (h : isOperatorChar c = true) :
    ∃ t : Token, ∀ rest : List Char,
      tokenize_chars (c :: rest) = (tokenize_chars rest).map (List.cons t) := by
  simp only [isOperatorChar, Bool.or_eq_true, beq_iff_eq] at h
  rcases h with (((((h | h) | h) | h) | h) | h) | h <;> subst h
  · exact ⟨_, tokenize_chars_plus⟩
  · exact ⟨_, tokenize_chars_minus⟩
  · exact ⟨_, tokenize_chars_multiply⟩
  · exact ⟨_, tokenize_chars_divide⟩
  · exact ⟨_, tokenize_chars_lparen⟩
  · exact ⟨_, tokenize_chars_rparen⟩
  · exact ⟨_, tokenize_chars_equals⟩

/-- An unknown character is skipped. -/
theorem tokenize_chars_unknown {c : Char} (h : isUnknownChar c = true)
    (rest : List Char) : tokenize_chars (c :: rest) = tokenize_chars rest := by
  have h' := h
  simp only [isUnknownChar, Bool.and_eq_true, bne_iff_ne, ne_eq, Bool.not_eq_true'] at h'
  obtain ⟨⟨⟨⟨⟨⟨h0, h1⟩, h2⟩, h3⟩, h4⟩, _⟩, h6⟩ := h'
  have h34 : ¬ (isalpha c = true ∨ c = '_') := by
    rintro (ha | hu)
    · rw [h3] at ha
      cases ha
    · exact h4 hu
  rcases get_next_token_other h0 h1 h2 h34 with ⟨_, _, _, _, hop, _⟩ | ⟨_, e⟩
  · rw [h6] at hop
    cases hop
  · exact tokenize_chars_congr (e rest)

/-- Maximal munch with a fractional part: after `digits.digits` the number
ends at the first character that is not a digit, a second `.` included. -/
theorem get_number_dotted {d1 d2 : List Char} (h1 : ∀ c ∈ d1, isdigit c = true)
    (h2 : ∀ c ∈ d2, isdigit c = true) {r : List Char}
    (hr : isdigit (current_char r) = false) :
    get_number (d1 ++ '.' :: (d2 ++ r))
      = (⟨.NUMBER, String.mk (d1 ++ '.' :: d2)⟩, r) := by
  have hdot : isdigit (current_char ('.' :: (d2 ++ r))) = false :=
    (by decide : isdigit '.' = false)
  have e1 : digit_run (d1 ++ '.' :: (d2 ++ r)) = (d1, '.' :: (d2 ++ r)) :=
    digit_run_append h1 hdot
  have e2 : digit_run (advance ('.' :: (d2 ++ r))) = (d2, r) := digit_run_append h2 hr
  rw [get_number_eq, e1]
  simp only [current_char_cons, if_true, e2]

theorem get_next_token_dotted {d1 d2 : List Char} (hne : d1 ≠ [])
    (h1 : ∀ c ∈ d1, isdigit c = true) (h2 : ∀ c ∈ d2, isdigit c = true) {r : List Char}
    (hr : isdigit (current_char r) = false) :
    get_next_token (d1 ++ '.' :: (d2 ++ r))
      = some (⟨.NUMBER, String.mk (d1 ++ '.' :: d2)⟩, r) := by
  cases d1 with
  | nil => exact absurd rfl hne
  | cons c d =>
    have hc : isdigit c = true := h1 c (List.mem_cons_self c d)
    have hsp : ¬ isspace c = true := by
      rw [isspace_eq_false_of_isdigit hc]
      simp
    rw [get_next_token_eq]
    simp only [List.cons_append, current_char_cons, if_neg (ne_NUL_of_isdigit hc),
      if_neg hsp, if_pos hc]
    rw [← List.cons_append, get_number_dotted h1 h2 hr]
    rfl

end Lexer

/-! ## Interpreter: every line gives a number -/

namespace Interpreter

/-- The method `Interpreter::evaluate` returns for every text and every
variable map. -/
theorem evaluate_total {V : Type} (A : Arith V) (text : String) (env : Env V) :
    ∃ (v : V) (env1 : Env V), evaluate A text env = some (v, env1) := by
  obtain ⟨tokens, ht⟩ := Lexer.tokenize_total text
  rcases Parser.parse_cases A tokens with ⟨ast, hp⟩ | ⟨msg, hp, _⟩
  · cases he : ast.evaluate A env with
    | mk r env1 =>
      cases r with
      | error msg => exact ⟨_, _, evaluate_of_error ht hp he⟩
      | ok v => exact ⟨_, _, evaluate_of_ok ht hp he⟩
  · exact ⟨_, _, evaluate_of_parse_throw env ht hp⟩

/-- Two texts with the same tokens are evaluated alike. -/
theorem evaluate_congr {V : Type} (A : Arith V) {text1 text2 : String}
    (h : Lexer.tokenize text1 = Lexer.tokenize text2) (env : Env V) :
    evaluate A text1 env = evaluate A text2 env := by
  unfold evaluate
  rw [h]

end Interpreter

/-! ## Interpreter: file mode -/

namespace Interpreter

theorem int_incr_of_lt {k : Nat} (h : k + 1 < 2 ^ 31) :
    int_incr (k : Int) = ((k + 1 : Nat) : Int) := by
  unfold int_incr
  have h1 : (2 : Int) ^ 31 = 2147483648 := by norm_num
  have h2 : (2 : Int) ^ 32 = 4294967296 := by norm_num
  have h3 : (2 : Nat) ^ 31 = 2147483648 := by norm_num
  rw [h1, h2]
  rw [h3] at h
  omega

theorem run_file_loop_incr {V : Type} (A : Arith V) (rest : List String) (k : Nat)
    (env : Env V) (h : k + (rest.length + 1) ≤ 2 ^ 31) :
    run_file_loop A rest (int_incr (k : Int)) env
      = run_file_loop A rest ((k + 1 : Nat) : Int) env := by
  cases rest with
  | nil => simp only [run_file_loop]
  | cons line rest =>
    rw [int_incr_of_lt]
    simp only [List.length_cons] at h
    omega

/-- The loop of `Interpreter::run_file`, started at line number `k`, evaluates
the lines that are not skipped, numbered from `k`, while `line_number` stays
in the range of `int`. -/
theorem run_file_loop_eq {V : Type} (A : Arith V) (lines : List String) :
    ∀ (k : Nat) (env : Env V), k + lines.length ≤ 2 ^ 31 →
      run_file_loop A lines (k : Int) env
        = evaluate_numbered A ((lines.enumFrom k).filter fun p => !isSkipped p.2) env := by
  induction lines with
  | nil => intro k env _; rfl
  | cons line rest ih =>
    intro k env h
    have hrest : k + 1 + rest.length ≤ 2 ^ 31 := by
      simp only [List.length_cons] at h
      omega
    rw [List.enumFrom_cons, List.filter_cons, run_file_loop]
    cases hs : isSkipped line with
    | true =>
      simp only [if_true, Bool.not_true, Bool.false_eq_true, if_false]
      rw [run_file_loop_incr A rest k env h]
      exact ih (k + 1) env hrest
    | false =>
      simp only [Bool.false_eq_true, if_false, Bool.not_false, if_true]
      rw [evaluate_numbered]
      cases he : evaluate A line env with
      | none => rfl
      | some r =>
        obtain ⟨result, env1⟩ := r
        simp only
        rw [run_file_loop_incr A rest k env1 h, ih (k + 1) env1 hrest]

theorem evaluate_numbered_total {V : Type} (A : Arith V) (l : List (Nat × String)) :
    ∀ env : Env V, ∃ out env1, evaluate_numbered A l env = some (out, env1)
      ∧ out.map Prod.fst = l.map fun p => (p.1 : Int) := by
  induction l with
  | nil => intro env; exact ⟨[], env, rfl, rfl⟩
  | cons p rest ih =>
    intro env
    obtain ⟨n, line⟩ := p
    obtain ⟨v, env1, he⟩ := evaluate_total A line env
    obtain ⟨out, env2, ho, hl⟩ := ih env1
    refine ⟨((n : Int), v) :: out, env2, ?_, ?_⟩
    · rw [evaluate_numbered, he]
      simp only [ho]
    · simp only [List.map_cons, hl]

theorem evaluatedLines_length (lines : List String) :
    (evaluatedLines lines).length = (lines.filter fun l => !isSkipped l).length := by
  unfold evaluatedLines
  generalize 1 = k
  induction lines generalizing k with
  | nil => rfl
  | cons line rest ih =>
    rw [List.enumFrom_cons, List.filter_cons, List.filter_cons]
    cases hs : isSkipped line <;> simp [ih (k + 1)]

end Interpreter

/-! ## Parser: the rendering of a tree parses to the tree -/

namespace Parser

variable {V : Type} {A : Arith V}

theorem current_token_drop (tokens : List Token) (pos i : Nat) :
    current_token (tokens.drop pos) i = current_token tokens (pos + i) := by
  rw [current_token_eq, current_token_eq, List.getElem?_drop]

theorem current_token_of_drop {tokens : List Token} {pos : Nat} {x : Token}
    {rest : List Token} (h : tokens.drop pos = x :: rest) :
    current_token tokens pos = x := by
  have e := current_token_drop tokens pos 0
  rw [h, current_token_cons_zero, Nat.add_zero] at e
  exact e.symm

theorem drop_add_of_drop {tokens : List Token} {pos : Nat} {a b : List Token}
    (h : tokens.drop pos = a ++ b) : tokens.drop (pos + a.length) = b := by
  rw [← List.drop_drop, h, List.drop_left]

theorem drop_succ_of_drop {tokens : List Token} {pos : Nat} {x : Token}
    {b : List Token} (h : tokens.drop pos = x :: b) : tokens.drop (pos + 1) = b :=
  drop_add_of_drop (a := [x]) h

theorem opToken_type (op : TokenType) : (opToken op).type = op := by
  cases op <;> rfl

theorem renderFuel_pos (t : ASTNode V) : 1 ≤ renderFuel t := by
  cases t <;> simp [renderFuel]

theorem current_token_type_of_drop_nil {tokens : List Token} {pos : Nat}
    (h : tokens.drop pos = []) : (current_token tokens pos).type = .EOF_TOKEN := by
  have e := current_token_drop tokens pos 0
  rw [h, Nat.add_zero] at e
  rw [← e]
  rfl

/-- On the rendering of a tree, followed by a token other than `=`,
`Parser::factor` returns the tree and stops after the rendering. -/
theorem factor_render (txt : V → String) (t : ASTNode V) :
    Renderable A txt t →
    ∀ (tokens : List Token) (pos : Nat) (post : List Token) (fuel : Nat),
      tokens.drop pos = render txt t ++ post →
      (current_token post 0).type ≠ .EQUALS →
      renderFuel t ≤ fuel →
      factor A tokens fuel pos = .ok (t, pos + (render txt t).length) := by
  induction t with
  | NumberNode value =>
    intro hr tokens pos post fuel hd hpost hfuel
    obtain ⟨k, rfl⟩ : ∃ k, fuel = k + 1 := ⟨fuel - 1, by
      simp only [renderFuel] at hfuel; omega⟩
    have c0 : current_token tokens pos = ⟨.NUMBER, txt value⟩ := current_token_of_drop hd
    have c1 : current_token tokens (pos + 1) = current_token post 0 := by
      have e := current_token_drop tokens (pos + 1) 0
      rw [drop_succ_of_drop hd, Nat.add_zero] at e
      exact e.symm
    exact factor_atom (by rw [c0]; exact atomNode_number hr) (by rw [c1]; exact hpost) k
  | VariableNode name =>
    intro _ tokens pos post fuel hd hpost hfuel
    obtain ⟨k, rfl⟩ : ∃ k, fuel = k + 1 := ⟨fuel - 1, by
      simp only [renderFuel] at hfuel; omega⟩
    have c0 : current_token tokens pos = ⟨.IDENTIFIER, name⟩ := current_token_of_drop hd
    have c1 : current_token tokens (pos + 1) = current_token post 0 := by
      have e := current_token_drop tokens (pos + 1) 0
      rw [drop_succ_of_drop hd, Nat.add_zero] at e
      exact e.symm
    exact factor_atom (by rw [c0]; rfl) (by rw [c1]; exact hpost) k
  | BinaryOpNode left op right ihl ihr =>
    intro hr tokens pos post fuel hd hpost hfuel
    obtain ⟨hop, hrl, hrr⟩ := hr
    have hl1 := renderFuel_pos right
    obtain ⟨g, rfl⟩ : ∃ g, fuel = g + 5 := ⟨fuel - 5, by
      simp only [renderFuel] at hfuel; omega⟩
    have hgl : renderFuel left ≤ g + 2 := by
      simp only [renderFuel] at hfuel; omega
    have hgr : renderFuel right ≤ g + 1 := by
      simp only [renderFuel] at hfuel; omega
    simp only [render, List.cons_append, List.append_assoc, List.nil_append] at hd
    have c0 : current_token tokens pos = ⟨.LPAREN, "("⟩ := current_token_of_drop hd
    have d1 := drop_succ_of_drop hd
    have hfl := ihl hrl tokens (pos + 1) _ (g + 2) d1
      (by rw [current_token_cons_zero, opToken_type]
          rcases hop with h | h | h | h <;> rw [h] <;> decide) hgl
    have d2 := drop_add_of_drop d1
    have c2 : current_token tokens (pos + 1 + (render txt left).length) = opToken op :=
      current_token_of_drop d2
    have d3 := drop_succ_of_drop d2
    have hfr := ihr hrr tokens (pos + 1 + (render txt left).length + 1) _ (g + 1) d3
      (by rw [current_token_cons_zero]; decide) hgr
    have d4 := drop_add_of_drop d3
    have c4 : current_token tokens
        (pos + 1 + (render txt left).length + 1 + (render txt right).length)
        = ⟨.RPAREN, ")"⟩ := current_token_of_drop d4
    have hstop4t : ¬ ((current_token tokens
        (pos + 1 + (render txt left).length + 1 + (render txt right).length)).type
          = .MULTIPLY ∨ (current_token tokens
        (pos + 1 + (render txt left).length + 1 + (render txt right).length)).type
          = .DIVIDE) := by rw [c4]; decide
    have hstop4e : ¬ ((current_token tokens
        (pos + 1 + (render txt left).length + 1 + (render txt right).length)).type
          = .PLUS ∨ (current_token tokens
        (pos + 1 + (render txt left).length + 1 + (render txt right).length)).type
          = .MINUS) := by rw [c4]; decide
    have hexpr : expr A tokens (g + 4) (pos + 1)
        = .ok (.BinaryOpNode left op right,
            pos + 1 + (render txt left).length + 1 + (render txt right).length) := by
      by_cases hadd : op = .PLUS ∨ op = .MINUS
      · have hstop2 : ¬ ((current_token tokens (pos + 1 + (render txt left).length)).type
            = .MULTIPLY ∨ (current_token tokens (pos + 1 + (render txt left).length)).type
            = .DIVIDE) := by
          rw [c2, opToken_type]
          rcases hadd with h | h <;> rw [h] <;> decide
        have htl : term A tokens (g + 3) (pos + 1)
            = .ok (left, pos + 1 + (render txt left).length) := by
          rw [term_of_factor hfl, term_loop_stop hstop2]
        have htr : term A tokens (g + 2) (pos + 1 + (render txt left).length + 1)
            = .ok (right,
              pos + 1 + (render txt left).length + 1 + (render txt right).length) := by
          rw [term_of_factor hfr]
          exact term_loop_stop hstop4t g right
        rw [expr_of_term htl, expr_loop_step (by rw [c2, opToken_type]; exact hadd) htr,
          c2, opToken_type]
        exact expr_loop_stop hstop4e (g + 1) _
      · have hmul : op = .MULTIPLY ∨ op = .DIVIDE := by
          rcases hop with h | h | h | h
          · exact absurd (Or.inl h) hadd
          · exact absurd (Or.inr h) hadd
          · exact Or.inl h
          · exact Or.inr h
        have htl : term A tokens (g + 3) (pos + 1)
            = .ok (.BinaryOpNode left op right,
              pos + 1 + (render txt left).length + 1 + (render txt right).length) := by
          rw [term_of_factor hfl,
            term_loop_step (by rw [c2, opToken_type]; exact hmul) hfr, c2, opToken_type]
          exact term_loop_stop hstop4t g _
        rw [expr_of_term htl]
        exact expr_loop_stop hstop4e (g + 2) _
    rw [factor_succ, c0, hexpr]
    simp only [c4]
    simp [render]
    omega
  | AssignmentNode var value ih =>
    intro hr tokens pos post fuel hd hpost hfuel
    have hl1 := renderFuel_pos value
    obtain ⟨g, rfl⟩ : ∃ g, fuel = g + 7 := ⟨fuel - 7, by
      simp only [renderFuel] at hfuel; omega⟩
    have hg : renderFuel value ≤ g + 1 := by
      simp only [renderFuel] at hfuel; omega
    simp only [render, List.cons_append, List.append_assoc, List.nil_append] at hd
    have c0 : current_token tokens pos = ⟨.LPAREN, "("⟩ := current_token_of_drop hd
    have d1 := drop_succ_of_drop hd
    have c1 : current_token tokens (pos + 1) = ⟨.IDENTIFIER, var⟩ := current_token_of_drop d1
    have d2 := drop_succ_of_drop d1
    have c2 : current_token tokens (pos + 1 + 1) = ⟨.EQUALS, "="⟩ := current_token_of_drop d2
    have d3 := drop_succ_of_drop d2
    have hf := ih hr tokens (pos + 1 + 1 + 1) _ (g + 1) d3
      (by rw [current_token_cons_zero]; decide) hg
    have d4 := drop_add_of_drop d3
    have c4 : current_token tokens (pos + 1 + 1 + 1 + (render txt value).length)
        = ⟨.RPAREN, ")"⟩ := current_token_of_drop d4
    have hstop4t : ¬ ((current_token tokens
        (pos + 1 + 1 + 1 + (render txt value).length)).type = .MULTIPLY
        ∨ (current_token tokens
        (pos + 1 + 1 + 1 + (render txt value).length)).type = .DIVIDE) := by
      rw [c4]; decide
    have hstop4e : ¬ ((current_token tokens
        (pos + 1 + 1 + 1 + (render txt value).length)).type = .PLUS
        ∨ (current_token tokens
        (pos + 1 + 1 + 1 + (render txt value).length)).type = .MINUS) := by
      rw [c4]; decide
    have hinner : expr A tokens (g + 3) (pos + 1 + 2)
        = .ok (value, pos + 1 + 1 + 1 + (render txt value).length) := by
      have ht : term A tokens (g + 2) (pos + 1 + 1 + 1)
          = .ok (value, pos + 1 + 1 + 1 + (render txt value).length) := by
        rw [term_of_factor hf]
        exact term_loop_stop hstop4t g value
      rw [show pos + 1 + 2 = pos + 1 + 1 + 1 from rfl, expr_of_term ht]
      exact expr_loop_stop hstop4e (g + 1) value
    have hfa : factor A tokens (g + 4) (pos + 1)
        = .ok (.AssignmentNode var value,
            pos + 1 + 1 + 1 + (render txt value).length) := by
      rw [factor_succ, c1, c2, hinner]
      simp
    have hexpr : expr A tokens (g + 6) (pos + 1)
        = .ok (.AssignmentNode var value,
            pos + 1 + 1 + 1 + (render txt value).length) := by
      have ht : term A tokens (g + 5) (pos + 1)
          = .ok (.AssignmentNode var value,
            pos + 1 + 1 + 1 + (render txt value).length) := by
        rw [term_of_factor hfa]
        exact term_loop_stop hstop4t (g + 3) _
      rw [expr_of_term ht]
      exact expr_loop_stop hstop4e (g + 4) _
    rw [factor_succ, c0, hexpr]
    simp only [c4]
    simp [render]
    omega

/-- The result of `Parser::parse` on the rendering of a tree followed by
`EOF`: the tree, every token before `EOF` consumed. -/
theorem parse_pos_render (txt : V → String) (t : ASTNode V)
    (hr : Renderable A txt t) :
    parse_pos A (render txt t ++ [⟨.EOF_TOKEN, ""⟩]) = .ok (t, (render txt t).length) := by
  have hl1 := renderFuel_pos t
  have hf := factor_render txt t hr (render txt t ++ [(⟨.EOF_TOKEN, ""⟩ : Token)]) 0
    [⟨.EOF_TOKEN, ""⟩] (renderFuel t) (List.drop_zero _) (by decide) (Nat.le_refl _)
  rw [Nat.zero_add] at hf
  have c : current_token (render txt t ++ [⟨.EOF_TOKEN, ""⟩]) (render txt t).length
      = ⟨.EOF_TOKEN, ""⟩ := by
    have e := current_token_append (render txt t) [⟨.EOF_TOKEN, ""⟩] 0
    rw [Nat.add_zero] at e
    rw [e]
    rfl
  obtain ⟨g, hg⟩ : ∃ g, renderFuel t = g + 1 := ⟨renderFuel t - 1, by omega⟩
  rw [hg] at hf
  refine parse_pos_eq_of_expr A _ (k := g + 1 + 1 + 1) ?_ (by simp)
  have ht : term A (render txt t ++ [⟨.EOF_TOKEN, ""⟩]) (g + 1 + 1) 0
      = .ok (t, (render txt t).length) := by
    rw [term_of_factor hf]
    exact term_loop_stop (by rw [c]; decide) g t
  rw [expr_of_term ht]
  exact expr_loop_stop (by rw [c]; decide) (g + 1) t

end Parser

namespace Lexer

/-- A `.` that does not follow the digits of a number is skipped. -/
theorem tokenize_chars_dot (rest : List Char) :
    tokenize_chars ('.' :: rest) = tokenize_chars rest := by
  rcases get_next_token_other (c := '.') (by decide) (by decide) (by decide) (by decide)
    with ⟨_, _, _, _, hop, _⟩ | ⟨_, e⟩
  · exact absurd hop (by decide)
  · exact tokenize_chars_congr (e rest)

theorem isspace_iff (c : Char) :
    isspace c = true ↔ c = ' ' ∨ c = Char.ofNat 9 ∨ c = Char.ofNat 10 ∨ c = Char.ofNat 11
      ∨ c = Char.ofNat 12 ∨ c = Char.ofNat 13 := by
  constructor
  · intro h
    have hc : Char.ofNat c.toNat = c := Char.ofNat_toNat c
    simp only [isspace, Bool.or_eq_true, beq_iff_eq, Bool.and_eq_true,
      decide_eq_true_eq] at h
    have hcases : c.toNat = 32 ∨ c.toNat = 9 ∨ c.toNat = 10 ∨ c.toNat = 11
        ∨ c.toNat = 12 ∨ c.toNat = 13 := by omega
    rcases hcases with h | h | h | h | h | h <;> rw [h] at hc
    · exact Or.inl hc.symm
    · exact Or.inr (Or.inl hc.symm)
    · exact Or.inr (Or.inr (Or.inl hc.symm))
    · exact Or.inr (Or.inr (Or.inr (Or.inl hc.symm)))
    · exact Or.inr (Or.inr (Or.inr (Or.inr (Or.inl hc.symm))))
    · exact Or.inr (Or.inr (Or.inr (Or.inr (Or.inr hc.symm))))
  · rintro (h | h | h | h | h | h) <;> subst h <;> decide

end Lexer

/-- C11: whitespace insensitivity.  For all texts `s`, `t`, every text `w` of
whitespace characters (space, tab, newline, vertical tab, form feed, carriage
return) and every operator or punctuation character `c` of `+ - * / ( ) =`,
`Lexer::tokenize` returns the same tokens for `w s w` as for `s`, and the same
for `s w c w t` as for `s c t`; so `1+2` and ` 1 + 2 ` are evaluated alike. -/
theorem C11_whitespace_insensitive {V : Type} (A : Arith V) :
    (∀ s t w : String, (∀ c ∈ w.data, Lexer.isspace c = true) →
        Lexer.tokenize (w ++ s ++ w) = Lexer.tokenize s
          ∧ ∀ c : Char, isOperatorChar c = true →
              Lexer.tokenize (s ++ w ++ String.mk [c] ++ w ++ t)
                = Lexer.tokenize (s ++ String.mk [c] ++ t))
    ∧ (∀ c : Char, Lexer.isspace c = true ↔ c = ' ' ∨ c = Char.ofNat 9
        ∨ c = Char.ofNat 10 ∨ c = Char.ofNat 11 ∨ c = Char.ofNat 12 ∨ c = Char.ofNat 13)
    ∧ Lexer.tokenize "1+2" = Lexer.tokenize " 1 + 2 "
    ∧ ∀ env : Env V,
        Interpreter.evaluate A "1+2" env = Interpreter.evaluate A " 1 + 2 " env := by
  refine ⟨?_, Lexer.isspace_iff, by decide,
    fun env => Interpreter.evaluate_congr A (by decide) env⟩
  intro s t w hw
  refine ⟨?_, ?_⟩
  · unfold Lexer.tokenize
    simp only [String.data_append, List.append_assoc]
    rw [Lexer.tokenize_chars_whitespace hw]
    have h := Lexer.tokenize_chars_append_congr
      (Lexer.boundary_whitespace_append hw Lexer.boundary_nil) Lexer.boundary_nil
      (by rw [Lexer.tokenize_chars_whitespace hw]) s.data
    rw [List.append_nil, List.append_nil] at h
    exact h
  · intro c hc
    obtain ⟨tok, htok⟩ := Lexer.tokenize_chars_operator hc
    unfold Lexer.tokenize
    simp only [String.data_append, List.append_assoc, List.cons_append, List.nil_append]
    refine Lexer.tokenize_chars_append_congr
      (Lexer.boundary_whitespace_append hw (Lexer.boundary_of_isOperatorChar hc _))
      (Lexer.boundary_of_isOperatorChar hc _) ?_ s.data
    rw [Lexer.tokenize_chars_whitespace hw, htok, htok, Lexer.tokenize_chars_whitespace hw]

/-- Witness of C11: two spaces around `1+2`, and two spaces around the `+`
between `1` and `2`, do not change the tokens. -/
theorem C11_whitespace_insensitive_witness :
    Lexer.tokenize "  1+2  " = Lexer.tokenize "1+2"
    ∧ Lexer.tokenize "1  +  2" = Lexer.tokenize "1+2" := by
  have h := (C11_whitespace_insensitive decimalArith).1 "1+2" "" "  " (by decide)
  have h2 := ((C11_whitespace_insensitive decimalArith).1 "1" "2" "  " (by decide)).2 '+'
    (by decide)
  exact ⟨h.1, h2⟩

/-- C12: for every input `Lexer::tokenize` returns; the sequence it returns
ends with an `EOF_TOKEN` token, has no other `EOF_TOKEN` token, and has at
most one token more than the input has characters. -/
theorem C12_tokenize_total (text : String) :
    ∃ body : List Token,
      Lexer.tokenize text = some (body ++ [⟨.EOF_TOKEN, ""⟩])
        ∧ (∀ t ∈ body, t.type ≠ .EOF_TOKEN)
        ∧ (body ++ [(⟨.EOF_TOKEN, ""⟩ : Token)]).length ≤ text.length + 1 := by
  obtain ⟨body, h, hb, hl⟩ := Lexer.tokenize_chars_structure text.data
  refine ⟨body, h, hb, ?_⟩
  have e : text.length = text.data.length := rfl
  simp only [List.length_append, List.length_singleton]
  omega

/-- C13: number lexing is maximal munch.  A text that is a number literal is
lexed as one `NUMBER` token with the whole text, followed by `EOF_TOKEN`; and
in `d1 . d2 .` the number ends before the second `.`, which is left to the
next call and is then skipped. -/
theorem C13_maximal_munch :
    (∀ a : String, isNumberLiteral a.data = true →
        Lexer.tokenize a = some [⟨.NUMBER, a⟩, ⟨.EOF_TOKEN, ""⟩])
    ∧ (∀ d1 d2 rest : List Char, d1 ≠ [] → (∀ c ∈ d1, Lexer.isdigit c = true) →
        (∀ c ∈ d2, Lexer.isdigit c = true) →
        Lexer.get_next_token (d1 ++ '.' :: (d2 ++ '.' :: rest))
            = some (⟨.NUMBER, String.mk (d1 ++ '.' :: d2)⟩, '.' :: rest)
          ∧ Lexer.tokenize_chars (d1 ++ '.' :: (d2 ++ '.' :: rest))
            = (Lexer.tokenize_chars rest).map
                (List.cons ⟨.NUMBER, String.mk (d1 ++ '.' :: d2)⟩)) := by
  refine ⟨?_, ?_⟩
  · intro a ha
    have h := Lexer.tokenize_chars_literal ha Lexer.separated_nil
    rw [List.append_nil, Lexer.tokenize_chars_nil] at h
    exact h
  · intro d1 d2 rest hne h1 h2
    have hg := Lexer.get_next_token_dotted hne h1 h2 (r := '.' :: rest)
      (by decide : Lexer.isdigit '.' = false)
    refine ⟨hg, ?_⟩
    rw [Lexer.tokenize_chars_of_token hg (by simp), Lexer.tokenize_chars_dot]

/-- Witness of C13: `12.5` is one token, and `1.2.3` is lexed as `1.2` and
`3`. -/
theorem C13_maximal_munch_witness :
    Lexer.tokenize "12.5" = some [⟨.NUMBER, "12.5"⟩, ⟨.EOF_TOKEN, ""⟩]
    ∧ Lexer.tokenize_chars ['1', '.', '2', '.', '3']
        = some [⟨.NUMBER, "1.2"⟩, ⟨.NUMBER, "3"⟩, ⟨.EOF_TOKEN, ""⟩] := by
  refine ⟨C13_maximal_munch.1 "12.5" (by decide), ?_⟩
  have h := (C13_maximal_munch.2 ['1'] ['2'] ['3'] (by decide) (by decide) (by decide)).2
  exact h.trans (by decide)

/-- C14: file mode.  For every list of lines (fewer than `2^31`, so that
`line_number` stays an `int`), `Interpreter::run_file` returns, and what it
prints are the results of the lines that are non-empty and do not start with
`#`, evaluated in file order on one variable map, each labelled with the
1-based position of its line in the file: one result line for each such
line, skipped lines counted in the numbering. -/
theorem C14_run_file {V : Type} (A : Arith V) (lines : List String) (env : Env V)
    (hlen : lines.length < 2 ^ 31) :
    Interpreter.run_file A lines env = Interpreter.run_file_spec A lines env
    ∧ ∃ (out : List (Int × V)) (env1 : Env V),
        Interpreter.run_file A lines env = some (out, env1)
          ∧ out.map Prod.fst
              = ((lines.enumFrom 1).filter fun p => !Interpreter.isSkipped p.2).map
                  (fun p => (p.1 : Int))
          ∧ out.length = (lines.filter fun l => !Interpreter.isSkipped l).length := by
  have h : Interpreter.run_file A lines env = Interpreter.run_file_spec A lines env :=
    Interpreter.run_file_loop_eq A lines 1 env (by omega)
  refine ⟨h, ?_⟩
  obtain ⟨out, env1, ho, hl⟩ :=
    Interpreter.evaluate_numbered_total A (Interpreter.evaluatedLines lines) env
  refine ⟨out, env1, h.trans ho, hl, ?_⟩
  have := congrArg List.length hl
  rw [List.length_map, List.length_map] at this
  rw [this]
  exact Interpreter.evaluatedLines_length lines

/-- Witness of C14 in exact decimal arithmetic: the lines `# c`, the empty
line, `1 + 2`, `3 * 4` print exactly the results 3 for line 3 and 12 for
line 4. -/
theorem C14_run_file_witness :
    Interpreter.run_file decimalArith ["# c", "", "1 + 2", "3 * 4"] (emptyEnv ℚ)
      = some ([(3, 3), (4, 12)], emptyEnv ℚ) := by
  have h1 : decimalArith.stod "1" = some 1 :=
    decimalArith_stod (n := 1) (d := 0) (by decide) (by norm_num)
  have h2 : decimalArith.stod "2" = some 2 :=
    decimalArith_stod (n := 2) (d := 0) (by decide) (by norm_num)
  have h3 : decimalArith.stod "3" = some 3 :=
    decimalArith_stod (n := 3) (d := 0) (by decide) (by norm_num)
  have h4 : decimalArith.stod "4" = some 4 :=
    decimalArith_stod (n := 4) (d := 0) (by decide) (by norm_num)
  have t1 : Lexer.tokenize "1 + 2"
      = some [⟨.NUMBER, "1"⟩, ⟨.PLUS, "+"⟩, ⟨.NUMBER, "2"⟩, ⟨.EOF_TOKEN, ""⟩] := by decide
  have t2 : Lexer.tokenize "3 * 4"
      = some [⟨.NUMBER, "3"⟩, ⟨.MULTIPLY, "*"⟩, ⟨.NUMBER, "4"⟩, ⟨.EOF_TOKEN, ""⟩] := by
    decide
  have p1 : Parser.parse decimalArith
      [⟨.NUMBER, "1"⟩, ⟨.PLUS, "+"⟩, ⟨.NUMBER, "2"⟩, ⟨.EOF_TOKEN, ""⟩]
      = .ok (.BinaryOpNode (.NumberNode 1) .PLUS (.NumberNode 2)) := by
    simp [Parser.parse, Parser.parse_pos, Parser.parse_fuel, Parser.expr, Parser.term,
      Parser.factor, Parser.term_loop, Parser.expr_loop, Parser.current_token, h1, h2]
  have p2 : Parser.parse decimalArith
      [⟨.NUMBER, "3"⟩, ⟨.MULTIPLY, "*"⟩, ⟨.NUMBER, "4"⟩, ⟨.EOF_TOKEN, ""⟩]
      = .ok (.BinaryOpNode (.NumberNode 3) .MULTIPLY (.NumberNode 4)) := by
    simp [Parser.parse, Parser.parse_pos, Parser.parse_fuel, Parser.expr, Parser.term,
      Parser.factor, Parser.term_loop, Parser.expr_loop, Parser.current_token, h3, h4]
  have e1 : Interpreter.evaluate decimalArith "1 + 2" (emptyEnv ℚ)
      = some (3, emptyEnv ℚ) := by
    refine Interpreter.evaluate_of_ok t1 p1 ?_
    simp [ASTNode.evaluate, decimalArith]
    norm_num
  have e2 : Interpreter.evaluate decimalArith "3 * 4" (emptyEnv ℚ)
      = some (12, emptyEnv ℚ) := by
    refine Interpreter.evaluate_of_ok t2 p2 ?_
    simp [ASTNode.evaluate, decimalArith]
    norm_num
  have hs : Interpreter.evaluatedLines ["# c", "", "1 + 2", "3 * 4"]
      = [(3, "1 + 2"), (4, "3 * 4")] := by decide
  rw [(C14_run_file decimalArith ["# c", "", "1 + 2", "3 * 4"] (emptyEnv ℚ)
    (by norm_num)).1]
  unfold Interpreter.run_file_spec
  rw [hs]
  simp [Interpreter.evaluate_numbered, e1, e2]

/-- C15: `BinaryOp` evaluates its left operand first and then its right
operand on the variable map the left operand leaves, whatever the operator.
When the left operand throws, its exception is the result and the right
operand is not evaluated; when it returns, the map after the node is the map
after the right operand.  So `(x = 2) * x` gives `2 * 2` in every map, and
`x * (x = 2)` gives 0 and changes nothing when `x` is unbound. -/
theorem C15_operand_order {V : Type} (A : Arith V) :
    (∀ (left : ASTNode V) (op : TokenType) (env env1 : Env V) (e : String),
        left.evaluate A env = (.error e, env1) →
        ∀ right : ASTNode V,
          (ASTNode.BinaryOpNode left op right).evaluate A env = (.error e, env1))
    ∧ (∀ (left right : ASTNode V) (op : TokenType) (env env1 env2 : Env V) (a : V)
        (r : Except String V),
        left.evaluate A env = (.ok a, env1) → right.evaluate A env1 = (r, env2) →
        ((ASTNode.BinaryOpNode left op right).evaluate A env).2 = env2
          ∧ ∀ e : String, r = .error e →
              (ASTNode.BinaryOpNode left op right).evaluate A env = (.error e, env2))
    ∧ (∀ (env : Env V) (v2 : V), A.stod "2" = some v2 →
        Interpreter.evaluate A "(x = 2) * x" env
          = some (A.mul v2 v2, Function.update env "x" (some v2)))
    ∧ (∀ env : Env V, env "x" = none →
        Interpreter.evaluate A "x * (x = 2)" env = some (A.zero, env)) := by
  refine ⟨?_, ?_, ?_, ?_⟩
  · intro left op env env1 e h right
    simp [ASTNode.evaluate, h]
  · intro left right op env env1 env2 a r hl hr
    refine ⟨?_, ?_⟩
    · cases r with
      | error e => simp [ASTNode.evaluate, hl, hr]
      | ok b =>
        cases op <;> simp [ASTNode.evaluate, hl, hr]
        split_ifs <;> rfl
    · intro e he
      subst he
      simp [ASTNode.evaluate, hl, hr]
  · intro env v2 h2
    have t : Lexer.tokenize "(x = 2) * x"
        = some [⟨.LPAREN, "("⟩, ⟨.IDENTIFIER, "x"⟩, ⟨.EQUALS, "="⟩, ⟨.NUMBER, "2"⟩,
            ⟨.RPAREN, ")"⟩, ⟨.MULTIPLY, "*"⟩, ⟨.IDENTIFIER, "x"⟩, ⟨.EOF_TOKEN, ""⟩] := by
      decide
    have p : Parser.parse A [⟨.LPAREN, "("⟩, ⟨.IDENTIFIER, "x"⟩, ⟨.EQUALS, "="⟩,
        ⟨.NUMBER, "2"⟩, ⟨.RPAREN, ")"⟩, ⟨.MULTIPLY, "*"⟩, ⟨.IDENTIFIER, "x"⟩,
        ⟨.EOF_TOKEN, ""⟩]
        = .ok (.BinaryOpNode (.AssignmentNode "x" (.NumberNode v2)) .MULTIPLY
            (.VariableNode "x")) := by
      simp [Parser.parse, Parser.parse_pos, Parser.parse_fuel, Parser.expr, Parser.term,
        Parser.factor, Parser.term_loop, Parser.expr_loop, Parser.current_token, h2]
    exact Interpreter.evaluate_of_ok t p (by simp [ASTNode.evaluate])
  · intro env hx
    have t : Lexer.tokenize "x * (x = 2)"
        = some [⟨.IDENTIFIER, "x"⟩, ⟨.MULTIPLY, "*"⟩, ⟨.LPAREN, "("⟩, ⟨.IDENTIFIER, "x"⟩,
            ⟨.EQUALS, "="⟩, ⟨.NUMBER, "2"⟩, ⟨.RPAREN, ")"⟩, ⟨.EOF_TOKEN, ""⟩] := by
      decide
    cases h2 : A.stod "2" with
    | none =>
      refine Interpreter.evaluate_of_parse_throw env t (m := "stod") ?_
      simp [Parser.parse, Parser.parse_pos, Parser.parse_fuel, Parser.expr, Parser.term,
        Parser.factor, Parser.term_loop, Parser.expr_loop, Parser.current_token, h2]
    | some v2 =>
      have p : Parser.parse A [⟨.IDENTIFIER, "x"⟩, ⟨.MULTIPLY, "*"⟩, ⟨.LPAREN, "("⟩,
          ⟨.IDENTIFIER, "x"⟩, ⟨.EQUALS, "="⟩, ⟨.NUMBER, "2"⟩, ⟨.RPAREN, ")"⟩,
          ⟨.EOF_TOKEN, ""⟩]
          = .ok (.BinaryOpNode (.VariableNode "x") .MULTIPLY
              (.AssignmentNode "x" (.NumberNode v2))) := by
        simp [Parser.parse, Parser.parse_pos, Parser.parse_fuel, Parser.expr,
          Parser.term, Parser.factor, Parser.term_loop, Parser.expr_loop,
          Parser.current_token, h2]
      have he : (ASTNode.BinaryOpNode (.VariableNode "x") .MULTIPLY
          (.AssignmentNode "x" (.NumberNode v2))).evaluate A env
          = (.error ("Undefined variable: " ++ "x"), env) := by
        simp [ASTNode.evaluate, hx]
      exact Interpreter.evaluate_of_error t p he

/-- Witness of C15 in exact decimal arithmetic, from the empty variable map:
`(x = 2) * x` gives 4 and `x * (x = 2)` gives 0. -/
theorem C15_operand_order_witness :
    Interpreter.evaluate decimalArith "(x = 2) * x" (emptyEnv ℚ)
        = some (4, Function.update (emptyEnv ℚ) "x" (some 2))
    ∧ Interpreter.evaluate decimalArith "x * (x = 2)" (emptyEnv ℚ)
        = some (0, emptyEnv ℚ) := by
  have h2 : decimalArith.stod "2" = some 2 :=
    decimalArith_stod (n := 2) (d := 0) (by decide) (by norm_num)
  have h := C15_operand_order decimalArith
  refine ⟨(h.2.2.1 (emptyEnv ℚ) 2 h2).trans ?_, h.2.2.2 (emptyEnv ℚ) rfl⟩
  norm_num [decimalArith]

/-- C16: an unrecognised character acts like a separator.  For all texts `s`,
`t` and every character `c` that is none of NUL, whitespace, digit, letter,
`_`, `.` and `+ - * / ( ) =`, `Lexer::tokenize` returns the same tokens for
`s c t` as for `s`, a space, `t`. -/
theorem C16_unknown_character_separates (s t : String) (c : Char)
    (hc : isUnknownChar c = true) :
    Lexer.tokenize (s ++ String.mk [c] ++ t) = Lexer.tokenize (s ++ " " ++ t) := by
  have e : (" " : String).data = [' '] := rfl
  unfold Lexer.tokenize
  simp only [String.data_append, e, List.append_assoc, List.cons_append, List.nil_append]
  refine Lexer.tokenize_chars_append_congr (Lexer.boundary_of_isUnknownChar hc _)
    (Lexer.boundary_of_isspace (by decide) _) ?_ s.data
  rw [Lexer.tokenize_chars_unknown hc, Lexer.tokenize_chars_space (by decide)]

/-- Witness of C16: `1@2` has the tokens of `1 2`. -/
theorem C16_unknown_character_separates_witness :
    Lexer.tokenize "1@2" = Lexer.tokenize "1 2" :=
  C16_unknown_character_separates "1" "2" '@' (by decide)

/-- C17: `Interpreter::evaluate` is not atomic on evaluation errors.  On
`(x = 5) / 0` it returns 0 and leaves `x` bound to 5, in every variable map
(the texts `5` and `0` converting, the latter to a value with `== 0`); when
the parser throws, the variable map is unchanged. -/
theorem C17_not_atomic {V : Type} (A : Arith V) :
    (∀ (env : Env V) (v5 z : V), A.stod "5" = some v5 → A.stod "0" = some z →
        A.eqZero z = true →
        Interpreter.evaluate A "(x = 5) / 0" env
            = some (A.zero, Function.update env "x" (some v5))
          ∧ Function.update env "x" (some v5) "x" = some v5)
    ∧ (∀ (text : String) (tokens : List Token) (msg : String) (env : Env V),
        Lexer.tokenize text = some tokens → Parser.parse A tokens = .throw msg →
        Interpreter.evaluate A text env = some (A.zero, env)) := by
  refine ⟨?_, fun text tokens msg env ht hp =>
    Interpreter.evaluate_of_parse_throw env ht hp⟩
  intro env v5 z h5 h0 hz
  have t : Lexer.tokenize "(x = 5) / 0"
      = some [⟨.LPAREN, "("⟩, ⟨.IDENTIFIER, "x"⟩, ⟨.EQUALS, "="⟩, ⟨.NUMBER, "5"⟩,
          ⟨.RPAREN, ")"⟩, ⟨.DIVIDE, "/"⟩, ⟨.NUMBER, "0"⟩, ⟨.EOF_TOKEN, ""⟩] := by decide
  have p : Parser.parse A [⟨.LPAREN, "("⟩, ⟨.IDENTIFIER, "x"⟩, ⟨.EQUALS, "="⟩,
      ⟨.NUMBER, "5"⟩, ⟨.RPAREN, ")"⟩, ⟨.DIVIDE, "/"⟩, ⟨.NUMBER, "0"⟩, ⟨.EOF_TOKEN, ""⟩]
      = .ok (.BinaryOpNode (.AssignmentNode "x" (.NumberNode v5)) .DIVIDE
          (.NumberNode z)) := by
    simp [Parser.parse, Parser.parse_pos, Parser.parse_fuel, Parser.expr, Parser.term,
      Parser.factor, Parser.term_loop, Parser.expr_loop, Parser.current_token, h5, h0]
  have he : (ASTNode.BinaryOpNode (.AssignmentNode "x" (.NumberNode v5)) .DIVIDE
      (.NumberNode z)).evaluate A env
      = (.error "Division by zero", Function.update env "x" (some v5)) := by
    simp [ASTNode.evaluate, hz]
  exact ⟨Interpreter.evaluate_of_error t p he, Function.update_same _ _ _⟩

/-- Witness of C17 in exact decimal arithmetic: from the empty variable map
`(x = 5) / 0` returns 0 and leaves a map that binds `x` to 5, so not the
empty one. -/
theorem C17_not_atomic_witness :
    ∃ env1 : Env ℚ,
      Interpreter.evaluate decimalArith "(x = 5) / 0" (emptyEnv ℚ) = some (0, env1)
        ∧ env1 "x" = some 5 ∧ env1 ≠ emptyEnv ℚ := by
  have h5 : decimalArith.stod "5" = some 5 :=
    decimalArith_stod (n := 5) (d := 0) (by decide) (by norm_num)
  have h0 : decimalArith.stod "0" = some 0 :=
    decimalArith_stod (n := 0) (d := 0) (by decide) (by norm_num)
  obtain ⟨e, hx⟩ := (C17_not_atomic decimalArith).1 (emptyEnv ℚ) 5 0 h5 h0
    (by simp [decimalArith])
  refine ⟨_, e, hx, ?_⟩
  intro hne
  rw [hne] at hx
  cases hx

/-- C18: parsing inverts the fully parenthesised rendering.  For every tree
of `NumberLiteral`, `VariableRef`, `BinaryOp` with `+ - * /` and `Assignment`
nodes, each literal rendered as a `NUMBER` token whose text converts to its
value, `Parser::parse` on the rendering followed by `EOF` returns the tree and
has consumed every token before `EOF`. -/
theorem C18_parse_inverts_render {V : Type} (A : Arith V) (txt : V → String)
    (t : ASTNode V) (hr : Renderable A txt t) :
    Parser.parse_pos A (render txt t ++ [⟨.EOF_TOKEN, ""⟩])
        = .ok (t, (render txt t).length)
    ∧ Parser.parse A (render txt t ++ [⟨.EOF_TOKEN, ""⟩]) = .ok t :=
  ⟨Parser.parse_pos_render txt t hr,
    Parser.parse_of_parse_pos (Parser.parse_pos_render txt t hr)⟩

/-- Witness of C18 in exact decimal arithmetic: the tokens of
`( x = ( ( y + 1 ) * 1 ) )` parse to
`Assignment{x, BinaryOp{BinaryOp{y, +, 1}, *, 1}}`. -/
theorem C18_parse_inverts_render_witness :
    Parser.parse decimalArith
        [⟨.LPAREN, "("⟩, ⟨.IDENTIFIER, "x"⟩, ⟨.EQUALS, "="⟩, ⟨.LPAREN, "("⟩,
          ⟨.LPAREN, "("⟩, ⟨.IDENTIFIER, "y"⟩, ⟨.PLUS, "+"⟩, ⟨.NUMBER, "1"⟩,
          ⟨.RPAREN, ")"⟩, ⟨.MULTIPLY, "*"⟩, ⟨.NUMBER, "1"⟩, ⟨.RPAREN, ")"⟩,
          ⟨.RPAREN, ")"⟩, ⟨.EOF_TOKEN, ""⟩]
      = .ok (.AssignmentNode "x" (.BinaryOpNode
          (.BinaryOpNode (.VariableNode "y") .PLUS (.NumberNode 1)) .MULTIPLY
          (.NumberNode 1))) := by
  have h1 : decimalArith.stod "1" = some 1 :=
    decimalArith_stod (n := 1) (d := 0) (by decide) (by norm_num)
  exact (C18_parse_inverts_render decimalArith (fun _ => "1")
    (.AssignmentNode "x" (.BinaryOpNode
      (.BinaryOpNode (.VariableNode "y") .PLUS (.NumberNode 1)) .MULTIPLY (.NumberNode 1)))
    ⟨Or.inr (Or.inr (Or.inl rfl)), ⟨Or.inl rfl, trivial, h1⟩, h1⟩).2

/-- C19: `Parser::parse` terminates on every token sequence, the empty one
and those without a final `EOF` included.  Three calls for every token not
yet consumed bound the depth of the calls, since a call of `expr` from
`factor`, of `factor` from the loop of `term` and of `term` from the loop of
`expr` comes after a token has been consumed; a successful `factor`, `term`
or `expr` ends after its start and within the sequence, the loops never move
back, a successful parse has consumed a token; and on the single token `EOF`,
as on no token, the parser throws the unexpected-token error. -/
theorem C19_parse_terminates {V : Type} (A : Arith V) (tokens : List Token) :
    Parser.parse A tokens ≠ .outOfFuel
    ∧ (∀ fuel pos : Nat, 3 * (tokens.length - pos) + 3 ≤ fuel →
        Parser.factor A tokens fuel pos ≠ .outOfFuel
          ∧ Parser.term A tokens fuel pos ≠ .outOfFuel
          ∧ Parser.expr A tokens fuel pos ≠ .outOfFuel)
    ∧ (∀ (fuel pos : Nat) (node : ASTNode V) (p : Nat),
        (Parser.factor A tokens fuel pos = .ok (node, p)
          ∨ Parser.term A tokens fuel pos = .ok (node, p)
          ∨ Parser.expr A tokens fuel pos = .ok (node, p)) →
        pos < p ∧ p ≤ tokens.length)
    ∧ (∀ (fuel : Nat) (n0 : ASTNode V) (pos : Nat) (node : ASTNode V) (p : Nat),
        (Parser.term_loop A tokens fuel n0 pos = .ok (node, p)
          ∨ Parser.expr_loop A tokens fuel n0 pos = .ok (node, p)) → pos ≤ p)
    ∧ (∀ (node : ASTNode V) (k : Nat), Parser.parse_pos A tokens = .ok (node, k) →
        1 ≤ k ∧ k ≤ tokens.length)
    ∧ Parser.parse A [⟨.EOF_TOKEN, ""⟩] = .throw "Unexpected token: "
    ∧ Parser.parse A [] = .throw "Unexpected token: " := by
  refine ⟨?_, ?_, ?_, ?_, ?_, ?_, ?_⟩
  · have hne := Parser.parse_pos_ne_outOfFuel A tokens
    unfold Parser.parse
    cases h : Parser.parse_pos A tokens with
    | ok a => simp
    | throw msg => simp
    | outOfFuel => exact absurd h hne
  · intro fuel pos h
    obtain ⟨hF, _, hT, _, hE⟩ := Parser.enough_fuel A tokens fuel
    exact ⟨hF pos (by omega), hT pos (by omega), hE pos h⟩
  · intro fuel pos node p h
    obtain ⟨hF, _, hT, _, hE⟩ := Parser.progress A tokens fuel
    rcases h with h | h | h
    · exact hF _ _ _ h
    · exact hT _ _ _ h
    · exact hE _ _ _ h
  · intro fuel n0 pos node p h
    obtain ⟨_, hTL, _, hEL, _⟩ := Parser.progress A tokens fuel
    rcases h with h | h
    · exact (hTL _ _ _ _ h).1
    · exact (hEL _ _ _ _ h).1
  · intro node k h
    have := (Parser.progress A tokens (Parser.parse_fuel tokens)).2.2.2.2 0 node k h
    omega
  · simp [Parser.parse, Parser.parse_pos, Parser.parse_fuel, Parser.expr, Parser.term,
      Parser.factor, Parser.current_token]
  · simp [Parser.parse, Parser.parse_pos, Parser.parse_fuel, Parser.expr, Parser.term,
      Parser.factor, Parser.current_token]

/-- C20: the texts of the tokens `Lexer::tokenize` returns are well formed.
A `NUMBER` token is a number literal, a non-empty run of digits alone or
followed by one `.` and a run of digits, so that exact decimal reading
succeeds on it; an `IDENTIFIER` token is a letter or `_` followed by letters,
digits and `_`. -/
theorem C20_token_texts (text : String) (tokens : List Token)
    (h : Lexer.tokenize text = some tokens) :
    ∀ t ∈ tokens,
      (t.type = .NUMBER →
        isNumberLiteral t.value.data = true
          ∧ (decimalParts t.value.data).isSome = true
          ∧ ∃ d1 d2 : List Char, d1 ≠ [] ∧ (∀ c ∈ d1, Lexer.isdigit c = true)
              ∧ (∀ c ∈ d2, Lexer.isdigit c = true)
              ∧ (t.value.data = d1 ∨ t.value.data = d1 ++ '.' :: d2))
      ∧ (t.type = .IDENTIFIER → isIdentifierText t.value.data = true) := by
  intro t ht
  have hs := Lexer.tokenize_chars_shape text.data tokens h t ht
  refine ⟨fun hn => ?_, hs.2⟩
  have hl := hs.1 hn
  exact ⟨hl, decimalParts_isSome hl, isNumberLiteral_elim hl⟩

/-- Witness of C20: in the tokens of `x1 = 2.5` the text of the number token
is a number literal and the text of the identifier token an identifier text. -/
theorem C20_token_texts_witness :
    isNumberLiteral ("2.5" : String).data = true
    ∧ isIdentifierText ("x1" : String).data = true := by
  have h := C20_token_texts "x1 = 2.5"
    [⟨.IDENTIFIER, "x1"⟩, ⟨.EQUALS, "="⟩, ⟨.NUMBER, "2.5"⟩, ⟨.EOF_TOKEN, ""⟩] (by decide)
  exact ⟨((h ⟨.NUMBER, "2.5"⟩ (by decide)).1 rfl).1, (h ⟨.IDENTIFIER, "x1"⟩ (by decide)).2 rfl⟩

end SimpleLang
